import Mathlib

/-!
Shallow embedding of the repo-map graph-construction pipeline
(`src/graph_construction/graph-builder.ts` — the code-parser half and the
jsnetworkx `CodeGraph` variant of `buildGraph` — and the Neo4j variant of
`buildGraph` with its helpers `edgeExists`, `addUniqueEdge`,
`ensureFolderNode`, `processDirectory`, `processFile` and the reference
resolver, plus `generateNodeId` from `src/utils/utils.ts` and the
`Neo4jGraph` read-only wrapper).

Modelling conventions:
* `generateNodeId` is an md5 digest in the source; it is modelled as the
  collision-free pairing `repoId ++ ":" ++ nodePath` (the code relies on the
  digest being injective, so hash collisions are assumed away).
* JavaScript `Map`s are association lists with JS insertion-order `set`
  semantics (`aset`), `Map.has`/`Map.get` are `List.lookup`.
* File-system paths are handled segment-wise: a repo-relative path is a
  `List String` of path segments rendered with `/` separators
  (`renderSegs`/`renderRel`), `path.dirname` is `List.dropLast`,
  `path.basename` is the last segment, and an absolute path is
  `localPath ++ "/" ++ relative` (the walk builds paths exactly this way via
  `path.join`).  Input file lists are given by their repo-relative segment
  lists; the source receives the equivalent absolute paths.
* Wall-clock fields (`createdAt`/`modifiedAt`, from `new Date()` /
  `fs.statSync` timestamps) are elided from node data: no claim observes
  them and they are environment effects, not part of the data flow.
* Babel ASTs are modelled by the inductive `JsNode`, covering exactly the
  node kinds the traversal in `parseFile` inspects (imports, class/function
  declarations, class methods, call/new/throw expressions) plus opaque
  nodes with children for everything else.  Subtrees of call callees are
  identifiers/member chains, which trigger no visitor, so they are stored
  structurally rather than re-traversed.
* A promise that rejects is `Except.error`; the `parseFile` executor path
  that returns without resolving (unsupported extension) is the
  distinguished error `ParseErr.neverSettles`, since awaiting it blocks
  `buildGraph` forever.
-/

deriving instance DecidableEq for Except

namespace RepoMap

/-! ## Small string helpers (segment rendering, extname, lookups) -/

/-- Render a nonempty repo-relative segment list with `/` separators;
`renderSegs [] = ""` mirrors `path.relative(p, p) = ""`. -/
def renderSegs : List String → String
  | [] => ""
  | [x] => x
  | x :: y :: rest => x ++ "/" ++ renderSegs (y :: rest)

/-- `path.relative` result with the `|| '.'` default applied: the source
normalises the empty relative path to `"."`. -/
def renderRel (segs : List String) : String :=
  if segs = [] then "." else renderSegs segs

/-- Last path segment, i.e. `path.basename`. -/
def lastSeg (segs : List String) : String := segs.getLastD ""

/-- `p` is a string prefix of `s` (char-list based, kernel-friendly). -/
def strStarts (p s : String) : Bool := p.data.isPrefixOf s.data

/-- Split a char list at `.` separators (helper for `extnameOf`). -/
def splitOnDot : List Char → List (List Char)
  | [] => [[]]
  | c :: rest =>
    let r := splitOnDot rest
    if c = '.' then [] :: r
    else
      match r with
      | [] => [[c]]
      | p :: ps => (c :: p) :: ps

/-- `path.extname` on a basename: the suffix from the last `.`, except that
a leading-dot file with no further dot (".hidden") has no extension. -/
def extnameOf (nm : String) : String :=
  match splitOnDot nm.data with
  | [] => ""
  | [_] => ""
  | first :: rest =>
    if first = [] ∧ rest.length = 1 then ""
    else "." ++ String.mk (rest.getLastD [])

/-- ASCII `toLowerCase` on a string. -/
def toLowerS (s : String) : String := String.mk (s.data.map Char.toLower)

/-- Decimal rendering of a line number (template interpolation of a number). -/
def natStr (n : Nat) : String := Nat.repr n

/-- JS template interpolation of a nullable string (`null` prints as "null"). -/
def optStr : Option String → String
  | some s => s
  | none => "null"

/-- JS `Map.set`: replace in place if the key is present, else append. -/
def aset {α : Type} : List (String × α) → String → α → List (String × α)
  | [], k, v => [(k, v)]
  | (k', v') :: rest, k, v =>
    if k' = k then (k, v) :: rest else (k', v') :: aset rest k v

/-- `String.includes('#')`. -/
def strHasHash (s : String) : Bool := s.data.contains '#'

/-- `s.split('#')[0]`: the prefix before the first `#`. -/
def hashHead (s : String) : String := String.mk (s.data.takeWhile (fun c => c ≠ '#'))

/-! ## Tag data model (`Tag` in `src/types/index.ts`) -/

/-- The `parent` descriptor on a tag: a value-typed back-reference to the
enclosing scope.  `name` is `any` in the source and can be `null`. -/
structure TagParent where
  name : Option String
  type : String
  locFilePath : String
  locStartLine : Nat
deriving DecidableEq, Repr

/-- A `Tag`: one extraction event (`kind` is the string "def" or "ref"). -/
structure Tag where
  name : String
  type : String
  kind : String
  filePath : String
  targetFile : Option String := none
  startLine : Nat
  endLine : Nat
  text : Option String := none
  parent : Option TagParent := none
deriving DecidableEq, Repr

/-! ## Babel AST model -/

/-- Location recorded by `DEFINED_SYMBOLS` values. -/
structure SymLoc where
  file : String
  line : Nat
deriving DecidableEq, Repr

/-- An import specifier: a named `ImportSpecifier` (local and imported
names) or a default/namespace specifier (exported name taken as "default"). -/
inductive ImportSpec where
  | specifier (localName importedName : String)
  | defaultOrNs (localName : String)
deriving DecidableEq, Repr

/-- A class-method key: identifier, string literal, or computed. -/
inductive MethodKey where
  | kid (name : String)
  | kstr (value : String)
  | kcomputed
deriving DecidableEq, Repr

/-- The object part of a member-expression callee, as far as
`getObjectName` / `shouldIgnoreFunctionCall` inspect it: an identifier, a
nested member expression (with its own object's identifier name when it has
one), or anything else. -/
inductive MemPart where
  | mid (name : String)
  | mmember (objName : Option String)
  | mother
deriving DecidableEq, Repr

/-- The property part of a member-expression callee. -/
inductive PropPart where
  | pid (name : String)
  | pother
deriving DecidableEq, Repr

/-- A call-expression callee: identifier, member expression, or an opaque
expression (the handlers read nothing from the latter). -/
inductive Callee where
  | cid (name : String)
  | cmember (obj : MemPart) (prop : PropPart)
  | cother
deriving DecidableEq, Repr

/-- A new-expression callee: identifier or anything else. -/
inductive NewCallee where
  | nid (name : String)
  | nother
deriving DecidableEq, Repr

mutual
/-- Babel AST nodes, restricted to the kinds the `parseFile` traversal
inspects; `other` covers every remaining node kind (traversed, no visitor
action).  `exportNamed` stands for an `ExportNamedDeclaration`: the source
has no visitor for exports, so it behaves like `other`. -/
inductive JsNode where
  | importDecl (source : String) (specifiers : List ImportSpec)
  | classDecl (id : Option String) (body : JsNodes) (startLine endLine : Nat)
  | funcDecl (id : Option String) (body : JsNodes) (startLine endLine : Nat)
  | classMethod (isStatic : Bool) (key : MethodKey) (body : JsNodes) (startLine endLine : Nat)
  | classPrivateMethod (keyName : String) (body : JsNodes) (startLine endLine : Nat)
  | callExpr (callee : Callee) (args : JsNodes) (startLine endLine : Nat)
  | newExpr (callee : NewCallee) (args : JsNodes) (startLine endLine : Nat)
  | throwStmt (argument : JsNode)
  | exportNamed (exportedName : String) (children : JsNodes)
  | ident (name : String)
  | other (children : JsNodes)
deriving DecidableEq, Repr

/-- A list of AST nodes (mutual with `JsNode` so traversal recursion is
structural and kernel-evaluable). -/
inductive JsNodes where
  | nil
  | cons (n : JsNode) (rest : JsNodes)
deriving DecidableEq, Repr
end

/-! ## Module-level parser state
(`DEFINED_SYMBOLS`, `EXPORT_MAP`, `FILE_REFERENCES`, `IMPORT_RESOLVER` in
the code-parser — process-wide mutable maps; `IMPORTED_IDENTIFIERS` is
declared but never read or written and is omitted). -/

structure ModuleState where
  definedSymbols : List (String × SymLoc)
  exportMap : List (String × List String)
  fileReferences : List (String × String)
  importResolver : List (String × String)
deriving DecidableEq, Repr

/-- The empty module state a fresh process starts with. -/
def ModuleState.initial : ModuleState :=
  { definedSymbols := [], exportMap := [], fileReferences := [], importResolver := [] }

/-- Traversal state inside one `parseFile` call: the tag accumulator, the
`currentClass` scope variable (local to the call), and the module state. -/
structure PState where
  tags : List Tag
  currentClass : Option String
  ms : ModuleState
deriving DecidableEq, Repr

/-! ## The combined global-symbols set

Modelled from the external `globals` npm package: `allGlobals` is the union
of the browser, node and es2021 global *binding names*.  The package lists
global variables only — prototype method names (e.g. `push`, `map`,
`toString`) are not members.  (`getBuiltinPrototypeMethods` in the source
computes such a method set but its result is never used.)  The list below
is the membership-relevant fragment of that set. -/
def allGlobals : List String :=
  ["console", "process", "JSON", "Math", "Array", "Object", "String",
   "Number", "Boolean", "Error", "Map", "Set", "WeakMap", "WeakSet",
   "Promise", "Symbol", "RegExp", "Date", "BigInt", "Function", "Proxy",
   "Reflect", "parseInt", "parseFloat", "isNaN", "isFinite", "eval",
   "fetch", "window", "document", "navigator", "setTimeout", "setInterval",
   "clearTimeout", "clearInterval", "queueMicrotask", "structuredClone",
   "require", "module", "exports", "global", "globalThis", "Buffer",
   "URL", "URLSearchParams", "TextEncoder", "TextDecoder", "AbortController",
   "Infinity", "NaN", "undefined", "atob", "btoa"]

/-! ## `shouldIgnoreFunctionCall` and the name-extraction helpers -/

/-- `shouldIgnoreFunctionCall` from the code-parser: true for
`throw new Error(...)`, bare `new Error(...)`, member calls whose object or
property identifier is a global, and plain calls whose identifier is a
global. -/
def shouldIgnoreFunctionCall : JsNode → Bool
  | JsNode.throwStmt arg =>
    (match arg with
     | JsNode.newExpr (NewCallee.nid nm) _ _ _ => nm = "Error"
     | _ => false)
  | JsNode.newExpr (NewCallee.nid nm) _ _ _ => nm = "Error"
  | JsNode.newExpr NewCallee.nother _ _ _ => false
  | JsNode.callExpr callee _ _ _ =>
    (match callee with
     | Callee.cmember (MemPart.mid o) (PropPart.pid p) =>
       allGlobals.contains o || allGlobals.contains p
     | Callee.cmember _ _ => false
     | Callee.cid nm => allGlobals.contains nm
     | Callee.cother => false)
  | _ => false

/-- `getFunctionName` from the code-parser, as invoked on the call node
itself: identifier nodes yield their name; a call expression that is not
ignored yields its callee identifier / member-property name; everything
else yields the empty string. -/
def getFunctionNameOf : JsNode → String
  | JsNode.ident nm => nm
  | JsNode.callExpr callee args sl el =>
    if shouldIgnoreFunctionCall (JsNode.callExpr callee args sl el) then ""
    else
      match callee with
      | Callee.cid nm => nm
      | Callee.cmember _ (PropPart.pid p) => p
      | _ => ""
  | _ => ""

/-- `getObjectName` applied to a member-callee's object part. -/
def getObjectNameOf : MemPart → String
  | MemPart.mid o => o
  | MemPart.mmember (some i) => i
  | MemPart.mmember none => ""
  | MemPart.mother => ""

/-- Local name of an import specifier (`spec.local.name`). -/
def ImportSpec.localName : ImportSpec → String
  | ImportSpec.specifier l _ => l
  | ImportSpec.defaultOrNs l => l

/-- Exported name derivation: named specifiers use the imported
identifier/string, default and namespace specifiers use "default". -/
def ImportSpec.exportedName : ImportSpec → String
  | ImportSpec.specifier _ imp => imp
  | ImportSpec.defaultOrNs _ => "default"

/-- The import-declaration visitor body: for each specifier, if the export
map already has the source file and that file's export set has the
imported name, register an import-resolver alias. -/
def applyImportSpec (source : String) (ms : ModuleState) (sp : ImportSpec) : ModuleState :=
  if (List.lookup source ms.exportMap).isSome then
    match List.lookup source ms.exportMap with
    | some names =>
      if names.contains sp.exportedName then
        { ms with
          importResolver := aset ms.importResolver sp.localName
                              (source ++ "#" ++ sp.exportedName) }
      else ms
    | none => ms
  else ms

/-- The `enter` visitor of the single AST traversal in `parseFile`. -/
def enterNode (relPath : String) (n : JsNode) (s : PState) : PState :=
  match n with
  | JsNode.importDecl source specs =>
    { s with ms := specs.foldl (applyImportSpec source) s.ms }
  | JsNode.classDecl id _ sl el =>
    (match id with
     | some nm =>
       { s with currentClass := some nm,
                tags := s.tags ++ [{ name := nm, type := "class", kind := "def",
                                     filePath := relPath, startLine := sl, endLine := el }] }
     | none => s)
  | JsNode.funcDecl id _ sl el =>
    (match id with
     | some nm =>
       if nm ≠ "" then
         { s with tags := s.tags ++ [{ name := nm, type := "function", kind := "def",
                                       filePath := relPath, startLine := sl, endLine := el }] }
       else s
     | none => s)
  | JsNode.classMethod isStatic key _ sl el =>
    let methodName :=
      match key with
      | MethodKey.kid nm => nm
      | MethodKey.kstr v => v
      | MethodKey.kcomputed => "[computed]"
    { s with tags := s.tags ++
        [{ name := if isStatic then optStr s.currentClass ++ "." ++ methodName else methodName,
           type := if isStatic then "staticMethod" else "method",
           kind := "def", filePath := relPath, startLine := sl, endLine := el,
           parent := some { name := s.currentClass, type := "class",
                            locFilePath := relPath, locStartLine := sl } }] }
  | JsNode.classPrivateMethod keyName _ sl el =>
    { s with tags := s.tags ++
        [{ name := "#" ++ keyName, type := "privateMethod", kind := "def",
           filePath := relPath, startLine := sl, endLine := el,
           parent := some { name := s.currentClass, type := "class",
                            locFilePath := relPath, locStartLine := sl } }] }
  | JsNode.callExpr callee args sl el =>
    let node := JsNode.callExpr callee args sl el
    let functionName := getFunctionNameOf node
    if shouldIgnoreFunctionCall node then s
    else
      let s1 :=
        { s with tags := s.tags ++
            [{ name := functionName, type := "functionCall", kind := "ref",
               filePath := relPath, startLine := sl, endLine := el,
               parent := some
                 { name := some (match s.currentClass with
                                 | some c => c ++ "." ++ c
                                 | none => "global"),
                   type := (match s.currentClass with
                            | some _ => "method"
                            | none => "function"),
                   locFilePath := relPath, locStartLine := sl } }] }
      match callee with
      | Callee.cid calleeName =>
        let resolvedName := (List.lookup calleeName s1.ms.importResolver).getD calleeName
        if (List.lookup resolvedName s1.ms.definedSymbols).isSome || strHasHash resolvedName then
          let targetFile : Option String :=
            if strHasHash resolvedName then some (hashHead resolvedName)
            else (List.lookup resolvedName s1.ms.definedSymbols).map (fun loc => loc.file)
          match targetFile with
          | some tf =>
            if (List.lookup (relPath ++ ":" ++ tf) s1.ms.fileReferences).isSome then s1
            else
              { s1 with
                ms := { s1.ms with
                        fileReferences := aset s1.ms.fileReferences
                                            (relPath ++ ":" ++ tf) tf },
                tags := s1.tags ++
                  [{ name := calleeName, type := "functionCall", kind := "ref",
                     filePath := relPath, targetFile := some tf,
                     startLine := sl, endLine := el }] }
          | none => s1
        else s1
      | Callee.cmember obj prop =>
        let objectName := getObjectNameOf obj
        (match List.lookup objectName s1.ms.definedSymbols with
         | some loc =>
           let tf := loc.file
           let methodName :=
             match prop with
             | PropPart.pid p => p
             | PropPart.pother => "[computed]"
           let key := relPath ++ ":" ++ tf ++ ":" ++ objectName ++ "." ++ methodName
           if (List.lookup key s1.ms.fileReferences).isSome then s1
           else
             { s1 with
               ms := { s1.ms with fileReferences := aset s1.ms.fileReferences key tf },
               tags := s1.tags ++
                 [{ name := objectName ++ "." ++ methodName, type := "methodCall",
                    kind := "ref", filePath := relPath, targetFile := some tf,
                    startLine := sl, endLine := el }] }
         | none => s1)
      | Callee.cother => s1
  | JsNode.newExpr nc args sl el =>
    (match nc with
     | NewCallee.nid nm =>
       if shouldIgnoreFunctionCall (JsNode.newExpr (NewCallee.nid nm) args sl el) then s
       else
         { s with tags := s.tags ++
             [{ name := nm, type := "constructorCall", kind := "ref",
                filePath := relPath, startLine := sl, endLine := el }] }
     | NewCallee.nother => s)
  | JsNode.throwStmt _ => s
  | JsNode.exportNamed _ _ => s
  | JsNode.ident _ => s
  | JsNode.other _ => s

/-- The `exit` visitor: leaving any class declaration resets
`currentClass` to `null`. -/
def exitNode (n : JsNode) (s : PState) : PState :=
  match n with
  | JsNode.classDecl _ _ _ _ => { s with currentClass := none }
  | _ => s

mutual
/-- Depth-first traversal (`traverse.default`): enter, children, exit.
Callee identifier/member subtrees contain no visitor-relevant nodes and
are not re-traversed. -/
def visit (relPath : String) : JsNode → PState → PState
  | JsNode.importDecl src specs, s =>
    exitNode (JsNode.importDecl src specs) (enterNode relPath (JsNode.importDecl src specs) s)
  | JsNode.classDecl id body sl el, s =>
    exitNode (JsNode.classDecl id body sl el)
      (visitList relPath body (enterNode relPath (JsNode.classDecl id body sl el) s))
  | JsNode.funcDecl id body sl el, s =>
    exitNode (JsNode.funcDecl id body sl el)
      (visitList relPath body (enterNode relPath (JsNode.funcDecl id body sl el) s))
  | JsNode.classMethod st k body sl el, s =>
    exitNode (JsNode.classMethod st k body sl el)
      (visitList relPath body (enterNode relPath (JsNode.classMethod st k body sl el) s))
  | JsNode.classPrivateMethod k body sl el, s =>
    exitNode (JsNode.classPrivateMethod k body sl el)
      (visitList relPath body (enterNode relPath (JsNode.classPrivateMethod k body sl el) s))
  | JsNode.callExpr c args sl el, s =>
    exitNode (JsNode.callExpr c args sl el)
      (visitList relPath args (enterNode relPath (JsNode.callExpr c args sl el) s))
  | JsNode.newExpr c args sl el, s =>
    exitNode (JsNode.newExpr c args sl el)
      (visitList relPath args (enterNode relPath (JsNode.newExpr c args sl el) s))
  | JsNode.throwStmt arg, s =>
    exitNode (JsNode.throwStmt arg)
      (visit relPath arg (enterNode relPath (JsNode.throwStmt arg) s))
  | JsNode.exportNamed nm kids, s =>
    exitNode (JsNode.exportNamed nm kids)
      (visitList relPath kids (enterNode relPath (JsNode.exportNamed nm kids) s))
  | JsNode.ident nm, s =>
    exitNode (JsNode.ident nm) (enterNode relPath (JsNode.ident nm) s)
  | JsNode.other kids, s =>
    exitNode (JsNode.other kids)
      (visitList relPath kids (enterNode relPath (JsNode.other kids) s))

/-- Traverse a node list left to right. -/
def visitList (relPath : String) : JsNodes → PState → PState
  | JsNodes.nil, s => s
  | JsNodes.cons n rest, s => visitList relPath rest (visit relPath n s)
end

/-! ## `parseFile` -/

/-- How a `parseFile` promise can fail to deliver tags: the babel parse
threw (rejection), or — for an unsupported extension — the executor
returned without resolving, so awaiting the promise never completes. -/
inductive ParseErr where
  | parseFailure
  | neverSettles
deriving DecidableEq, Repr

/-- A file on disk, as the pipeline observes it: its size-zero flag and the
result of parsing its text (`none` = the parser throws on this content). -/
structure FileContent where
  sizeZero : Bool
  parsed : Option JsNodes
deriving DecidableEq, Repr

/-- The extension allowlist inside `parseFile`. -/
def parseExts : List String := [".js", ".ts", ".tsx", ".jsx"]

/-- `parseFile(filePath, repoRoot)`: check the extension, parse, run the
single AST traversal, produce the tag list; module state is threaded. -/
def parseFileM (fileSegs : List String) (content : FileContent) (ms : ModuleState) :
    Except ParseErr (List Tag) × ModuleState :=
  let relPath := renderRel fileSegs
  let ext := toLowerS (extnameOf (lastSeg fileSegs))
  if parseExts.contains ext then
    match content.parsed with
    | none => (Except.error ParseErr.parseFailure, ms)
    | some prog =>
      let st := visitList relPath prog { tags := [], currentClass := none, ms := ms }
      (Except.ok st.tags, st.ms)
  else
    (Except.error ParseErr.neverSettles, ms)

/-! ## Graph data model (`GraphNodeData`, `GraphEdgeData`, `GraphData`) -/

/-- `GraphNodeData` (timestamps elided, see header). -/
structure GraphNodeData where
  nodeId : String
  repoId : String
  name : String
  type : String
  filePath : String
  startLine : Nat
  endLine : Nat
  text : Option String := none
  isDirectory : Option Bool := none
  isReference : Option Bool := none
deriving DecidableEq, Repr

/-- `GraphEdgeData`. -/
structure GraphEdgeData where
  sourceId : String
  targetId : String
  type : String
  repoId : String
deriving DecidableEq, Repr

/-- The in-memory graph store during build: a nodes `Map` and an edges
array. -/
structure GraphData where
  nodes : List (String × GraphNodeData)
  edges : List GraphEdgeData
deriving DecidableEq, Repr

/-- `graph.nodes.has`. -/
def nhas (g : GraphData) (nodeId : String) : Bool :=
  (List.lookup nodeId g.nodes).isSome

/-- `generateNodeId` from `src/utils/utils.ts`: an md5 digest of
`repoId ++ ":" ++ nodePath`, modelled as the (injective) string itself. -/
def generateNodeId (repoId nodePath : String) : String :=
  repoId ++ ":" ++ nodePath

/-- `edgeExists`: an edge with this source, target and type is present.
(The source also accepts `edge.repoId === undefined`; `GraphEdgeData.repoId`
is a required field and every pushed edge sets it, so that disjunct is
vacuous and dropped.) -/
def edgeExists (edges : List GraphEdgeData) (sourceId targetId type repoId : String) : Bool :=
  edges.any fun e =>
    e.sourceId == sourceId && e.targetId == targetId && e.type == type && e.repoId == repoId

/-- `addUniqueEdge`: refuse exact duplicates, and for `CONTAINS` also
refuse when the reverse edge exists; otherwise push.  Returns the new edge
array and whether an edge was inserted. -/
def addUniqueEdge (edges : List GraphEdgeData) (sourceId targetId type repoId : String) :
    List GraphEdgeData × Bool :=
  let exactMatch := edges.any fun e =>
    e.sourceId == sourceId && e.targetId == targetId && e.type == type && e.repoId == repoId
  if exactMatch then (edges, false)
  else
    let reverseExists := type == "CONTAINS" && edges.any fun e =>
      e.sourceId == targetId && e.targetId == sourceId && e.type == type && e.repoId == repoId
    if reverseExists then (edges, false)
    else (edges ++ [{ sourceId := sourceId, targetId := targetId, type := type, repoId := repoId }], true)

/-! ## `ensureFolderNode`

The source recurses on `path.dirname`; here the recursion is fuelled by the
segment count (the wrapper supplies exactly enough fuel, and `dirname`
strictly shortens the path, so the fuel-exhausted arm is unreachable). -/

/-- Tail of one `ensureFolderNode` level: connect the parent id returned by
the recursive call to this folder node (plus the dead re-insertion block of
the source). -/
def ensureFolderLink (repoId nodeId : String) (folderNode : GraphNodeData)
    (pr : String × GraphData) : GraphData :=
  let g2 := pr.snd
  let g3 : GraphData :=
    { g2 with edges := (addUniqueEdge g2.edges pr.fst nodeId "CONTAINS" repoId).fst }
  -- dead re-insertion block from the source (`if (!graph.nodes.has(nodeId))`
  -- after the node was just set): it can never fire
  if nhas g3 nodeId then g3
  else { g3 with nodes := aset g3.nodes nodeId folderNode }

def ensureFolderNodeF (repoId : String) : Nat → List String → GraphData → String × GraphData
  | _, [], g => (generateNodeId repoId "repo:root", g)
  | 0, _ :: _, g => (generateNodeId repoId "repo:root", g)
  | Nat.succ fuel, s :: ss, g =>
    let segs := s :: ss
    let nodeId := generateNodeId repoId ("folder:" ++ renderSegs segs)
    if nhas g nodeId then (nodeId, g)
    else
      let folderNode : GraphNodeData :=
        { nodeId := nodeId, repoId := repoId, name := lastSeg segs, type := "FOLDER",
          filePath := renderSegs segs, startLine := 0, endLine := 0,
          isDirectory := some true }
      let g1 : GraphData := { g with nodes := aset g.nodes nodeId folderNode }
      (nodeId, ensureFolderLink repoId nodeId folderNode
        (ensureFolderNodeF repoId fuel segs.dropLast g1))

/-- `ensureFolderNode(graph, repoId, folderPath, repoPath)`. -/
def ensureFolderNode (repoId : String) (segs : List String) (g : GraphData) :
    String × GraphData :=
  ensureFolderNodeF repoId segs.length segs g

/-! ## The file system, as the walk observes it -/

mutual
/-- A file-system node: a file with content, or a directory with entries. -/
inductive FsTree where
  | file (content : FileContent)
  | dir (entries : FsEntries)
deriving DecidableEq, Repr

/-- Ordered directory entries (name plus subtree), mutual with `FsTree` so
the walk's recursion is structural. -/
inductive FsEntries where
  | nil
  | cons (name : String) (t : FsTree) (rest : FsEntries)
deriving DecidableEq, Repr
end

/-- Look a repo-relative segment path up in a directory-entry list
(`fs.statSync` + `fs.readFileSync`); `none` models the stat throwing or the
path not denoting a regular file. -/
def fsLookupFile : FsEntries → List String → Option FileContent
  | _, [] => none
  | FsEntries.nil, _ => none
  | FsEntries.cons nm t rest, seg :: segs =>
    if nm = seg then
      match t, segs with
      | FsTree.file c, [] => some c
      | FsTree.dir sub, _ :: _ => fsLookupFile sub segs
      | _, _ => none
    else fsLookupFile rest (seg :: segs)

/-! ## The Neo4j-variant `buildGraph` (unnamed source file, `part_003`) -/

/-- Why the Neo4j-variant `buildGraph` promise can fail to produce a graph. -/
inductive BuildErr where
  /-- a `parseFile` rejection escaped (no try/catch at that call site) -/
  | parseRejected
  /-- an awaited `parseFile` promise never settles, so the build never completes -/
  | neverCompletes
deriving DecidableEq, Repr

/-- Mutable state threaded through the Neo4j-variant build: the graph, the
definitions map, the reference buffer, the parser module state, and the
resolution counters. -/
structure BuildState where
  graph : GraphData
  definitions : List (String × Tag)
  references : List Tag
  ms : ModuleState
  resolvedCount : Nat := 0
  missingDefinitions : Nat := 0
  missingNodes : Nat := 0
  resolvedRefs : List String := []
deriving DecidableEq, Repr

/-- The shared per-tag processing in `processFile` and the `buildGraph`
files loop (the two sites repeat the same statements verbatim): definitions
become nodes plus a guarded `CONTAINS` push and a definitions-map entry,
references are buffered. -/
def applyTags (repoId repoPath : String) (fileSegs : List String) (fileNodeId : String) :
    List Tag → BuildState → BuildState
  | [], st => st
  | tag :: rest, st =>
    let st' :=
      if tag.kind == "def" then
        let absPath := repoPath ++ "/" ++ renderSegs fileSegs
        let nodeId := generateNodeId repoId (absPath ++ ":" ++ tag.name ++ ":" ++ natStr tag.startLine)
        let node : GraphNodeData :=
          { nodeId := nodeId, repoId := repoId, name := tag.name, type := tag.type,
            filePath := renderSegs fileSegs, startLine := tag.startLine,
            endLine := tag.endLine, text := tag.text }
        let g1 : GraphData := { st.graph with nodes := aset st.graph.nodes nodeId node }
        let g2 : GraphData :=
          if edgeExists g1.edges fileNodeId nodeId "CONTAINS" repoId then g1
          else { g1 with edges := g1.edges ++
                   [{ sourceId := fileNodeId, targetId := nodeId,
                      type := "CONTAINS", repoId := repoId }] }
        { st with graph := g2,
                  definitions := aset st.definitions (tag.name ++ ":" ++ tag.type) tag }
      else if tag.kind == "ref" then
        { st with references := st.references ++ [tag] }
      else st
    applyTags repoId repoPath fileSegs fileNodeId rest st'

/-- The file-node block at the top of `processFile`: ensure the file node
and its parent `CONTAINS` edge. -/
def ensureFileNodeW (repoId : String) (fileSegs : List String) (parentD : String)
    (st : BuildState) : BuildState :=
  let fileNodeId := generateNodeId repoId ("file:" ++ renderSegs fileSegs)
  if nhas st.graph fileNodeId then st
  else
    let fileNode : GraphNodeData :=
      { nodeId := fileNodeId, repoId := repoId, name := lastSeg fileSegs, type := "FILE",
        filePath := renderSegs fileSegs, startLine := 0, endLine := 0,
        isDirectory := some false }
    let g1 : GraphData := { st.graph with nodes := aset st.graph.nodes fileNodeId fileNode }
    let g2 : GraphData :=
      { g1 with edges := (addUniqueEdge g1.edges (generateNodeId repoId parentD)
                            fileNodeId "CONTAINS" repoId).fst }
    { st with graph := g2 }

/-- `processFile`: ensure the file node and its parent `CONTAINS` edge,
then parse inside try/catch (a parse rejection is caught and logged; the
file's node remains with no definitions). -/
def processFileW (repoId repoPath : String) (fileSegs : List String) (parentD : String)
    (content : FileContent) (st : BuildState) : Except BuildErr BuildState :=
  match parseFileM fileSegs content (ensureFileNodeW repoId fileSegs parentD st).ms with
  | (Except.error ParseErr.parseFailure, ms') =>
    Except.ok { ensureFileNodeW repoId fileSegs parentD st with ms := ms' }
  | (Except.error ParseErr.neverSettles, _) =>
    -- an await that never returns cannot be caught; the build never completes
    -- (unreachable from the walk, whose extension filter matches parseFile's)
    Except.error BuildErr.neverCompletes
  | (Except.ok tags, ms') =>
    Except.ok (applyTags repoId repoPath fileSegs
      (generateNodeId repoId ("file:" ++ renderSegs fileSegs)) tags
      { ensureFileNodeW repoId fileSegs parentD st with ms := ms' })

/-- The walk's extension allowlist (`['.js', '.ts', '.jsx', '.tsx']`). -/
def walkExts : List String := [".js", ".ts", ".jsx", ".tsx"]

/-- The directory-node creation block at the top of `processDirectory`:
create the directory node (repository-typed for the root path `"."`) if
absent and connect it to its parent unless it is the root. -/
def ensureDirNode (repoId repoName : String) (relSegs : List String) (parentD : String)
    (st : BuildState) : BuildState :=
  let relStr := renderRel relSegs
  let dirNodeId := generateNodeId repoId ("folder:" ++ relStr)
  if nhas st.graph dirNodeId then st
  else
    let dirNode : GraphNodeData :=
      { nodeId := dirNodeId, repoId := repoId,
        name := if relStr = "." then repoName else lastSeg relSegs,
        type := if relStr = "." then "REPOSITORY" else "FOLDER",
        filePath := relStr, startLine := 0, endLine := 0, isDirectory := some true }
    let g1 : GraphData := { st.graph with nodes := aset st.graph.nodes dirNodeId dirNode }
    let g2 : GraphData :=
      if relStr ≠ "." ∧ generateNodeId repoId parentD ≠ dirNodeId then
        if edgeExists g1.edges (generateNodeId repoId parentD) dirNodeId "CONTAINS" repoId then g1
        else { g1 with edges := g1.edges ++
                 [{ sourceId := generateNodeId repoId parentD, targetId := dirNodeId,
                    type := "CONTAINS", repoId := repoId }] }
      else g1
    { st with graph := g2 }

/-- The entry loop of `processDirectory`: skip dot-directories and
`node_modules`, recurse into directories (creating their nodes via
`ensureDirNode` first — the body of the recursive `processDirectory`
call), and process source files.  `relSegs` is the current directory. -/
def processEntriesW (repoId repoPath repoName : String) :
    List String → FsEntries → BuildState → Except BuildErr BuildState
  | _, FsEntries.nil, st => Except.ok st
  | relSegs, FsEntries.cons name t rest, st =>
    match t with
    | FsTree.dir sub =>
      if strStarts "." name || name == "node_modules" then
        processEntriesW repoId repoPath repoName relSegs rest st
      else
        let st1 := ensureDirNode repoId repoName (relSegs ++ [name])
                     ("folder:" ++ renderRel relSegs) st
        match processEntriesW repoId repoPath repoName (relSegs ++ [name]) sub st1 with
        | Except.error e => Except.error e
        | Except.ok st' => processEntriesW repoId repoPath repoName relSegs rest st'
    | FsTree.file c =>
      if walkExts.contains (toLowerS (extnameOf name)) then
        match processFileW repoId repoPath (relSegs ++ [name])
                ("folder:" ++ renderRel relSegs) c st with
        | Except.error e => Except.error e
        | Except.ok st' => processEntriesW repoId repoPath repoName relSegs rest st'
      else
        processEntriesW repoId repoPath repoName relSegs rest st

/-- `processDirectory`: the directory-node block followed by the entry
loop. -/
def processDirW (repoId repoPath repoName : String) (relSegs : List String) (parentD : String)
    (entries : FsEntries) (st : BuildState) : Except BuildErr BuildState :=
  processEntriesW repoId repoPath repoName relSegs entries
    (ensureDirNode repoId repoName relSegs parentD st)

/-- The folder-chain/file-node block of one files-loop iteration: ensure
the ancestor folders, create the file node, connect it to its parent. -/
def fileStepEnsure (repoId : String) (f : List String) (st : BuildState) : BuildState :=
  let relStr := renderSegs f
  let fileNodeId := generateNodeId repoId ("file:" ++ relStr)
  let er := ensureFolderNode repoId f.dropLast st.graph
  let fileNode : GraphNodeData :=
    { nodeId := fileNodeId, repoId := repoId, name := lastSeg f, type := "FILE",
      filePath := relStr, startLine := 0, endLine := 0, isDirectory := some false }
  let g1 : GraphData := { er.snd with nodes := aset er.snd.nodes fileNodeId fileNode }
  let g2 : GraphData :=
    { g1 with edges := (addUniqueEdge g1.edges er.fst fileNodeId "CONTAINS" repoId).fst }
  { st with graph := g2 }

/-- One iteration of the `buildGraph` files loop: skip files already in the
graph, inaccessible files, and empty files; otherwise ensure the folder
chain, create the file node, and parse — with **no** try/catch, so a parse
rejection aborts the whole build. -/
def fileStep (repoId repoPath : String) (fsRoot : FsEntries) (f : List String)
    (st : BuildState) : Except BuildErr BuildState :=
  if nhas st.graph (generateNodeId repoId ("file:" ++ renderSegs f)) then Except.ok st
  else
    match fsLookupFile fsRoot f with
    | none => Except.ok st      -- fs.statSync threw: logged, continue
    | some c =>
      if c.sizeZero then Except.ok st   -- skip empty file
      else
        match parseFileM f c (fileStepEnsure repoId f st).ms with
        | (Except.error ParseErr.parseFailure, _) => Except.error BuildErr.parseRejected
        | (Except.error ParseErr.neverSettles, _) => Except.error BuildErr.neverCompletes
        | (Except.ok tags, ms') =>
          Except.ok (applyTags repoId repoPath f
            (generateNodeId repoId ("file:" ++ renderSegs f)) tags
            { fileStepEnsure repoId f st with ms := ms' })

/-- The files loop of the Neo4j-variant `buildGraph`. -/
def filesLoop (repoId repoPath : String) (fsRoot : FsEntries) :
    List (List String) → BuildState → Except BuildErr BuildState
  | [], st => Except.ok st
  | f :: rest, st =>
    match fileStep repoId repoPath fsRoot f st with
    | Except.error e => Except.error e
    | Except.ok st' => filesLoop repoId repoPath fsRoot rest st'

/-- The tail of one resolver iteration, after the reference node is known
to exist: look up the definition node id and insert the `REFERENCES` edge
(deduplicated through `resolvedRefs` and `addUniqueEdge`). -/
def resolveRefTail (repoId : String) (refNodeId defNodeId : String) (st : BuildState) :
    BuildState :=
  if nhas st.graph defNodeId then
    let refKey := refNodeId ++ "-" ++ defNodeId ++ "-REFERENCES"
    if st.resolvedRefs.contains refKey then st
    else
      let pr := addUniqueEdge st.graph.edges refNodeId defNodeId "REFERENCES" repoId
      if pr.snd then
        { st with graph := { st.graph with edges := pr.fst },
                  resolvedCount := st.resolvedCount + 1,
                  resolvedRefs := st.resolvedRefs ++ [refKey] }
      else { st with graph := { st.graph with edges := pr.fst } }
  else { st with missingNodes := st.missingNodes + 1 }

/-- One iteration of the reference-resolution loop in the Neo4j-variant
`buildGraph`: look the reference's `name:type` key up among recorded
definitions; if found, materialize the reference node (connecting it to its
file, or counting it as missing) and insert the `REFERENCES` edge. -/
def resolveRefStep (repoId : String) (st : BuildState) (ref : Tag) : BuildState :=
  match List.lookup (ref.name ++ ":" ++ ref.type) st.definitions with
  | none => { st with missingDefinitions := st.missingDefinitions + 1 }
  | some defTag =>
    let refNodeId := generateNodeId repoId
      ("ref:" ++ ref.filePath ++ ":" ++ ref.name ++ ":" ++ natStr ref.startLine)
    let defNodeId := generateNodeId repoId
      ("def:" ++ defTag.filePath ++ ":" ++ defTag.name ++ ":" ++ natStr defTag.startLine)
    if nhas st.graph refNodeId then resolveRefTail repoId refNodeId defNodeId st
    else
      let refNode : GraphNodeData :=
        { nodeId := refNodeId, repoId := repoId, name := ref.name, type := ref.type,
          filePath := ref.filePath, startLine := ref.startLine, endLine := ref.endLine,
          text := ref.text, isReference := some true }
      let st1 := { st with graph := { st.graph with nodes := aset st.graph.nodes refNodeId refNode } }
      let refFileNodeId := generateNodeId repoId ("file:" ++ ref.filePath)
      if nhas st1.graph refFileNodeId then
        let st2 := { st1 with graph := { st1.graph with
          edges := (addUniqueEdge st1.graph.edges refFileNodeId refNodeId "CONTAINS" repoId).fst } }
        resolveRefTail repoId refNodeId defNodeId st2
      else
        { st1 with missingNodes := st1.missingNodes + 1 }   -- counted; continue

/-- The full resolver pass (runs once, after all files). -/
def resolverLoop (repoId : String) : List Tag → BuildState → BuildState
  | [], st => st
  | ref :: rest, st => resolverLoop repoId rest (resolveRefStep repoId st ref)

/-! ## The read-only `Neo4jGraph` wrapper and the assembled build -/

/-- The `Neo4jGraph` class: a read-only `Graph` view over the built node
map and edge array, handed to the persistence collaborator. -/
structure Neo4jGraphL where
  nodes : List (String × GraphNodeData)
  edges : List GraphEdgeData
deriving DecidableEq, Repr

/-- `getNodes()`: the node map's values in insertion order. -/
def Neo4jGraphL.getNodes (g : Neo4jGraphL) : List GraphNodeData :=
  g.nodes.map (fun p => p.snd)

/-- `getEdges()`: a copy of the edge array. -/
def Neo4jGraphL.getEdges (g : Neo4jGraphL) : List GraphEdgeData := g.edges

/-- `numberOfNodes()`. -/
def Neo4jGraphL.numberOfNodes (g : Neo4jGraphL) : Nat := g.nodes.length

/-- `numberOfEdges()`. -/
def Neo4jGraphL.numberOfEdges (g : Neo4jGraphL) : Nat := g.edges.length

/-- `addNode` on the read-only wrapper: always throws. -/
def Neo4jGraphL.addNode (_ : Neo4jGraphL) (_ : String) (_ : GraphNodeData) :
    Except String Neo4jGraphL :=
  Except.error "Cannot add nodes to Neo4jGraph - it is read-only"

/-- `addEdge` on the read-only wrapper: always throws. -/
def Neo4jGraphL.addEdge (_ : Neo4jGraphL) (_ _ : String) (_ : GraphEdgeData) :
    Except String Neo4jGraphL :=
  Except.error "Cannot add edges to Neo4jGraph - it is read-only"

/-- The inputs the Neo4j-variant `buildGraph` consumes: the repo id, the
absolute repository path and its basename, the directory tree under that
path, and the caller-supplied file list (given by repo-relative segment
lists; the source receives the equivalent absolute paths). -/
structure BuildInput where
  repoId : String
  repoPath : String
  repoName : String
  fsRoot : FsEntries
  files : List (List String)
deriving Repr

/-- What a completed build returns: the read-only graph plus the
diagnostic counters. -/
structure BuildResult where
  graph : Neo4jGraphL
  resolvedCount : Nat
  missingDefinitions : Nat
  missingNodes : Nat
deriving DecidableEq, Repr

/-- The state the Neo4j-variant `buildGraph` starts from: an empty graph
except for the repository-root node (created behind a has-guard). -/
def initialBuildState (inp : BuildInput) (ms0 : ModuleState) : BuildState :=
  let rootNodeId := generateNodeId inp.repoId "repo:root"
  let rootNode : GraphNodeData :=
    { nodeId := rootNodeId, repoId := inp.repoId, name := inp.repoName,
      type := "REPOSITORY", filePath := ".", startLine := 0, endLine := 0,
      isDirectory := some true }
  let g0 : GraphData :=
    let empty : GraphData := { nodes := [], edges := [] }
    if nhas empty rootNodeId then empty
    else { empty with nodes := aset empty.nodes rootNodeId rootNode }
  { graph := g0, definitions := [], references := [], ms := ms0 }

/-- The Neo4j-variant `buildGraph`: root node, directory walk, files loop,
reference-resolution pass, and the read-only wrapper.  The final
`neo4jService.storeGraph` call is external persistence and is not part of
the data flow.  The initial `ModuleState` parameter exposes the
process-wide parser maps (a fresh process starts at
`ModuleState.initial`). -/
def buildGraphNeo4j (inp : BuildInput) (ms0 : ModuleState) :
    Except BuildErr (BuildResult × ModuleState) :=
  match processDirW inp.repoId inp.repoPath inp.repoName [] "repo:root" inp.fsRoot
      (initialBuildState inp ms0) with
  | Except.error e => Except.error e
  | Except.ok st1 =>
    match filesLoop inp.repoId inp.repoPath inp.fsRoot inp.files st1 with
    | Except.error e => Except.error e
    | Except.ok st2 =>
      let st3 := resolverLoop inp.repoId st2.references st2
      Except.ok
        ({ graph := { nodes := st3.graph.nodes, edges := st3.graph.edges },
           resolvedCount := st3.resolvedCount,
           missingDefinitions := st3.missingDefinitions,
           missingNodes := st3.missingNodes }, st3.ms)

/-! ## The jsnetworkx `CodeGraph` variant of `buildGraph`
(`src/graph_construction/graph-builder.ts`, lines 15–195). -/

/-- A jsnetworkx `MultiDiGraph`: node attributes (auto-created endpoints
have no `data` attribute, hence `Option`) and a multi-edge list. -/
structure CodeGraph where
  nodesA : List (String × Option GraphNodeData)
  edgesA : List (String × String × GraphEdgeData)
deriving DecidableEq, Repr

/-- `CodeGraph.addNode`: set (or overwrite) the node's `data` attribute. -/
def CodeGraph.addNodeG (g : CodeGraph) (nodeId : String) (d : GraphNodeData) : CodeGraph :=
  { g with nodesA := aset g.nodesA nodeId (some d) }

/-- jsnetworkx auto-creates missing endpoints of an added edge, with no
attributes. -/
def ensureNodeA (g : CodeGraph) (nodeId : String) : CodeGraph :=
  if (List.lookup nodeId g.nodesA).isSome then g
  else { g with nodesA := g.nodesA ++ [(nodeId, none)] }

/-- `CodeGraph.addEdge` on a `MultiDiGraph`: endpoints are auto-created and
parallel edges are kept. -/
def CodeGraph.addEdgeG (g : CodeGraph) (sourceId targetId : String) (d : GraphEdgeData) :
    CodeGraph :=
  let g2 := ensureNodeA (ensureNodeA g sourceId) targetId
  { g2 with edgesA := g2.edgesA ++ [(sourceId, targetId, d)] }

/-- Accumulator of the CodeGraph-variant build: graph, definitions map,
reference buffer, module state. -/
structure AState where
  graph : CodeGraph
  definitions : List (String × Tag)
  references : List Tag
  ms : ModuleState
deriving DecidableEq, Repr

/-- The per-file body of the CodeGraph-variant `buildGraph` (all of it
inside try/catch): add the file node (id = digest of the **absolute**
path), parse, add definition nodes (ids from the absolute path) with
`CONTAINS` edges, buffer references.  A parse rejection is caught, leaving
the already-added file node with no definitions. -/
def buildFileA (repoId repoPath : String) (f : List String) (c : FileContent)
    (acc : AState) : Except BuildErr AState :=
  let absPath := repoPath ++ "/" ++ renderSegs f
  let fileNodeId := generateNodeId repoId absPath
  let g1 := acc.graph.addNodeG fileNodeId
    { nodeId := fileNodeId, repoId := repoId, name := lastSeg f, type := "FILE",
      filePath := renderSegs f, startLine := 0, endLine := 0 }
  let acc1 := { acc with graph := g1 }
  match parseFileM f c acc1.ms with
  | (Except.error ParseErr.parseFailure, ms') => Except.ok { acc1 with ms := ms' }
  | (Except.error ParseErr.neverSettles, _) => Except.error BuildErr.neverCompletes
  | (Except.ok tags, ms') =>
    let acc2 := tags.foldl (fun a tag =>
      if tag.kind == "def" then
        let nodeId := generateNodeId repoId
          (absPath ++ ":" ++ tag.name ++ ":" ++ natStr tag.startLine)
        let gA := a.graph.addNodeG nodeId
          { nodeId := nodeId, repoId := repoId, name := tag.name, type := tag.type,
            filePath := renderSegs f, startLine := tag.startLine, endLine := tag.endLine,
            text := tag.text }
        let gB := gA.addEdgeG fileNodeId nodeId
          { sourceId := fileNodeId, targetId := nodeId, type := "CONTAINS", repoId := repoId }
        { a with graph := gB,
                 definitions := aset a.definitions (tag.name ++ ":" ++ tag.type) tag }
      else if tag.kind == "ref" then
        { a with references := a.references ++ [tag] }
      else a) { acc1 with ms := ms' }
    Except.ok acc2

/-- The CodeGraph-variant `buildGraph`: process each file, then the
reference loop — when a `name:type` lookup matches, add a `REFERENCES`
edge between ids derived from the **relative** tag paths. -/
def buildGraphA (repoId repoPath : String) (files : List (List String × FileContent))
    (ms0 : ModuleState) : Except BuildErr (CodeGraph × ModuleState) :=
  let start : AState :=
    { graph := { nodesA := [], edgesA := [] }, definitions := [], references := [], ms := ms0 }
  let run : Except BuildErr AState :=
    files.foldl (fun r (fc : List String × FileContent) =>
      match r with
      | Except.error e => Except.error e
      | Except.ok a => buildFileA repoId repoPath fc.fst fc.snd a) (Except.ok start)
  match run with
  | Except.error e => Except.error e
  | Except.ok acc =>
    let final := acc.references.foldl (fun (g : CodeGraph) ref =>
      match List.lookup (ref.name ++ ":" ++ ref.type) acc.definitions with
      | some defTag =>
        let sourceId := generateNodeId repoId
          (ref.filePath ++ ":" ++ ref.name ++ ":" ++ natStr ref.startLine)
        let targetId := generateNodeId repoId
          (defTag.filePath ++ ":" ++ defTag.name ++ ":" ++ natStr defTag.startLine)
        g.addEdgeG sourceId targetId
          { sourceId := sourceId, targetId := targetId, type := "REFERENCES", repoId := repoId }
      | none => g) acc.graph
    Except.ok (final, acc.ms)

/-! ## Derived notions used by the verification: containment reachability,
the rank order on node-id disambiguators, tag/key well-formedness, and
input hygiene. -/

/-- Reachability along `CONTAINS` edges. -/
inductive ReachC (edges : List GraphEdgeData) : String → String → Prop where
  | refl (a : String) : ReachC edges a a
  | step {a b c : String} (h : ReachC edges a b) (e : GraphEdgeData)
      (he : e ∈ edges) (hs : e.sourceId = b) (ht : e.targetId = c)
      (hty : e.type = "CONTAINS") : ReachC edges a c

/-- Number of `/` characters in a rendered relative path. -/
def countSlash (s : String) : Nat := s.data.count '/'

/-- Depth of a folder path: the root path `"."` is depth 0; any other path
has one more level than it has separators. -/
def folderDepth (p : String) : Nat := if p = "." then 0 else countSlash p + 1

/-- Rank of a node-id disambiguator: a (kind, depth) pair that every
`CONTAINS` edge strictly increases.  Folders sort below files, which sort
below definition/reference disambiguators (the latter never start with a
namespace prefix: definition disambiguators start with the absolute repo
path, reference ones with `ref:`). -/
def dRank (d : String) : Nat × Nat :=
  if d = "repo:root" then (0, 0)
  else if strStarts "folder:" d then (0, folderDepth (String.mk (d.data.drop 7)))
  else if strStarts "file:" d then (1, 0)
  else (2, 0)

/-- Strict lexicographic order on disambiguator ranks. -/
def rankLt (d1 d2 : String) : Prop :=
  (dRank d1).1 < (dRank d2).1 ∨ ((dRank d1).1 = (dRank d2).1 ∧ (dRank d1).2 < (dRank d2).2)

/-- Every `CONTAINS` edge connects ids generated from disambiguators of
strictly increasing rank. -/
def goodContains (repoId : String) (e : GraphEdgeData) : Prop :=
  e.type = "CONTAINS" →
    ∃ d1 d2, e.sourceId = generateNodeId repoId d1 ∧
      e.targetId = generateNodeId repoId d2 ∧ rankLt d1 d2

/-- No two (positionally distinct) `CONTAINS` edges share source and
target. -/
def NoDupContains (edges : List GraphEdgeData) : Prop :=
  List.Pairwise
    (fun e1 e2 => e1.type = "CONTAINS" → e2.type = "CONTAINS" →
      e1.sourceId = e2.sourceId → e1.targetId = e2.targetId → False) edges

/-- No `CONTAINS` edge has its reverse also present (this also rules out
`CONTAINS` self-loops, taking the two edges equal). -/
def NoReverseContains (edges : List GraphEdgeData) : Prop :=
  ∀ e1 ∈ edges, ∀ e2 ∈ edges,
    e1.type = "CONTAINS" → e2.type = "CONTAINS" →
    e1.sourceId = e2.targetId → e1.targetId = e2.sourceId → False

/-- The synthetic repository-root disambiguator. -/
def rootD : String := "repo:root"

/-- The walk's own node for the root directory path `"."`. -/
def walkRootD : String := "folder:."

/-- Every node is one of the two root representations or reachable from
one of them along `CONTAINS` edges. -/
def ReachAll (repoId : String) (g : GraphData) : Prop :=
  ∀ p ∈ g.nodes,
    p.1 = generateNodeId repoId rootD ∨ p.1 = generateNodeId repoId walkRootD ∨
    ReachC g.edges (generateNodeId repoId rootD) p.1 ∨
    ReachC g.edges (generateNodeId repoId walkRootD) p.1

/-- Disambiguator of the folder node for a repo-relative segment path
(`"."` is the repository root). -/
def folderD (segs : List String) : String :=
  if segs = [] then rootD else "folder:" ++ renderSegs segs

/-- The definition-tag types the extractor emits. -/
def defTypes : List String :=
  ["class", "function", "method", "staticMethod", "privateMethod"]

/-- The reference-tag types the extractor emits. -/
def refTypes : List String := ["functionCall", "methodCall", "constructorCall"]

/-- Well-formedness of an extracted tag: definition tags carry a
colon-free name and a definition type, reference tags a colon-free name
and a reference type. -/
def TagOk (t : Tag) : Prop :=
  (t.kind = "def" → (':' ∉ t.name.data) ∧ t.type ∈ defTypes) ∧
  (t.kind = "ref" → (':' ∉ t.name.data) ∧ t.type ∈ refTypes)

/-- Well-formedness of a definitions-map key: `name ++ ":" ++ defType`
with a colon-free name. -/
def DefKeyOk (k : String) : Prop :=
  ∃ n t, k = n ++ ":" ++ t ∧ (':' ∉ n.data) ∧ t ∈ defTypes

/-- Invariant of the in-memory graph maintained by the Neo4j-variant
build. -/
structure PipeInv (repoId : String) (g : GraphData) : Prop where
  repoOk : ∀ e ∈ g.edges, e.repoId = repoId
  rankOk : ∀ e ∈ g.edges, goodContains repoId e
  nodup : NoDupContains g.edges
  keysOk : (g.nodes.map Prod.fst).Nodup
  reach : ReachAll repoId g

/-- Invariant of the whole build state (graph plus symbol bookkeeping). -/
structure StInv (repoId : String) (st : BuildState) : Prop where
  graphInv : PipeInv repoId st.graph
  defsOk : ∀ kv ∈ st.definitions, DefKeyOk kv.1
  refsOk : ∀ r ∈ st.references, (':' ∉ r.name.data) ∧ r.type ∈ refTypes

/-- A name is hygienic when it contains neither `:` nor `#` — true of
every identifier, class/method name and import name a real parser can
produce (babel identifiers cannot contain either character). -/
def cleanName (s : String) : Bool :=
  !(s.data.contains ':') && !(s.data.contains '#')

/-- Hygiene of a callee. -/
def cleanCallee : Callee → Bool
  | Callee.cid nm => cleanName nm
  | Callee.cmember obj prop =>
    (match obj with
     | MemPart.mid o => cleanName o
     | MemPart.mmember (some i) => cleanName i
     | MemPart.mmember none => true
     | MemPart.mother => true) &&
    (match prop with
     | PropPart.pid p => cleanName p
     | PropPart.pother => true)
  | Callee.cother => true

/-- Hygiene of an import specifier. -/
def cleanSpec (sp : ImportSpec) : Bool :=
  cleanName sp.localName && cleanName sp.exportedName

mutual
/-- All name-like strings in an AST are hygienic. -/
def cleanNode : JsNode → Bool
  | JsNode.importDecl source specs => cleanName source && specs.all cleanSpec
  | JsNode.classDecl id body _ _ =>
    (match id with | some nm => cleanName nm | none => true) && cleanNodes body
  | JsNode.funcDecl id body _ _ =>
    (match id with | some nm => cleanName nm | none => true) && cleanNodes body
  | JsNode.classMethod _ key body _ _ =>
    (match key with
     | MethodKey.kid nm => cleanName nm
     | MethodKey.kstr v => cleanName v
     | MethodKey.kcomputed => true) && cleanNodes body
  | JsNode.classPrivateMethod keyName body _ _ => cleanName keyName && cleanNodes body
  | JsNode.callExpr callee args _ _ => cleanCallee callee && cleanNodes args
  | JsNode.newExpr callee args _ _ =>
    (match callee with | NewCallee.nid nm => cleanName nm | NewCallee.nother => true) &&
    cleanNodes args
  | JsNode.throwStmt arg => cleanNode arg
  | JsNode.exportNamed nm kids => cleanName nm && cleanNodes kids
  | JsNode.ident nm => cleanName nm
  | JsNode.other kids => cleanNodes kids

/-- Hygiene of a node list. -/
def cleanNodes : JsNodes → Bool
  | JsNodes.nil => true
  | JsNodes.cons n rest => cleanNode n && cleanNodes rest
end

/-- Hygiene of a file's parsed content. -/
def cleanContent (c : FileContent) : Bool :=
  match c.parsed with
  | none => true
  | some prog => cleanNodes prog

mutual
/-- Hygiene of a file-system subtree. -/
def cleanFs : FsTree → Bool
  | FsTree.file c => cleanContent c
  | FsTree.dir entries => cleanFsEntries entries

/-- Hygiene of a directory-entry list. -/
def cleanFsEntries : FsEntries → Bool
  | FsEntries.nil => true
  | FsEntries.cons _ t rest => cleanFs t && cleanFsEntries rest
end

/-- Hygiene of the whole build input: the repository path is absolute,
every caller-supplied file path is a nonempty list of segments none of
which is `"."`, and every file content in the tree parses to a hygienic
AST. -/
def cleanInputB (inp : BuildInput) : Bool :=
  strStarts "/" inp.repoPath &&
  inp.files.all (fun f => !f.isEmpty && f.all (fun x => !(x == "."))) &&
  cleanFsEntries inp.fsRoot

/-! ## Observables on build results (projections used by concrete-input
theorems). -/

/-- The edge list of a completed Neo4j-variant build (empty on error). -/
def resultEdges (r : Except BuildErr (BuildResult × ModuleState)) : List GraphEdgeData :=
  match r with
  | Except.ok (res, _) => res.graph.edges
  | Except.error _ => []

/-- The node list of a completed Neo4j-variant build (empty on error). -/
def resultNodes (r : Except BuildErr (BuildResult × ModuleState)) :
    List (String × GraphNodeData) :=
  match r with
  | Except.ok (res, _) => res.graph.nodes
  | Except.error _ => []

/-- The missing-definitions counter of a completed build. -/
def resultMissingDefs (r : Except BuildErr (BuildResult × ModuleState)) : Option Nat :=
  match r with
  | Except.ok (res, _) => some res.missingDefinitions
  | Except.error _ => none

/-- `REFERENCES` edges of a completed CodeGraph-variant build. -/
def resultRefEdgesA (r : Except BuildErr (CodeGraph × ModuleState)) :
    Option (List (String × String × GraphEdgeData)) :=
  match r with
  | Except.ok (g, _) => some (g.edgesA.filter (fun e => e.2.2.type == "REFERENCES"))
  | Except.error _ => none

/-- Running the Neo4j-variant build twice in the same process (the second
run starting from the module state the first run left behind) reproduces
the first run's result exactly — node ids, edges and counts included —
and the first run leaves the process-wide parser maps untouched. -/
def rerunOk (inp : BuildInput) : Prop :=
  match buildGraphNeo4j inp ModuleState.initial with
  | Except.ok (res, ms1) =>
    ms1 = ModuleState.initial ∧ buildGraphNeo4j inp ms1 = Except.ok (res, ms1)
  | Except.error _ => True

/-- Tags delivered by a `parseFile` run (empty if it rejected). -/
def tagsOf (r : Except ParseErr (List Tag) × ModuleState) : List Tag :=
  match r.fst with
  | Except.ok t => t
  | Except.error _ => []

/-! ## Concrete inputs used by the claim theorems -/

/-- An initial traversal state. -/
def initP : PState := { tags := [], currentClass := none, ms := ModuleState.initial }

/-- `a.ts` defines `function helper(){}`. -/
def helperDefAst : JsNodes :=
  JsNodes.cons (JsNode.funcDecl (some "helper") JsNodes.nil 1 1) JsNodes.nil

/-- `b.ts` calls `helper()`. -/
def helperCallAst : JsNodes :=
  JsNodes.cons (JsNode.callExpr (Callee.cid "helper") JsNodes.nil 1 1) JsNodes.nil

/-- The two-file repository of spec example 2. -/
def fsHelper : FsEntries :=
  FsEntries.cons "a.ts" (FsTree.file { sizeZero := false, parsed := some helperDefAst })
    (FsEntries.cons "b.ts" (FsTree.file { sizeZero := false, parsed := some helperCallAst })
      FsEntries.nil)

/-- Build input for the two-file helper repository. -/
def inpHelper : BuildInput :=
  { repoId := "r", repoPath := "/r", repoName := "r", fsRoot := fsHelper,
    files := [["a.ts"], ["b.ts"]] }

/-- The same two files as a CodeGraph-variant input. -/
def filesHelperA : List (List String × FileContent) :=
  [(["a.ts"], { sizeZero := false, parsed := some helperDefAst }),
   (["b.ts"], { sizeZero := false, parsed := some helperCallAst })]

/-- A syntactically invalid `.ts` file inside a hidden directory: the walk
skips the directory, so the file is handled by the `buildGraph` files
loop, whose `parseFile` call has no try/catch. -/
def inpHidden : BuildInput :=
  { repoId := "r", repoPath := "/r", repoName := "r",
    fsRoot := FsEntries.cons ".hidden"
      (FsTree.dir (FsEntries.cons "bad.ts"
        (FsTree.file { sizeZero := false, parsed := none }) FsEntries.nil))
      FsEntries.nil,
    files := [[".hidden", "bad.ts"]] }

/-- `arr.push(x)`: a standard collection-method call. -/
def arrPushCall : JsNode :=
  JsNode.callExpr (Callee.cmember (MemPart.mid "arr") (PropPart.pid "push"))
    (JsNodes.cons (JsNode.ident "x") JsNodes.nil) 3 3

/-- `class Outer { m() { class Inner {} ; doWork() } }`: a class nested
inside another class, followed by a call emitted after the inner class's
body ends (but still inside `Outer`). -/
def nestedClassAst : JsNode :=
  JsNode.classDecl (some "Outer")
    (JsNodes.cons
      (JsNode.classMethod false (MethodKey.kid "m")
        (JsNodes.cons (JsNode.classDecl (some "Inner") JsNodes.nil 2 3)
          (JsNodes.cons (JsNode.callExpr (Callee.cid "doWork") JsNodes.nil 4 4)
            JsNodes.nil))
        2 5)
      JsNodes.nil)
    1 6

/-- `a.ts`: `export function helper(){}` (an export declaration wrapping
the function declaration). -/
def exportHelperAst : JsNodes :=
  JsNodes.cons
    (JsNode.exportNamed "helper"
      (JsNodes.cons (JsNode.funcDecl (some "helper") JsNodes.nil 1 1) JsNodes.nil))
    JsNodes.nil

/-- `b.ts`: `import { helper } from './a'; helper()`. -/
def importCallAst : JsNodes :=
  JsNodes.cons (JsNode.importDecl "./a" [ImportSpec.specifier "helper" "helper"])
    (JsNodes.cons (JsNode.callExpr (Callee.cid "helper") JsNodes.nil 2 2) JsNodes.nil)

/-- First `parseFile` run of the import-resolution example (the exporting
file, extracted first). -/
def c9run1 : Except ParseErr (List Tag) × ModuleState :=
  parseFileM ["a.ts"] { sizeZero := false, parsed := some exportHelperAst } ModuleState.initial

/-- Second `parseFile` run (the importing/calling file, extracted later,
starting from the module state the first run left). -/
def c9run2 : Except ParseErr (List Tag) × ModuleState :=
  parseFileM ["b.ts"] { sizeZero := false, parsed := some importCallAst } c9run1.snd

/-- The edge list the two-file helper build actually produces: containment
only — the resolver pass inserts nothing. -/
def helperRunEdges : List GraphEdgeData :=
  [{ sourceId := "r:folder:.", targetId := "r:file:a.ts", type := "CONTAINS", repoId := "r" },
   { sourceId := "r:file:a.ts", targetId := "r:/r/a.ts:helper:1", type := "CONTAINS", repoId := "r" },
   { sourceId := "r:folder:.", targetId := "r:file:b.ts", type := "CONTAINS", repoId := "r" }]

/-- One traversal step is benign when started from the pristine module
state: it keeps the module state pristine and any tag it appends carries
no `targetFile`. -/
def StepOk (s s' : PState) : Prop :=
  s.ms = ModuleState.initial →
    s'.ms = ModuleState.initial ∧ ∀ t ∈ s'.tags, t ∈ s.tags ∨ t.targetFile = none

/-- A module state whose export map already records `./a` as exporting
`helper` (what the claim's premise supposes). -/
def c9msX : ModuleState :=
  { definedSymbols := [], exportMap := [("./a", ["helper"])],
    fileReferences := [], importResolver := [] }

/-- A node id is anchored: it is one of the two root-representation ids, or
reachable from one of them along `CONTAINS` edges. -/
def RootedAt (repoId : String) (edges : List GraphEdgeData) (i : String) : Prop :=
  i = generateNodeId repoId rootD ∨ i = generateNodeId repoId walkRootD ∨
  ReachC edges (generateNodeId repoId rootD) i ∨
  ReachC edges (generateNodeId repoId walkRootD) i

/-- One traversal step is tag-hygienic: provided the current class name is
colon-free, it stays colon-free and every appended tag is well-formed
(colon-free name, type drawn from the definition or reference type
lists). -/
def TagStepOk (s s' : PState) : Prop :=
  (∀ c, s.currentClass = some c → (':' ∉ c.data)) →
    (∀ c, s'.currentClass = some c → (':' ∉ c.data)) ∧
    ∀ t ∈ s'.tags, t ∈ s.tags ∨ TagOk t

/-- The exact value the two-file helper build returns (checked by kernel
evaluation in the claim witnesses). -/
def helperResult : BuildResult :=
  { graph :=
    { nodes :=
      [("r:repo:root",
        { nodeId := "r:repo:root", repoId := "r", name := "r", type := "REPOSITORY",
          filePath := ".", startLine := 0, endLine := 0, isDirectory := some true }),
       ("r:folder:.",
        { nodeId := "r:folder:.", repoId := "r", name := "r", type := "REPOSITORY",
          filePath := ".", startLine := 0, endLine := 0, isDirectory := some true }),
       ("r:file:a.ts",
        { nodeId := "r:file:a.ts", repoId := "r", name := "a.ts", type := "FILE",
          filePath := "a.ts", startLine := 0, endLine := 0, isDirectory := some false }),
       ("r:/r/a.ts:helper:1",
        { nodeId := "r:/r/a.ts:helper:1", repoId := "r", name := "helper",
          type := "function", filePath := "a.ts", startLine := 1, endLine := 1 }),
       ("r:file:b.ts",
        { nodeId := "r:file:b.ts", repoId := "r", name := "b.ts", type := "FILE",
          filePath := "b.ts", startLine := 0, endLine := 0, isDirectory := some false })],
      edges := helperRunEdges },
    resolvedCount := 0, missingDefinitions := 1, missingNodes := 0 }

/-! # Theorems -/

/-- If no edge leaves `a`, everything `CONTAINS`-reachable from `a` is `a`
itself. -/
theorem reach_eq_of_no_src {edges : List GraphEdgeData} {a b : String}
    (h : ∀ e ∈ edges, e.sourceId ≠ a) (hr : ReachC edges a b) : b = a := by
  induction hr with
  | refl => rfl
  | step hab e he hs ht hty ih =>
    exact absurd (hs.trans ih) (h e he)

/-- String append acts as list append on the character data. -/
theorem string_data_append (a b : String) : (a ++ b).data = a.data ++ b.data := rfl

/-- `generateNodeId` is injective in the disambiguator (the digest is
modelled collision-free). -/
theorem gen_inj {r d1 d2 : String} (h : generateNodeId r d1 = generateNodeId r d2) :
    d1 = d2 := by
  have hd := congrArg String.data h
  simp only [generateNodeId, string_data_append] at hd
  have hd2 := List.append_cancel_left hd
  cases d1
  cases d2
  exact congrArg String.mk (by simpa using hd2)

/-- The rank order is asymmetric. -/
theorem rankLt_asymm {d1 d2 : String} (h1 : rankLt d1 d2) (h2 : rankLt d2 d1) : False := by
  rcases h1 with h1 | ⟨h1a, h1b⟩ <;> rcases h2 with h2 | ⟨h2a, h2b⟩ <;> omega

/-- A list is a prefix of itself followed by anything. -/
theorem isPrefixOf_append_self (l1 l2 : List Char) : l1.isPrefixOf (l1 ++ l2) = true :=
  List.isPrefixOf_iff_prefix.mpr (List.prefix_append l1 l2)

/-- A string starts with any of its literal prefixes. -/
theorem strStarts_append (p s : String) : strStarts p (p ++ s) = true := by
  simp only [strStarts, string_data_append]
  exact isPrefixOf_append_self p.data s.data

/-- A folder disambiguator is not the root disambiguator. -/
theorem folder_ne_root (p : String) : ("folder:" ++ p) ≠ "repo:root" := by
  intro h
  have hd := congrArg String.data h
  rw [string_data_append] at hd
  simp at hd

/-- A file disambiguator is not the root disambiguator. -/
theorem file_ne_root (p : String) : ("file:" ++ p) ≠ "repo:root" := by
  intro h
  have hd := congrArg String.data h
  rw [string_data_append] at hd
  simp at hd

/-- A file disambiguator does not carry the folder prefix. -/
theorem file_not_folder (p : String) : strStarts "folder:" ("file:" ++ p) = false := rfl

/-- Rank of a folder disambiguator. -/
theorem dRank_folder (p : String) :
    dRank ("folder:" ++ p) = (0, folderDepth p) := by
  have hne := folder_ne_root p
  have hpre := strStarts_append "folder:" p
  have hdr : (("folder:" ++ p).data.drop 7) = p.data := by
    rw [string_data_append]
    rfl
  simp only [dRank, hne, if_false, hpre, if_true, hdr]

/-- Rank of a file disambiguator. -/
theorem dRank_file (p : String) : dRank ("file:" ++ p) = (1, 0) := by
  have hne := file_ne_root p
  have hnf := file_not_folder p
  have hpre := strStarts_append "file:" p
  simp [dRank, hne, hnf, hpre]

/-- Rank of the root disambiguator. -/
theorem dRank_root : dRank "repo:root" = (0, 0) := rfl

/-- Rank of a reference-node disambiguator. -/
theorem dRank_ref (p : String) : dRank ("ref:" ++ p) = (2, 0) := by
  have hne : ("ref:" ++ p) ≠ "repo:root" := by
    intro h
    have hd := congrArg String.data h
    rw [string_data_append] at hd
    simp at hd
  have hnf : strStarts "folder:" ("ref:" ++ p) = false := rfl
  have hnfl : strStarts "file:" ("ref:" ++ p) = false := rfl
  simp [dRank, hne, hnf, hnfl]

/-- Rank of a definition-node disambiguator (which starts with the
absolute repository path, hence with `/`). -/
theorem dRank_slash (d : String) (h : strStarts "/" d = true) : dRank d = (2, 0) := by
  obtain ⟨rest, hrest⟩ : ∃ rest, d.data = '/' :: rest := by
    simp only [strStarts] at h
    cases hd : d.data with
    | nil => rw [hd] at h; simp [List.isPrefixOf] at h
    | cons c cs =>
      rw [hd] at h
      simp only [List.isPrefixOf, List.isPrefixOf_nil_left, Bool.and_true] at h
      refine ⟨cs, ?_⟩
      have : c = '/' := by
        have hb : ('/' == c) = true := by
          simpa [List.isPrefixOf] using h
        exact (beq_iff_eq.mp hb).symm
      rw [this]
  have hne : d ≠ "repo:root" := by
    intro he
    rw [he] at hrest
    simp at hrest
  have hnf : strStarts "folder:" d = false := by
    simp only [strStarts, hrest, List.isPrefixOf]
    rfl
  have hnfl : strStarts "file:" d = false := by
    simp only [strStarts, hrest, List.isPrefixOf]
    rfl
  simp [dRank, hne, hnf, hnfl]

/-- Appending a separator and a segment strictly increases the slash
count. -/
theorem countSlash_append3 (a b : String) :
    countSlash (a ++ "/" ++ b) = countSlash a + 1 + countSlash b := by
  simp only [countSlash, string_data_append, List.count_append]
  rfl

/-- Rendering a longer segment list: `renderSegs (l ++ [x])` extends the
rendering of `l`. -/
theorem renderSegs_snoc (l : List String) (x : String) (hl : l ≠ []) :
    renderSegs (l ++ [x]) = renderSegs l ++ "/" ++ x := by
  induction l with
  | nil => exact absurd rfl hl
  | cons a rest ih =>
    cases rest with
    | nil => rfl
    | cons b rest2 =>
      have h2 := ih (by simp)
      show a ++ "/" ++ renderSegs ((b :: rest2) ++ [x]) = a ++ "/" ++ renderSegs (b :: rest2) ++ "/" ++ x
      rw [h2]
      simp [String.append_assoc]

/-- A rendered multi-segment path contains a slash, hence is not `"."`. -/
theorem renderSegs_ne_dot (l : List String) (hl : l ≠ []) (hx : ∀ x ∈ l, x ≠ ".") :
    renderSegs l ≠ "." := by
  cases l with
  | nil => exact absurd rfl hl
  | cons a rest =>
    cases rest with
    | nil => exact hx a (by simp)
    | cons b rest2 =>
      intro h
      have hcount : countSlash (a ++ "/" ++ renderSegs (b :: rest2)) = 0 := by
        rw [show renderSegs (a :: b :: rest2) = a ++ "/" ++ renderSegs (b :: rest2) from rfl] at h
        rw [h]
        rfl
      rw [countSlash_append3] at hcount
      omega

/-- The folder depth of a rendered nonempty dot-free path is positive. -/
theorem folderDepth_pos (l : List String) (hl : l ≠ []) (hx : ∀ x ∈ l, x ≠ ".") :
    0 < folderDepth (renderSegs l) := by
  have := renderSegs_ne_dot l hl hx
  simp [folderDepth, this]

/-- Dropping the last segment strictly decreases the folder depth. -/
theorem folderDepth_dropLast_lt (l : List String) (hl : l.dropLast ≠ [])
    (hx : ∀ x ∈ l, x ≠ ".") (hne : l ≠ []) :
    folderDepth (renderSegs l.dropLast) < folderDepth (renderSegs l) := by
  obtain ⟨l', x, hsplit⟩ : ∃ l' x, l = l' ++ [x] := by
    cases hlast : l.getLast? with
    | none => exact absurd (List.getLast?_eq_none_iff.mp hlast) hne
    | some y =>
      exact ⟨l.dropLast, y, (List.dropLast_append_getLast? y hlast).symm⟩
  subst hsplit
  rw [List.dropLast_concat] at hl ⊢
  rw [renderSegs_snoc l' x hl]
  have h1 : renderSegs l' ≠ "." :=
    renderSegs_ne_dot l' hl (fun z hz => hx z (List.mem_append_left _ hz))
  have h2 : renderSegs l' ++ "/" ++ x ≠ "." := by
    intro h
    have : countSlash (renderSegs l' ++ "/" ++ x) = 0 := by rw [h]; rfl
    rw [countSlash_append3] at this
    omega
  simp only [folderDepth, h1, h2, if_false, countSlash_append3]
  omega

/-- The parent folder disambiguator ranks strictly below the folder
itself (parents are the dropLast rendering; the root path `.` parents are
handled by `dRank_root`/`dRank_folder` with depth 0). -/
theorem rankLt_parent_folder (l : List String) (hne : l ≠ []) (hx : ∀ x ∈ l, x ≠ ".") :
    rankLt ("folder:" ++ renderRel l.dropLast) ("folder:" ++ renderSegs l) := by
  rw [rankLt, dRank_folder, dRank_folder]
  right
  refine ⟨rfl, ?_⟩
  by_cases hdl : l.dropLast = []
  · rw [hdl]
    simp only [renderRel, if_pos rfl, folderDepth, if_pos rfl]
    exact folderDepth_pos l hne hx
  · simp only [renderRel, hdl, if_neg hdl]
    exact folderDepth_dropLast_lt l hdl hx hne

/-- The synthetic root ranks strictly below every dot-free folder. -/
theorem rankLt_root_folder (l : List String) (hne : l ≠ []) (hx : ∀ x ∈ l, x ≠ ".") :
    rankLt "repo:root" ("folder:" ++ renderSegs l) := by
  rw [rankLt, dRank_root, dRank_folder]
  right
  exact ⟨rfl, folderDepth_pos l hne hx⟩

/-- Every folder-prefixed disambiguator ranks strictly below every file
disambiguator. -/
theorem rankLt_folder_file (p q : String) :
    rankLt ("folder:" ++ p) ("file:" ++ q) := by
  rw [rankLt, dRank_folder, dRank_file]
  left
  omega

/-- The root ranks strictly below every file disambiguator. -/
theorem rankLt_root_file (q : String) : rankLt "repo:root" ("file:" ++ q) := by
  rw [rankLt, dRank_root, dRank_file]
  left
  omega

/-- Every file disambiguator ranks strictly below every definition
disambiguator (absolute-path-based, starting with `/`). -/
theorem rankLt_file_def (p d : String) (h : strStarts "/" d = true) :
    rankLt ("file:" ++ p) d := by
  rw [rankLt, dRank_file, dRank_slash d h]
  left
  omega

/-- Every file disambiguator ranks strictly below every reference-node
disambiguator. -/
theorem rankLt_file_ref (p q : String) : rankLt ("file:" ++ p) ("ref:" ++ q) := by
  rw [rankLt, dRank_file, dRank_ref]
  left
  omega

/-- Looking up the key just set by `aset` returns the new value. -/
theorem lookup_aset_self {α : Type} (l : List (String × α)) (k : String) (v : α) :
    List.lookup k (aset l k v) = some v := by
  induction l with
  | nil => simp [aset, List.lookup]
  | cons p rest ih =>
    obtain ⟨k', v'⟩ := p
    by_cases h : k' = k
    · subst h
      simp [aset, List.lookup]
    · have h2 : (k == k') = false := by
        simp [Ne.symm h]
      simp [aset, h, List.lookup, h2, ih]

/-- `StepOk` composes. -/
theorem stepOk_trans {s1 s2 s3 : PState} (h1 : StepOk s1 s2) (h2 : StepOk s2 s3) :
    StepOk s1 s3 := by
  intro hms
  obtain ⟨m1, t1⟩ := h1 hms
  obtain ⟨m2, t2⟩ := h2 m1
  exact ⟨m2, fun t ht => (t2 t ht).elim (fun h => t1 t h) Or.inr⟩

/-- The exit visitor only touches `currentClass`. -/
theorem exit_stepOk (n : JsNode) (s : PState) : StepOk s (exitNode n s) := by
  intro hms
  cases n <;> exact ⟨hms, fun t ht => Or.inl ht⟩

/-- A hygienic name contains no `#`. -/
theorem cleanName_no_hash {x : String} (h : cleanName x = true) : strHasHash x = false := by
  simp only [cleanName, Bool.and_eq_true, Bool.not_eq_true'] at h
  exact h.2

/-- With an empty export map, an import specifier registers nothing. -/
theorem applyImportSpec_exportMap_nil (src : String) (ms : ModuleState) (sp : ImportSpec)
    (h : ms.exportMap = []) : applyImportSpec src ms sp = ms := by
  simp [applyImportSpec, h]

/-- With an empty export map, a whole import declaration registers
nothing. -/
theorem foldl_applyImportSpec_nil (src : String) (specs : List ImportSpec) (ms : ModuleState)
    (h : ms.exportMap = []) : specs.foldl (applyImportSpec src) ms = ms := by
  induction specs with
  | nil => rfl
  | cons sp rest ih =>
    rw [List.foldl_cons, applyImportSpec_exportMap_nil src ms sp h]
    exact ih

/-- The enter visitor is benign from the pristine module state: it keeps
the state pristine (the export map is empty, so no alias is registered;
the defined-symbols map is empty and hygienic callee names contain no `#`,
so no file-reference entry is written) and every appended tag has no
`targetFile`. -/
theorem enter_stepOk (rp : String) (n : JsNode) (s : PState) (hc : cleanNode n = true) :
    StepOk s (enterNode rp n s) := by
  obtain ⟨stags, scc, sms⟩ := s
  intro hms
  replace hms : sms = ModuleState.initial := hms
  subst hms
  cases n with
  | importDecl src specs =>
    refine ⟨?_, fun t ht => Or.inl (by simpa [enterNode] using ht)⟩
    show List.foldl (applyImportSpec src) ModuleState.initial specs = ModuleState.initial
    exact foldl_applyImportSpec_nil src specs ModuleState.initial rfl
  | classDecl id body sl el =>
    cases id with
    | some nm =>
      refine ⟨rfl, fun t ht => ?_⟩
      simp only [enterNode, List.mem_append, List.mem_singleton] at ht
      rcases ht with h | h
      · exact Or.inl h
      · exact Or.inr (by rw [h])
    | none => exact ⟨rfl, fun t ht => Or.inl ht⟩
  | funcDecl id body sl el =>
    cases id with
    | some nm =>
      by_cases hnm : nm = ""
      · refine ⟨by simp [enterNode, hnm], fun t ht => Or.inl (by simpa [enterNode, hnm] using ht)⟩
      · refine ⟨by simp [enterNode, hnm], fun t ht => ?_⟩
        simp only [enterNode, ne_eq, hnm, not_false_eq_true, if_true, List.mem_append,
          List.mem_singleton] at ht
        rcases ht with h | h
        · exact Or.inl h
        · exact Or.inr (by rw [h])
    | none => exact ⟨rfl, fun t ht => Or.inl ht⟩
  | classMethod st k body sl el =>
    refine ⟨rfl, fun t ht => ?_⟩
    simp only [enterNode, List.mem_append, List.mem_singleton] at ht
    rcases ht with h | h
    · exact Or.inl h
    · exact Or.inr (by rw [h])
  | classPrivateMethod k body sl el =>
    refine ⟨rfl, fun t ht => ?_⟩
    simp only [enterNode, List.mem_append, List.mem_singleton] at ht
    rcases ht with h | h
    · exact Or.inl h
    · exact Or.inr (by rw [h])
  | callExpr callee args sl el =>
    by_cases hig : shouldIgnoreFunctionCall (JsNode.callExpr callee args sl el) = true
    · refine ⟨by simp [enterNode, hig], fun t ht => Or.inl (by simpa [enterNode, hig] using ht)⟩
    · have hig' : shouldIgnoreFunctionCall (JsNode.callExpr callee args sl el) = false := by
        simpa using hig
      cases callee with
      | cid nm =>
        have hcn : cleanName nm = true := by
          have h' := hc
          simp only [cleanNode, cleanCallee, Bool.and_eq_true] at h'
          exact h'.1
        have hnh := cleanName_no_hash hcn
        refine ⟨?_, fun t ht => ?_⟩
        · simp [enterNode, hig', ModuleState.initial, hnh]
        · simp only [enterNode, hig', ModuleState.initial, List.lookup_nil, Option.getD_none,
            Option.isSome_none, hnh, Bool.or_self, Bool.false_eq_true, if_false,
            List.mem_append, List.mem_singleton] at ht
          rcases ht with h | h
          · exact Or.inl h
          · exact Or.inr (by rw [h])
      | cmember obj prop =>
        refine ⟨?_, fun t ht => ?_⟩
        · simp [enterNode, hig', ModuleState.initial]
        · simp only [enterNode, hig', ModuleState.initial, List.lookup_nil] at ht
          rcases List.mem_append.mp ht with h | h
          · exact Or.inl h
          · exact Or.inr (by rw [List.mem_singleton.mp h])
      | cother =>
        refine ⟨by simp [enterNode, hig'], fun t ht => ?_⟩
        simp only [enterNode, hig'] at ht
        rcases List.mem_append.mp ht with h | h
        · exact Or.inl h
        · exact Or.inr (by rw [List.mem_singleton.mp h])
  | newExpr nc args sl el =>
    cases nc with
    | nid nm =>
      by_cases hig : shouldIgnoreFunctionCall (JsNode.newExpr (NewCallee.nid nm) args sl el) = true
      · refine ⟨by simp [enterNode, hig], fun t ht => Or.inl (by simpa [enterNode, hig] using ht)⟩
      · have hig' : shouldIgnoreFunctionCall (JsNode.newExpr (NewCallee.nid nm) args sl el)
            = false := by simpa using hig
        refine ⟨by simp [enterNode, hig'], fun t ht => ?_⟩
        simp only [enterNode, hig', Bool.false_eq_true, if_false, List.mem_append,
          List.mem_singleton] at ht
        rcases ht with h | h
        · exact Or.inl h
        · exact Or.inr (by rw [h])
    | nother => exact ⟨rfl, fun t ht => Or.inl ht⟩
  | throwStmt arg => exact ⟨rfl, fun t ht => Or.inl ht⟩
  | exportNamed nm kids => exact ⟨rfl, fun t ht => Or.inl ht⟩
  | ident nm => exact ⟨rfl, fun t ht => Or.inl ht⟩
  | other kids => exact ⟨rfl, fun t ht => Or.inl ht⟩

/-- Hygiene of a class body follows from hygiene of the class. -/
theorem clean_classDecl_body {id : Option String} {body : JsNodes} {sl el : Nat}
    (h : cleanNode (JsNode.classDecl id body sl el) = true) : cleanNodes body = true := by
  cases id <;> simp only [cleanNode, Bool.and_eq_true, true_and] at h
  · exact h
  · exact h.2

/-- Hygiene of a function body follows from hygiene of the function. -/
theorem clean_funcDecl_body {id : Option String} {body : JsNodes} {sl el : Nat}
    (h : cleanNode (JsNode.funcDecl id body sl el) = true) : cleanNodes body = true := by
  cases id <;> simp only [cleanNode, Bool.and_eq_true, true_and] at h
  · exact h
  · exact h.2

/-- Hygiene of a method body follows from hygiene of the method. -/
theorem clean_classMethod_body {st : Bool} {k : MethodKey} {body : JsNodes} {sl el : Nat}
    (h : cleanNode (JsNode.classMethod st k body sl el) = true) : cleanNodes body = true := by
  cases k <;> simp only [cleanNode, Bool.and_eq_true, true_and] at h
  · exact h.2
  · exact h.2
  · exact h

/-- Hygiene of a private-method body. -/
theorem clean_classPrivateMethod_body {k : String} {body : JsNodes} {sl el : Nat}
    (h : cleanNode (JsNode.classPrivateMethod k body sl el) = true) : cleanNodes body = true := by
  simp only [cleanNode, Bool.and_eq_true] at h
  exact h.2

/-- Hygiene of call arguments. -/
theorem clean_callExpr_args {c : Callee} {args : JsNodes} {sl el : Nat}
    (h : cleanNode (JsNode.callExpr c args sl el) = true) : cleanNodes args = true := by
  simp only [cleanNode, Bool.and_eq_true] at h
  exact h.2

/-- Hygiene of constructor-call arguments. -/
theorem clean_newExpr_args {c : NewCallee} {args : JsNodes} {sl el : Nat}
    (h : cleanNode (JsNode.newExpr c args sl el) = true) : cleanNodes args = true := by
  cases c <;> simp only [cleanNode, Bool.and_eq_true, true_and] at h
  · exact h.2
  · exact h

/-- Hygiene of a thrown expression. -/
theorem clean_throw_arg {arg : JsNode}
    (h : cleanNode (JsNode.throwStmt arg) = true) : cleanNode arg = true := h

/-- Hygiene of export children. -/
theorem clean_export_kids {nm : String} {kids : JsNodes}
    (h : cleanNode (JsNode.exportNamed nm kids) = true) : cleanNodes kids = true := by
  simp only [cleanNode, Bool.and_eq_true] at h
  exact h.2

/-- Hygiene of opaque-node children. -/
theorem clean_other_kids {kids : JsNodes}
    (h : cleanNode (JsNode.other kids) = true) : cleanNodes kids = true := h

/-- Hygiene of a list head. -/
theorem clean_cons_head {n : JsNode} {rest : JsNodes}
    (h : cleanNodes (JsNodes.cons n rest) = true) : cleanNode n = true := by
  simp only [cleanNodes, Bool.and_eq_true] at h
  exact h.1

/-- Hygiene of a list tail. -/
theorem clean_cons_tail {n : JsNode} {rest : JsNodes}
    (h : cleanNodes (JsNodes.cons n rest) = true) : cleanNodes rest = true := by
  simp only [cleanNodes, Bool.and_eq_true] at h
  exact h.2

mutual
/-- A whole node visit is benign from the pristine module state. -/
theorem visit_stepOk (rp : String) (n : JsNode) (s : PState) (hc : cleanNode n = true) :
    StepOk s (visit rp n s) := by
  cases n with
  | importDecl src specs =>
    exact stepOk_trans (enter_stepOk rp _ s hc) (exit_stepOk _ _)
  | classDecl id body sl el =>
    exact stepOk_trans (enter_stepOk rp _ s hc)
      (stepOk_trans (visitList_stepOk rp body _ (clean_classDecl_body hc)) (exit_stepOk _ _))
  | funcDecl id body sl el =>
    exact stepOk_trans (enter_stepOk rp _ s hc)
      (stepOk_trans (visitList_stepOk rp body _ (clean_funcDecl_body hc)) (exit_stepOk _ _))
  | classMethod st k body sl el =>
    exact stepOk_trans (enter_stepOk rp _ s hc)
      (stepOk_trans (visitList_stepOk rp body _ (clean_classMethod_body hc)) (exit_stepOk _ _))
  | classPrivateMethod k body sl el =>
    exact stepOk_trans (enter_stepOk rp _ s hc)
      (stepOk_trans (visitList_stepOk rp body _ (clean_classPrivateMethod_body hc))
        (exit_stepOk _ _))
  | callExpr c args sl el =>
    exact stepOk_trans (enter_stepOk rp _ s hc)
      (stepOk_trans (visitList_stepOk rp args _ (clean_callExpr_args hc)) (exit_stepOk _ _))
  | newExpr c args sl el =>
    exact stepOk_trans (enter_stepOk rp _ s hc)
      (stepOk_trans (visitList_stepOk rp args _ (clean_newExpr_args hc)) (exit_stepOk _ _))
  | throwStmt arg =>
    exact stepOk_trans (enter_stepOk rp _ s hc)
      (stepOk_trans (visit_stepOk rp arg _ (clean_throw_arg hc)) (exit_stepOk _ _))
  | exportNamed nm kids =>
    exact stepOk_trans (enter_stepOk rp _ s hc)
      (stepOk_trans (visitList_stepOk rp kids _ (clean_export_kids hc)) (exit_stepOk _ _))
  | ident nm =>
    exact stepOk_trans (enter_stepOk rp _ s hc) (exit_stepOk _ _)
  | other kids =>
    exact stepOk_trans (enter_stepOk rp _ s hc)
      (stepOk_trans (visitList_stepOk rp kids _ (clean_other_kids hc)) (exit_stepOk _ _))

/-- A node-list traversal is benign from the pristine module state. -/
theorem visitList_stepOk (rp : String) (ns : JsNodes) (s : PState) (hc : cleanNodes ns = true) :
    StepOk s (visitList rp ns s) := by
  cases ns with
  | nil => exact fun hms => ⟨hms, fun t ht => Or.inl ht⟩
  | cons n rest =>
    exact stepOk_trans (visit_stepOk rp n s (clean_cons_head hc))
      (visitList_stepOk rp rest _ (clean_cons_tail hc))
end

/-- `parseFile` keeps the pristine module state pristine and attaches no
`targetFile` to any tag it delivers. -/
theorem parseFileM_clean (segs : List String) (c : FileContent) (ms : ModuleState)
    (hc : cleanContent c = true) (hms : ms = ModuleState.initial) :
    (parseFileM segs c ms).snd = ModuleState.initial ∧
    ∀ t ∈ tagsOf (parseFileM segs c ms), t.targetFile = none := by
  subst hms
  unfold parseFileM
  by_cases hx : toLowerS (extnameOf (lastSeg segs)) ∈ parseExts
  · cases hp : c.parsed with
    | none => simp [hx, hp, tagsOf]
    | some prog =>
      have hcp : cleanNodes prog = true := by
        have := hc
        simp only [cleanContent, hp] at this
        exact this
      have h := visitList_stepOk (renderRel segs) prog
        { tags := [], currentClass := none, ms := ModuleState.initial } hcp rfl
      refine ⟨by simp [hx, hp, h.1], fun t ht => ?_⟩
      have ht' : t ∈ (visitList (renderRel segs) prog
          { tags := [], currentClass := none, ms := ModuleState.initial }).tags := by
        simpa [hx, hp, tagsOf] using ht
      rcases h.2 t ht' with h' | h'
      · exact absurd h' (List.not_mem_nil t)
      · exact h'
  · simp [hx, tagsOf]

/-- A graph-only update does not change the carried module state. -/
theorem graph_update_ms (st : BuildState) (g : GraphData) :
    ({ st with graph := g } : BuildState).ms = st.ms := rfl

/-- `applyTags` never touches the module state. -/
theorem applyTags_ms (repoId repoPath : String) (fileSegs : List String) (fileNodeId : String) :
    ∀ (tags : List Tag) (st : BuildState),
      (applyTags repoId repoPath fileSegs fileNodeId tags st).ms = st.ms := by
  intro tags
  induction tags with
  | nil => intro st; rfl
  | cons tg rest ih =>
    intro st
    rw [applyTags, ih]
    by_cases h1 : (tg.kind == "def") = true
    · simp [h1]
    · by_cases h2 : (tg.kind == "ref") = true <;> simp [h1, h2]

/-- `ensureDirNode` only touches the graph. -/
theorem ensureDirNode_ms (repoId repoName : String) (relSegs : List String) (parentD : String)
    (st : BuildState) : (ensureDirNode repoId repoName relSegs parentD st).ms = st.ms := by
  by_cases h : nhas st.graph (generateNodeId repoId ("folder:" ++ renderRel relSegs)) = true
  · simp [ensureDirNode, h]
  · simp [ensureDirNode, h]

/-- The file-node block only touches the graph. -/
theorem ensureFileNodeW_ms (repoId : String) (fileSegs : List String) (parentD : String)
    (st : BuildState) : (ensureFileNodeW repoId fileSegs parentD st).ms = st.ms := by
  by_cases h : nhas st.graph (generateNodeId repoId ("file:" ++ renderSegs fileSegs)) = true
  · simp [ensureFileNodeW, h]
  · simp [ensureFileNodeW, h]

/-- The files-loop folder/file-node block only touches the graph. -/
theorem fileStepEnsure_ms (repoId : String) (f : List String) (st : BuildState) :
    (fileStepEnsure repoId f st).ms = st.ms := rfl

/-- `processFile` keeps the pristine module state pristine. -/
theorem processFileW_ms (repoId repoPath : String) (fileSegs : List String) (parentD : String)
    (c : FileContent) (st st' : BuildState) (hc : cleanContent c = true)
    (hms : st.ms = ModuleState.initial)
    (h : processFileW repoId repoPath fileSegs parentD c st = Except.ok st') :
    st'.ms = ModuleState.initial := by
  unfold processFileW at h
  have hms1 : (ensureFileNodeW repoId fileSegs parentD st).ms = ModuleState.initial := by
    rw [ensureFileNodeW_ms]; exact hms
  have hparse := parseFileM_clean fileSegs c (ensureFileNodeW repoId fileSegs parentD st).ms
    hc hms1
  cases hpr : parseFileM fileSegs c (ensureFileNodeW repoId fileSegs parentD st).ms with
  | mk pr ms2 =>
    have hms2 : ms2 = ModuleState.initial := by
      have h2 := hparse.1
      rw [hpr] at h2
      exact h2
    rw [hpr] at h
    cases pr with
    | error e =>
      cases e with
      | parseFailure =>
        simp only at h
        cases h
        exact hms2
      | neverSettles => cases h
    | ok tags =>
      simp only at h
      cases h
      rw [applyTags_ms]
      exact hms2

/-- Hygiene of a directory entry's subtree. -/
theorem clean_fs_cons_tree {name : String} {t : FsTree} {rest : FsEntries}
    (h : cleanFsEntries (FsEntries.cons name t rest) = true) : cleanFs t = true := by
  simp only [cleanFsEntries, Bool.and_eq_true] at h
  exact h.1

/-- Hygiene of the remaining directory entries. -/
theorem clean_fs_cons_rest {name : String} {t : FsTree} {rest : FsEntries}
    (h : cleanFsEntries (FsEntries.cons name t rest) = true) : cleanFsEntries rest = true := by
  simp only [cleanFsEntries, Bool.and_eq_true] at h
  exact h.2

/-- The walk's entry loop keeps the pristine module state pristine. -/
theorem processEntriesW_ms (repoId repoPath repoName : String) :
    ∀ (entries : FsEntries) (relSegs : List String) (st st' : BuildState),
      cleanFsEntries entries = true → st.ms = ModuleState.initial →
      processEntriesW repoId repoPath repoName relSegs entries st = Except.ok st' →
      st'.ms = ModuleState.initial
  | FsEntries.nil, relSegs, st, st', hc, hms, h => by
    simp only [processEntriesW] at h
    cases h
    exact hms
  | FsEntries.cons name t rest, relSegs, st, st', hc, hms, h => by
    cases t with
    | dir sub =>
      simp only [processEntriesW] at h
      by_cases hskip : (strStarts "." name || name == "node_modules") = true
      · rw [if_pos hskip] at h
        exact processEntriesW_ms repoId repoPath repoName rest relSegs st st'
          (clean_fs_cons_rest hc) hms h
      · rw [if_neg hskip] at h
        have hms1 : (ensureDirNode repoId repoName (relSegs ++ [name])
            ("folder:" ++ renderRel relSegs) st).ms = ModuleState.initial := by
          rw [ensureDirNode_ms]; exact hms
        cases hsub : processEntriesW repoId repoPath repoName (relSegs ++ [name]) sub
            (ensureDirNode repoId repoName (relSegs ++ [name])
              ("folder:" ++ renderRel relSegs) st) with
        | error e => rw [hsub] at h; cases h
        | ok st2 =>
          rw [hsub] at h
          have hms2 : st2.ms = ModuleState.initial :=
            processEntriesW_ms repoId repoPath repoName sub (relSegs ++ [name]) _ st2
              (by simpa [cleanFs] using clean_fs_cons_tree hc) hms1 hsub
          exact processEntriesW_ms repoId repoPath repoName rest relSegs st2 st'
            (clean_fs_cons_rest hc) hms2 h
    | file c =>
      simp only [processEntriesW] at h
      by_cases hext : walkExts.contains (toLowerS (extnameOf name)) = true
      · rw [if_pos hext] at h
        cases hf : processFileW repoId repoPath (relSegs ++ [name])
            ("folder:" ++ renderRel relSegs) c st with
        | error e => rw [hf] at h; cases h
        | ok st2 =>
          rw [hf] at h
          have hms2 : st2.ms = ModuleState.initial :=
            processFileW_ms repoId repoPath (relSegs ++ [name]) _ c st st2
              (by simpa [cleanFs] using clean_fs_cons_tree hc) hms hf
          exact processEntriesW_ms repoId repoPath repoName rest relSegs st2 st'
            (clean_fs_cons_rest hc) hms2 h
      · rw [if_neg hext] at h
        exact processEntriesW_ms repoId repoPath repoName rest relSegs st st'
          (clean_fs_cons_rest hc) hms h

/-- File contents found in a hygienic tree are hygienic. -/
theorem fsLookup_clean :
    ∀ (root : FsEntries) (f : List String) (c : FileContent),
      cleanFsEntries root = true → fsLookupFile root f = some c → cleanContent c = true
  | root, [], c => by
    intro hc h
    cases root <;> exact Option.noConfusion (show (none : Option FileContent) = some c from h)
  | FsEntries.nil, seg :: segs, c => by
    intro hc h
    exact Option.noConfusion (show (none : Option FileContent) = some c from h)
  | FsEntries.cons nm t rest, seg :: segs, c => by
    intro hc h
    cases t with
    | file c0 =>
      cases segs with
      | nil =>
        have h' : (if nm = seg then some c0 else fsLookupFile rest (seg :: [])) = some c := h
        by_cases he : nm = seg
        · rw [if_pos he] at h'
          cases h'
          simpa [cleanFs] using clean_fs_cons_tree hc
        · rw [if_neg he] at h'
          exact fsLookup_clean rest (seg :: []) c (clean_fs_cons_rest hc) h'
      | cons s2 ss =>
        have h' : (if nm = seg then none else fsLookupFile rest (seg :: s2 :: ss)) = some c := h
        by_cases he : nm = seg
        · rw [if_pos he] at h'
          exact Option.noConfusion h'
        · rw [if_neg he] at h'
          exact fsLookup_clean rest (seg :: s2 :: ss) c (clean_fs_cons_rest hc) h'
    | dir sub =>
      cases segs with
      | nil =>
        have h' : (if nm = seg then none else fsLookupFile rest (seg :: [])) = some c := h
        by_cases he : nm = seg
        · rw [if_pos he] at h'
          exact Option.noConfusion h'
        · rw [if_neg he] at h'
          exact fsLookup_clean rest (seg :: []) c (clean_fs_cons_rest hc) h'
      | cons s2 ss =>
        have h' : (if nm = seg then fsLookupFile sub (s2 :: ss)
            else fsLookupFile rest (seg :: s2 :: ss)) = some c := h
        by_cases he : nm = seg
        · rw [if_pos he] at h'
          exact fsLookup_clean sub (s2 :: ss) c
            (by simpa [cleanFs] using clean_fs_cons_tree hc) h'
        · rw [if_neg he] at h'
          exact fsLookup_clean rest (seg :: s2 :: ss) c (clean_fs_cons_rest hc) h'

/-- One files-loop iteration keeps the pristine module state pristine. -/
theorem fileStep_ms (repoId repoPath : String) (fsRoot : FsEntries) (f : List String)
    (st st' : BuildState) (hfs : cleanFsEntries fsRoot = true)
    (hms : st.ms = ModuleState.initial)
    (h : fileStep repoId repoPath fsRoot f st = Except.ok st') :
    st'.ms = ModuleState.initial := by
  unfold fileStep at h
  split at h
  · cases h
    exact hms
  · split at h
    · cases h
      exact hms
    · rename_i c hlk
      split at h
      · cases h
        exact hms
      · rename_i h2
        split at h
        · exact Except.noConfusion h
        · exact Except.noConfusion h
        · rename_i tags ms2 hpr
          cases h
          have hc : cleanContent c = true := fsLookup_clean fsRoot f c hfs hlk
          have hmse : (fileStepEnsure repoId f st).ms = ModuleState.initial := hms
          have hparse := parseFileM_clean f c (fileStepEnsure repoId f st).ms hc hmse
          have hms2 : ms2 = ModuleState.initial := by
            have h3 := hparse.1
            rw [hpr] at h3
            exact h3
          rw [applyTags_ms]
          exact hms2

/-- The whole files loop keeps the pristine module state pristine. -/
theorem filesLoop_ms (repoId repoPath : String) (fsRoot : FsEntries)
    (hfs : cleanFsEntries fsRoot = true) :
    ∀ (files : List (List String)) (st st' : BuildState),
      st.ms = ModuleState.initial →
      filesLoop repoId repoPath fsRoot files st = Except.ok st' →
      st'.ms = ModuleState.initial
  | [], st, st', hms, h => by
    simp only [filesLoop] at h
    cases h
    exact hms
  | f :: rest, st, st', hms, h => by
    simp only [filesLoop] at h
    cases hf : fileStep repoId repoPath fsRoot f st with
    | error e => rw [hf] at h; cases h
    | ok st2 =>
      rw [hf] at h
      exact filesLoop_ms repoId repoPath fsRoot hfs rest st2 st'
        (fileStep_ms repoId repoPath fsRoot f st st2 hfs hms hf) h

/-- The resolver tail never touches the module state. -/
theorem resolveRefTail_ms (repoId refNodeId defNodeId : String) (st : BuildState) :
    (resolveRefTail repoId refNodeId defNodeId st).ms = st.ms := by
  unfold resolveRefTail
  by_cases h1 : nhas st.graph defNodeId = true
  · simp only [h1, if_true]
    by_cases h2 : (refNodeId ++ "-" ++ defNodeId ++ "-REFERENCES") ∈ st.resolvedRefs
    · simp [h2]
    · by_cases h3 : (addUniqueEdge st.graph.edges refNodeId defNodeId "REFERENCES" repoId).snd
          = true
      · simp [h2, h3]
      · simp [h2, h3]
  · simp [h1]

/-- One resolver iteration never touches the module state. -/
theorem resolveRefStep_ms (repoId : String) (st : BuildState) (ref : Tag) :
    (resolveRefStep repoId st ref).ms = st.ms := by
  unfold resolveRefStep
  cases hlk : List.lookup (ref.name ++ ":" ++ ref.type) st.definitions with
  | none => rfl
  | some defTag =>
    by_cases h1 : nhas st.graph (generateNodeId repoId
        ("ref:" ++ ref.filePath ++ ":" ++ ref.name ++ ":" ++ natStr ref.startLine)) = true
    · simp [h1, resolveRefTail_ms]
    · simp only [h1, Bool.false_eq_true, if_false]
      split
      · rw [resolveRefTail_ms]
      · rfl

/-- The whole resolver pass never touches the module state. -/
theorem resolverLoop_ms (repoId : String) :
    ∀ (refs : List Tag) (st : BuildState), (resolverLoop repoId refs st).ms = st.ms
  | [], st => rfl
  | ref :: rest, st => by
    rw [resolverLoop, resolverLoop_ms repoId rest, resolveRefStep_ms]

/-- A completed Neo4j-variant build over hygienic input leaves the
process-wide parser maps exactly as it found them (pristine). -/
theorem buildGraphNeo4j_ms (inp : BuildInput) (res : BuildResult) (ms1 : ModuleState)
    (hc : cleanInputB inp = true)
    (h : buildGraphNeo4j inp ModuleState.initial = Except.ok (res, ms1)) :
    ms1 = ModuleState.initial := by
  have hfs : cleanFsEntries inp.fsRoot = true := by
    simp only [cleanInputB, Bool.and_eq_true] at hc
    exact hc.2
  unfold buildGraphNeo4j at h
  split at h
  · exact Except.noConfusion h
  · rename_i st1 hd
    split at h
    · exact Except.noConfusion h
    · rename_i st2 hf
      have hms1 : st1.ms = ModuleState.initial := by
        unfold processDirW at hd
        exact processEntriesW_ms inp.repoId inp.repoPath inp.repoName inp.fsRoot [] _ st1 hfs
          (by rw [ensureDirNode_ms]; rfl) hd
      have hms2 : st2.ms = ModuleState.initial :=
        filesLoop_ms inp.repoId inp.repoPath inp.fsRoot hfs inp.files st1 st2 hms1 hf
      injection h with h2
      have hms' := congrArg Prod.snd h2
      simp only at hms'
      rw [← hms', resolverLoop_ms]
      exact hms2

/-- A hygienic name contains no colon. -/
theorem cleanName_no_colon {x : String} (h : cleanName x = true) : ':' ∉ x.data := by
  simp only [cleanName, Bool.and_eq_true, Bool.not_eq_true'] at h
  simpa using h.1

/-- Colon-freeness is preserved by append. -/
theorem no_colon_append {a b : String} (ha : ':' ∉ a.data) (hb : ':' ∉ b.data) :
    ':' ∉ (a ++ b).data := by
  rw [string_data_append]
  intro h
  rcases List.mem_append.mp h with h | h
  · exact ha h
  · exact hb h

/-- String append cancels on the left. -/
theorem str_append_left_cancel {p a b : String} (h : p ++ a = p ++ b) : a = b := by
  have hd := congrArg String.data h
  rw [string_data_append, string_data_append] at hd
  have h2 := List.append_cancel_left hd
  cases a
  cases b
  exact congrArg String.mk (by simpa using h2)

/-- The rank order is transitive. -/
theorem rankLt_trans {d1 d2 d3 : String} (h1 : rankLt d1 d2) (h2 : rankLt d2 d3) :
    rankLt d1 d3 := by
  unfold rankLt at h1 h2 ⊢
  omega

/-- The rank order is irreflexive. -/
theorem rankLt_irrefl (d : String) : ¬ rankLt d d := by
  unfold rankLt
  omega

/-- Membership after a JS `Map.set`: the new pair or an old pair. -/
theorem mem_aset {α : Type} {p : String × α} :
    ∀ {l : List (String × α)} {k : String} {v : α}, p ∈ aset l k v → p = (k, v) ∨ p ∈ l := by
  intro l
  induction l with
  | nil =>
    intro k v h
    exact Or.inl (List.mem_singleton.mp h)
  | cons kv rest ih =>
    intro k v h
    obtain ⟨a, b⟩ := kv
    by_cases hk : a = k
    · rw [aset, if_pos hk] at h
      rcases List.mem_cons.mp h with h | h
      · exact Or.inl h
      · exact Or.inr (List.mem_cons_of_mem _ h)
    · rw [aset, if_neg hk] at h
      rcases List.mem_cons.mp h with h | h
      · exact Or.inr (by rw [h]; exact List.mem_cons_self _ _)
      · rcases ih h with h2 | h2
        · exact Or.inl h2
        · exact Or.inr (List.mem_cons_of_mem _ h2)

/-- Looking up a different key is unaffected by `aset`. -/
theorem lookup_aset_ne {α : Type} :
    ∀ (l : List (String × α)) {q k : String} (v : α), q ≠ k →
      List.lookup q (aset l k v) = List.lookup q l := by
  intro l
  induction l with
  | nil =>
    intro q k v h
    have hqk : (q == k) = false := beq_eq_false_iff_ne.mpr h
    simp [aset, List.lookup, hqk]
  | cons kv rest ih =>
    intro q k v h
    obtain ⟨a, b⟩ := kv
    by_cases hk : a = k
    · subst hk
      rw [aset, if_pos rfl]
      have hqk : (q == a) = false := beq_eq_false_iff_ne.mpr h
      simp [List.lookup, hqk]
    · rw [aset, if_neg hk]
      cases hqa : q == a with
      | true => simp [List.lookup, hqa]
      | false => simp [List.lookup, hqa, ih v h]

/-- A present key stays present through `aset`. -/
theorem lookup_isSome_aset {α : Type} (l : List (String × α)) (q k : String) (v : α)
    (h : (List.lookup q l).isSome = true) :
    (List.lookup q (aset l k v)).isSome = true := by
  by_cases hk : q = k
  · subst hk
    rw [lookup_aset_self]
    rfl
  · rw [lookup_aset_ne l v hk]
    exact h

/-- A successful lookup exhibits a member. -/
theorem lookup_mem {α : Type} :
    ∀ {l : List (String × α)} {k : String} {v : α},
      List.lookup k l = some v → (k, v) ∈ l := by
  intro l
  induction l with
  | nil => intro k v h; exact Option.noConfusion h
  | cons kv rest ih =>
    intro k v h
    obtain ⟨a, b⟩ := kv
    cases hka : k == a with
    | true =>
      simp only [List.lookup, hka] at h
      injection h with h
      rw [beq_iff_eq.mp hka, ← h]
      exact List.mem_cons_self _ _
    | false =>
      simp only [List.lookup, hka] at h
      exact List.mem_cons_of_mem _ (ih h)

/-- A present node id exhibits a node entry. -/
theorem nhas_mem {g : GraphData} {i : String} (h : nhas g i = true) :
    ∃ v, (i, v) ∈ g.nodes := by
  unfold nhas at h
  cases hl : List.lookup i g.nodes with
  | none => rw [hl] at h; exact Bool.noConfusion h
  | some v => exact ⟨v, lookup_mem hl⟩

/-- Lookup success is key membership. -/
theorem lookup_isSome_iff_keys {α : Type} :
    ∀ (l : List (String × α)) (k : String),
      (List.lookup k l).isSome = true ↔ k ∈ l.map Prod.fst := by
  intro l
  induction l with
  | nil => intro k; simp [List.lookup]
  | cons kv rest ih =>
    intro k
    obtain ⟨a, b⟩ := kv
    cases hka : k == a with
    | true => simp [List.lookup, hka, beq_iff_eq.mp hka]
    | false =>
      have hne : k ≠ a := ne_of_beq_false hka
      simp [List.lookup, hka, hne, ih]

/-- The key list after `aset`: unchanged if the key was present, extended
by the key otherwise. -/
theorem keys_aset {α : Type} :
    ∀ (l : List (String × α)) (k : String) (v : α),
      (aset l k v).map Prod.fst =
        if k ∈ l.map Prod.fst then l.map Prod.fst else l.map Prod.fst ++ [k] := by
  intro l
  induction l with
  | nil => intro k v; simp [aset]
  | cons kv rest ih =>
    intro k v
    obtain ⟨a, b⟩ := kv
    by_cases hk : a = k
    · rw [aset, if_pos hk]
      simp [hk]
    · rw [aset, if_neg hk]
      simp only [List.map_cons, List.mem_cons]
      by_cases hmem : k ∈ rest.map Prod.fst
      · rw [if_pos (Or.inr hmem), ih, if_pos hmem]
      · rw [if_neg ?_, ih, if_neg hmem]
        · simp
        · intro h
          rcases h with h | h
          · exact hk h.symm
          · exact hmem h

/-- `aset` preserves key distinctness. -/
theorem keysNodup_aset {α : Type} (l : List (String × α)) (k : String) (v : α)
    (h : (l.map Prod.fst).Nodup) : ((aset l k v).map Prod.fst).Nodup := by
  rw [keys_aset]
  by_cases hk : k ∈ l.map Prod.fst
  · rw [if_pos hk]; exact h
  · rw [if_neg hk]
    simp only [List.nodup_append, List.nodup_cons, List.not_mem_nil, not_false_eq_true,
      List.nodup_nil, and_true, true_and]
    exact ⟨h, by simpa [List.disjoint_singleton] using hk⟩

/-- Containment reachability survives appending edges. -/
theorem ReachC_append {edges ext : List GraphEdgeData} {a b : String}
    (h : ReachC edges a b) : ReachC (edges ++ ext) a b := by
  induction h with
  | refl => exact ReachC.refl _
  | step h e he hs ht hty ih => exact ReachC.step ih e (List.mem_append_left _ he) hs ht hty

/-- Anchoring survives appending edges. -/
theorem RootedAt_append {repoId : String} {edges ext : List GraphEdgeData} {i : String}
    (h : RootedAt repoId edges i) : RootedAt repoId (edges ++ ext) i := by
  rcases h with h | h | h | h
  · exact Or.inl h
  · exact Or.inr (Or.inl h)
  · exact Or.inr (Or.inr (Or.inl (ReachC_append h)))
  · exact Or.inr (Or.inr (Or.inr (ReachC_append h)))

/-- A `CONTAINS` edge out of an anchored id anchors its target. -/
theorem RootedAt_step {repoId : String} {edges : List GraphEdgeData} {s i : String}
    (h : RootedAt repoId edges s) (e : GraphEdgeData) (he : e ∈ edges)
    (hs : e.sourceId = s) (ht : e.targetId = i) (hty : e.type = "CONTAINS") :
    RootedAt repoId edges i := by
  rcases h with h | h | h | h
  · exact Or.inr (Or.inr (Or.inl (ReachC.step (ReachC.refl _) e he (hs.trans h) ht hty)))
  · exact Or.inr (Or.inr (Or.inr (ReachC.step (ReachC.refl _) e he (hs.trans h) ht hty)))
  · exact Or.inr (Or.inr (Or.inl (ReachC.step h e he hs ht hty)))
  · exact Or.inr (Or.inr (Or.inr (ReachC.step h e he hs ht hty)))

/-- A positive `edgeExists` check exhibits the edge. -/
theorem exists_of_edgeExists {edges : List GraphEdgeData} {s t ty rid : String}
    (h : edgeExists edges s t ty rid = true) :
    ∃ e ∈ edges, e.sourceId = s ∧ e.targetId = t ∧ e.type = ty := by
  unfold edgeExists at h
  rcases List.any_eq_true.mp h with ⟨e, he, hp⟩
  simp only [Bool.and_eq_true, beq_iff_eq] at hp
  exact ⟨e, he, hp.1.1.1, hp.1.1.2, hp.1.2⟩

/-- A negative `edgeExists` check refutes any matching edge (the repo-id
conjunct is discharged by the repo-id invariant). -/
theorem edgeExists_false_no_match {edges : List GraphEdgeData} {s t ty rid : String}
    (h : edgeExists edges s t ty rid = false)
    (hrepo : ∀ e ∈ edges, e.repoId = rid) :
    ∀ e ∈ edges, e.sourceId = s → e.targetId = t → e.type = ty → False := by
  intro e he h1 h2 h3
  have h4 : edgeExists edges s t ty rid = true := by
    unfold edgeExists
    exact List.any_eq_true.mpr ⟨e, he, by simp [h1, h2, h3, hrepo e he]⟩
  rw [h] at h4
  exact Bool.noConfusion h4

/-- Appending a rank-good edge preserves edge goodness. -/
theorem good_append {repoId : String} {edges : List GraphEdgeData} {ne : GraphEdgeData}
    (h : ∀ e ∈ edges, goodContains repoId e) (hne : goodContains repoId ne) :
    ∀ e ∈ edges ++ [ne], goodContains repoId e := by
  intro e he
  rcases List.mem_append.mp he with h2 | h2
  · exact h e h2
  · rw [List.mem_singleton.mp h2]
    exact hne

/-- Appending an edge of the right repo preserves the repo-id invariant. -/
theorem repoOk_append {rid : String} {edges : List GraphEdgeData} {ne : GraphEdgeData}
    (h : ∀ e ∈ edges, e.repoId = rid) (hne : ne.repoId = rid) :
    ∀ e ∈ edges ++ [ne], e.repoId = rid := by
  intro e he
  rcases List.mem_append.mp he with h2 | h2
  · exact h e h2
  · rw [List.mem_singleton.mp h2]
    exact hne

/-- Appending an unmatched `CONTAINS` edge preserves pairwise
distinctness. -/
theorem noDup_append_guard {edges : List GraphEdgeData} {s t rid : String}
    (hnd : NoDupContains edges)
    (hex : edgeExists edges s t "CONTAINS" rid = false)
    (hrepo : ∀ e ∈ edges, e.repoId = rid) :
    NoDupContains
      (edges ++ [{ sourceId := s, targetId := t, type := "CONTAINS", repoId := rid }]) := by
  unfold NoDupContains at hnd ⊢
  rw [List.pairwise_append]
  refine ⟨hnd, List.pairwise_singleton _ _, ?_⟩
  intro e1 he1 e2 he2
  rw [List.mem_singleton.mp he2]
  intro h1 _ h3 h4
  exact edgeExists_false_no_match hex hrepo e1 he1 h3 h4 h1

/-- Pairwise distinctness bounds the multiplicity of any
source/target-matching `CONTAINS` edge by one. -/
theorem noDup_countP_le_one {s t : String} :
    ∀ {edges : List GraphEdgeData}, NoDupContains edges →
      edges.countP
        (fun e => e.sourceId == s && e.targetId == t && e.type == "CONTAINS") ≤ 1 := by
  intro edges
  induction edges with
  | nil => intro h; simp
  | cons e rest ih =>
    intro h
    rw [NoDupContains, List.pairwise_cons] at h
    rw [List.countP_cons]
    by_cases hp : (e.sourceId == s && e.targetId == t && e.type == "CONTAINS") = true
    · have hzero : rest.countP
          (fun e => e.sourceId == s && e.targetId == t && e.type == "CONTAINS") = 0 := by
        rw [List.countP_eq_zero]
        intro e2 he2 hp2
        simp only [Bool.and_eq_true, beq_iff_eq] at hp hp2
        exact h.1 e2 he2 hp.2 hp2.2 (hp.1.1.trans hp2.1.1.symm) (hp.1.2.trans hp2.1.2.symm)
      simp [hzero, hp]
    · have h1 := ih h.2
      simp only [hp]
      simp only [Bool.false_eq_true, if_false]
      omega

/-- A string prefix survives appending to the larger string. -/
theorem strStarts_mono_append {p s : String} (t : String) (h : strStarts p s = true) :
    strStarts p (s ++ t) = true := by
  simp only [strStarts, string_data_append] at h ⊢
  exact List.isPrefixOf_iff_prefix.mpr
    ((List.isPrefixOf_iff_prefix.mp h).trans (List.prefix_append s.data t.data))

/-- Rank-goodness of every `CONTAINS` edge rules out reverse pairs. -/
theorem noReverse_of_good {repoId : String} {edges : List GraphEdgeData}
    (h : ∀ e ∈ edges, goodContains repoId e) : NoReverseContains edges := by
  intro e1 he1 e2 he2 ht1 ht2 hst hts
  obtain ⟨d1, d2, hs1, ht1b, hlt1⟩ := h e1 he1 ht1
  obtain ⟨d1b, d2b, hs2, ht2b, hlt2⟩ := h e2 he2 ht2
  have h1 : d1 = d2b := gen_inj (hs1.symm.trans (hst.trans ht2b))
  have h2 : d2 = d1b := gen_inj (ht1b.symm.trans (hts.trans hs2))
  subst h1
  subst h2
  exact rankLt_asymm hlt1 hlt2

/-- `addUniqueEdge` for an in-rank `CONTAINS` edge: the edge array is only
extended, all graph invariants are preserved, and a matching edge is
present afterwards (the reverse-refusal branch is unreachable because an
existing reverse edge would violate rank-goodness). -/
theorem addUniqueEdge_contains_ok {edges : List GraphEdgeData} {repoId s t d1 d2 : String}
    (hrepo : ∀ e ∈ edges, e.repoId = repoId)
    (hrank : ∀ e ∈ edges, goodContains repoId e)
    (hnd : NoDupContains edges)
    (hs : s = generateNodeId repoId d1) (ht : t = generateNodeId repoId d2)
    (hlt : rankLt d1 d2) :
    (∃ ext, (addUniqueEdge edges s t "CONTAINS" repoId).fst = edges ++ ext) ∧
    (∀ e ∈ (addUniqueEdge edges s t "CONTAINS" repoId).fst, e.repoId = repoId) ∧
    (∀ e ∈ (addUniqueEdge edges s t "CONTAINS" repoId).fst, goodContains repoId e) ∧
    NoDupContains (addUniqueEdge edges s t "CONTAINS" repoId).fst ∧
    ∃ e ∈ (addUniqueEdge edges s t "CONTAINS" repoId).fst,
      e.sourceId = s ∧ e.targetId = t ∧ e.type = "CONTAINS" := by
  have hform : addUniqueEdge edges s t "CONTAINS" repoId =
      (if edgeExists edges s t "CONTAINS" repoId then (edges, false)
       else if edgeExists edges t s "CONTAINS" repoId then (edges, false)
       else (edges ++ [{ sourceId := s, targetId := t, type := "CONTAINS",
                         repoId := repoId }], true)) := rfl
  rw [hform]
  by_cases hex : edgeExists edges s t "CONTAINS" repoId = true
  · rw [if_pos hex]
    exact ⟨⟨[], (List.append_nil _).symm⟩, hrepo, hrank, hnd, exists_of_edgeExists hex⟩
  · rw [if_neg (by simpa using hex)]
    by_cases hrev : edgeExists edges t s "CONTAINS" repoId = true
    · exfalso
      obtain ⟨e, he, hsrc, htgt, hty⟩ := exists_of_edgeExists hrev
      obtain ⟨da, db, hsa, htb, hlt2⟩ := hrank e he hty
      have h1 : da = d2 := gen_inj (hsa.symm.trans (hsrc.trans ht))
      have h2 : db = d1 := gen_inj (htb.symm.trans (htgt.trans hs))
      subst h1
      subst h2
      exact rankLt_asymm hlt hlt2
    · rw [if_neg (by simpa using hrev)]
      have hex2 : edgeExists edges s t "CONTAINS" repoId = false := by simpa using hex
      refine ⟨⟨_, rfl⟩, repoOk_append hrepo rfl,
        good_append hrank (fun _ => ⟨d1, d2, hs, ht, hlt⟩),
        noDup_append_guard hnd hex2 hrepo, ?_⟩
      exact ⟨_, List.mem_append_right _ (List.mem_singleton_self _), rfl, rfl, rfl⟩

/-- Folder disambiguator of a nonempty segment path. -/
theorem folderD_cons (s : String) (ss : List String) :
    folderD (s :: ss) = "folder:" ++ renderSegs (s :: ss) := by
  rw [folderD, if_neg (by simp)]

/-- The parent disambiguator of a nonempty dot-free folder path ranks
strictly below the folder itself. -/
theorem rankLt_folderD_child (l : List String) (hne : l ≠ []) (hx : ∀ x ∈ l, x ≠ ".") :
    rankLt (folderD l.dropLast) ("folder:" ++ renderSegs l) := by
  by_cases hd : l.dropLast = []
  · rw [hd]
    exact rankLt_root_folder l hne hx
  · rw [folderD, if_neg hd]
    have h2 := rankLt_parent_folder l hne hx
    rw [renderRel, if_neg hd] at h2
    exact h2

/-- Any folder-level disambiguator ranks strictly below any file
disambiguator. -/
theorem rankLt_folderD_file (segs : List String) (q : String) :
    rankLt (folderD segs) ("file:" ++ q) := by
  by_cases h : segs = []
  · rw [h]
    exact rankLt_root_file q
  · rw [folderD, if_neg h]
    exact rankLt_folder_file _ q

/-- Appending one segment strictly increases the folder depth. -/
theorem folderDepth_snoc_lt (l1 : List String) (x : String) (h1 : l1 ≠ [])
    (hx : ∀ z ∈ l1 ++ [x], z ≠ ".") :
    folderDepth (renderSegs l1) < folderDepth (renderSegs (l1 ++ [x])) := by
  rw [renderSegs_snoc l1 x h1]
  have ha : renderSegs l1 ≠ "." :=
    renderSegs_ne_dot l1 h1 (fun z hz => hx z (List.mem_append_left _ hz))
  have hb : renderSegs l1 ++ "/" ++ x ≠ "." := by
    intro h
    have hc : countSlash (renderSegs l1 ++ "/" ++ x) = 0 := by rw [h]; rfl
    rw [countSlash_append3] at hc
    omega
  simp only [folderDepth, ha, hb, if_false, countSlash_append3]
  omega

/-- Extending a nonempty dot-free path strictly increases the folder
depth. -/
theorem folderDepth_prefix_lt :
    ∀ (l2 l1 : List String), l1 ≠ [] → l2 ≠ [] → (∀ x ∈ l1 ++ l2, x ≠ ".") →
      folderDepth (renderSegs l1) < folderDepth (renderSegs (l1 ++ l2)) := by
  intro l2
  induction l2 with
  | nil => intro l1 _ h2 _; exact absurd rfl h2
  | cons y l2b ih =>
    intro l1 h1 _ hx
    by_cases hl2 : l2b = []
    · subst hl2
      exact folderDepth_snoc_lt l1 y h1 hx
    · have hstep : folderDepth (renderSegs l1) < folderDepth (renderSegs (l1 ++ [y])) :=
        folderDepth_snoc_lt l1 y h1 (by
          intro w hw
          refine hx w ?_
          rcases List.mem_append.mp hw with h | h
          · exact List.mem_append_left _ h
          · exact List.mem_append_right _ (by rw [List.mem_singleton.mp h]; exact List.mem_cons_self _ _))
      have hrest : folderDepth (renderSegs (l1 ++ [y])) <
          folderDepth (renderSegs ((l1 ++ [y]) ++ l2b)) := by
        refine ih (l1 ++ [y]) (by simp) hl2 ?_
        intro w hw
        refine hx w ?_
        rcases List.mem_append.mp hw with h | h
        · rcases List.mem_append.mp h with h2 | h2
          · exact List.mem_append_left _ h2
          · exact List.mem_append_right _ (by rw [List.mem_singleton.mp h2]; exact List.mem_cons_self _ _)
        · exact List.mem_append_right _ (List.mem_cons_of_mem _ h)
      have hassoc : (l1 ++ [y]) ++ l2b = l1 ++ (y :: l2b) := by simp
      rw [hassoc] at hrest
      omega

/-- A proper nonempty prefix of a dot-free path renders to a different
string. -/
theorem renderSegs_take_ne (l : List String) (k : Nat) (h1 : 1 ≤ k) (h2 : k < l.length)
    (hx : ∀ x ∈ l, x ≠ ".") : renderSegs (l.take k) ≠ renderSegs l := by
  have hsplit : l.take k ++ l.drop k = l := List.take_append_drop k l
  have htne : l.take k ≠ [] := by
    intro h
    have h3 : (l.take k).length = 0 := by rw [h]; rfl
    rw [List.length_take] at h3
    omega
  have hdne : l.drop k ≠ [] := by
    intro h
    have h3 : (l.drop k).length = 0 := by rw [h]; rfl
    rw [List.length_drop] at h3
    omega
  have hlt := folderDepth_prefix_lt (l.drop k) (l.take k) htne hdne (by rw [hsplit]; exact hx)
  rw [hsplit] at hlt
  intro heq
  rw [heq] at hlt
  omega

/-- Distinct folder paths give distinct generated node ids. -/
theorem folder_gen_ne {repoId a b : String} (h : a ≠ b) :
    generateNodeId repoId ("folder:" ++ a) ≠ generateNodeId repoId ("folder:" ++ b) := by
  intro he
  exact h (str_append_left_cancel (gen_inj he))

/-- Taking from the front commutes with dropping the last element. -/
theorem take_dropLast_eq {α : Type} (l : List α) (k : Nat) (h : k ≤ l.length - 1) :
    l.dropLast.take k = l.take k := by
  rw [List.dropLast_eq_take, List.take_take]
  congr 1
  omega

/-- Reduced form of the linking tail when the folder node is already
present (the dead re-insertion block never fires). -/
theorem ensureFolderLink_eq (repoId nodeId : String) (fn : GraphNodeData)
    (pr : String × GraphData) (h : nhas pr.snd nodeId = true) :
    ensureFolderLink repoId nodeId fn pr =
      { pr.snd with
        edges := (addUniqueEdge pr.snd.edges pr.fst nodeId "CONTAINS" repoId).fst } := by
  simp only [ensureFolderLink]
  rw [if_pos ?_]
  exact h

/-- Full specification of the fuelled `ensureFolderNode` recursion over a
well-formed graph: the returned id is the id of the folder disambiguator;
the edge array only grows; node presence is monotone; the repo-id, rank
and duplicate-freedom edge invariants and key distinctness are preserved;
every new node is anchored; the returned id is anchored; and over a graph
with no node of the folder chain present, every ancestor level gets a node
plus a `CONTAINS` edge from its parent level, terminating at the root. -/
theorem ensureFolderNodeF_spec (repoId : String) :
    ∀ (fuel : Nat) (segs : List String) (g : GraphData),
      segs.length ≤ fuel →
      (∀ x ∈ segs, x ≠ ".") →
      (∀ e ∈ g.edges, e.repoId = repoId) →
      (∀ e ∈ g.edges, goodContains repoId e) →
      NoDupContains g.edges →
      (g.nodes.map Prod.fst).Nodup →
      (∀ p ∈ g.nodes,
        (∃ d, p.1 = generateNodeId repoId d ∧ rankLt (folderD segs) d) ∨
        RootedAt repoId g.edges p.1) →
      (ensureFolderNodeF repoId fuel segs g).fst = generateNodeId repoId (folderD segs) ∧
      (∃ ext, (ensureFolderNodeF repoId fuel segs g).snd.edges = g.edges ++ ext) ∧
      (∀ k, nhas g k = true → nhas (ensureFolderNodeF repoId fuel segs g).snd k = true) ∧
      (∀ e ∈ (ensureFolderNodeF repoId fuel segs g).snd.edges, e.repoId = repoId) ∧
      (∀ e ∈ (ensureFolderNodeF repoId fuel segs g).snd.edges, goodContains repoId e) ∧
      NoDupContains (ensureFolderNodeF repoId fuel segs g).snd.edges ∧
      ((ensureFolderNodeF repoId fuel segs g).snd.nodes.map Prod.fst).Nodup ∧
      (∀ p ∈ (ensureFolderNodeF repoId fuel segs g).snd.nodes,
        p ∈ g.nodes ∨ RootedAt repoId (ensureFolderNodeF repoId fuel segs g).snd.edges p.1) ∧
      RootedAt repoId (ensureFolderNodeF repoId fuel segs g).snd.edges
        (generateNodeId repoId (folderD segs)) ∧
      ((∀ k, 1 ≤ k → k ≤ segs.length →
          nhas g (generateNodeId repoId ("folder:" ++ renderSegs (segs.take k))) = false) →
        ∀ i, 1 ≤ i → i ≤ segs.length →
          nhas (ensureFolderNodeF repoId fuel segs g).snd
            (generateNodeId repoId ("folder:" ++ renderSegs (segs.take i))) = true ∧
          ∃ e ∈ (ensureFolderNodeF repoId fuel segs g).snd.edges,
            e.sourceId = generateNodeId repoId (folderD (segs.take (i - 1))) ∧
            e.targetId = generateNodeId repoId ("folder:" ++ renderSegs (segs.take i)) ∧
            e.type = "CONTAINS") := by
  intro fuel
  induction fuel with
  | zero =>
    intro segs g hlen hsegH hrepo hrank hnd hkeys hreach
    cases segs with
    | nil =>
      refine ⟨rfl, ⟨[], (List.append_nil _).symm⟩, fun k hk => hk, hrepo, hrank, hnd, hkeys,
        fun p hp => Or.inl hp, Or.inl rfl, ?_⟩
      intro _ i h1 h2
      simp only [List.length_nil] at h2
      exact absurd h2 (by omega)
    | cons s ss => simp at hlen
  | succ n ih =>
    intro segs g hlen hsegH hrepo hrank hnd hkeys hreach
    cases segs with
    | nil =>
      refine ⟨rfl, ⟨[], (List.append_nil _).symm⟩, fun k hk => hk, hrepo, hrank, hnd, hkeys,
        fun p hp => Or.inl hp, Or.inl rfl, ?_⟩
      intro _ i h1 h2
      simp only [List.length_nil] at h2
      exact absurd h2 (by omega)
    | cons s ss =>
      have hfD := folderD_cons s ss
      have hlNe : (s :: ss) ≠ ([] : List String) := by simp
      set nodeId := generateNodeId repoId ("folder:" ++ renderSegs (s :: ss)) with hnodeId
      set fn : GraphNodeData :=
        { nodeId := nodeId, repoId := repoId, name := lastSeg (s :: ss), type := "FOLDER",
          filePath := renderSegs (s :: ss), startLine := 0, endLine := 0,
          isDirectory := some true } with hfn
      set g1 : GraphData := { g with nodes := aset g.nodes nodeId fn } with hg1
      set pr := ensureFolderNodeF repoId n (s :: ss).dropLast g1 with hpr
      have heq0 : ensureFolderNodeF repoId (n + 1) (s :: ss) g =
          (if nhas g nodeId then (nodeId, g)
           else (nodeId, ensureFolderLink repoId nodeId fn pr)) := by
        rw [hpr, hg1, hfn, hnodeId]
        rfl
      by_cases hex : nhas g nodeId = true
      · have heq : ensureFolderNodeF repoId (n + 1) (s :: ss) g = (nodeId, g) := by
          rw [heq0, if_pos hex]
        rw [heq]
        have hroot : RootedAt repoId g.edges nodeId := by
          obtain ⟨v, hv⟩ := nhas_mem hex
          rcases hreach _ hv with ⟨d, hd, hlt⟩ | hr
          · exfalso
            rw [← gen_inj hd, ← hfD] at hlt
            exact rankLt_irrefl _ hlt
          · exact hr
        refine ⟨by rw [hfD], ⟨[], (List.append_nil _).symm⟩, fun k hk => hk, hrepo, hrank,
          hnd, hkeys, fun p hp => Or.inl hp, by rw [hfD, ← hnodeId]; exact hroot, ?_⟩
        intro habs i h1 h2
        exfalso
        have h10 := habs (s :: ss).length (by simp) (le_refl _)
        rw [List.take_length, ← hnodeId] at h10
        rw [h10] at hex
        exact Bool.noConfusion hex
      · have heq : ensureFolderNodeF repoId (n + 1) (s :: ss) g =
            (nodeId, ensureFolderLink repoId nodeId fn pr) := by
          rw [heq0, if_neg hex]
        rw [heq]
        have hlen2 : (s :: ss).dropLast.length ≤ n := by
          simp only [List.length_dropLast, List.length_cons] at hlen ⊢
          omega
        have hseg2 : ∀ x ∈ (s :: ss).dropLast, x ≠ "." :=
          fun x hx => hsegH x ((List.dropLast_sublist _).subset hx)
        have hchild0 : rankLt (folderD (s :: ss).dropLast) ("folder:" ++ renderSegs (s :: ss)) :=
          rankLt_folderD_child (s :: ss) hlNe hsegH
        have hkeys1 : (g1.nodes.map Prod.fst).Nodup :=
          keysNodup_aset g.nodes nodeId fn hkeys
        have hreach1 : ∀ p ∈ g1.nodes,
            (∃ d, p.1 = generateNodeId repoId d ∧ rankLt (folderD (s :: ss).dropLast) d) ∨
            RootedAt repoId g1.edges p.1 := by
          intro p hp
          rcases mem_aset (show p ∈ aset g.nodes nodeId fn from hp) with hp1 | hp1
          · refine Or.inl ⟨"folder:" ++ renderSegs (s :: ss), ?_, hchild0⟩
            rw [hp1]
          · rcases hreach p hp1 with ⟨d, hd, hlt⟩ | hr
            · refine Or.inl ⟨d, hd, rankLt_trans ?_ hlt⟩
              rw [hfD]
              exact hchild0
            · exact Or.inr hr
        obtain ⟨r1, ⟨ext1, r2⟩, r3, r4, r5, r6, r7, r8, r9, r10⟩ :=
          ih (s :: ss).dropLast g1 hlen2 hseg2 hrepo hrank hnd hkeys1 hreach1
        rw [← hpr] at r1 r2 r3 r4 r5 r6 r7 r8 r9 r10
        have hnhas1 : nhas g1 nodeId = true := by
          show (List.lookup nodeId (aset g.nodes nodeId fn)).isSome = true
          rw [lookup_aset_self]
          rfl
        have hnhas2 : nhas pr.snd nodeId = true := r3 nodeId hnhas1
        have hlink := ensureFolderLink_eq repoId nodeId fn pr hnhas2
        obtain ⟨⟨ext2, ha2⟩, ha3, ha4, ha5, ha6⟩ :=
          addUniqueEdge_contains_ok r4 r5 r6 r1 hnodeId hchild0
        have hRA : RootedAt repoId
            ((addUniqueEdge pr.snd.edges pr.fst nodeId "CONTAINS" repoId).fst) nodeId := by
          obtain ⟨e, he, hesrc, hetgt, hety⟩ := ha6
          refine RootedAt_step ?_ e he hesrc hetgt hety
          rw [ha2, r1]
          exact RootedAt_append r9
        refine ⟨?_, ?_, ?_, ?_, ?_, ?_, ?_, ?_, ?_, ?_⟩
        · show nodeId = generateNodeId repoId (folderD (s :: ss))
          rw [hfD]
        · refine ⟨ext1 ++ ext2, ?_⟩
          show (ensureFolderLink repoId nodeId fn pr).edges = g.edges ++ (ext1 ++ ext2)
          rw [hlink]
          show (addUniqueEdge pr.snd.edges pr.fst nodeId "CONTAINS" repoId).fst =
            g.edges ++ (ext1 ++ ext2)
          rw [ha2, r2, List.append_assoc]
        · intro k hk
          show nhas (ensureFolderLink repoId nodeId fn pr) k = true
          rw [hlink]
          show nhas pr.snd k = true
          refine r3 k ?_
          show (List.lookup k (aset g.nodes nodeId fn)).isSome = true
          exact lookup_isSome_aset g.nodes k nodeId fn hk
        · show ∀ e ∈ (ensureFolderLink repoId nodeId fn pr).edges, e.repoId = repoId
          rw [hlink]
          exact ha3
        · show ∀ e ∈ (ensureFolderLink repoId nodeId fn pr).edges, goodContains repoId e
          rw [hlink]
          exact ha4
        · show NoDupContains (ensureFolderLink repoId nodeId fn pr).edges
          rw [hlink]
          exact ha5
        · show ((ensureFolderLink repoId nodeId fn pr).nodes.map Prod.fst).Nodup
          rw [hlink]
          exact r7
        · intro p hp
          have hp2 : p ∈ pr.snd.nodes := by
            have hp3 : p ∈ (ensureFolderLink repoId nodeId fn pr).nodes := hp
            rw [hlink] at hp3
            exact hp3
          rcases r8 p hp2 with hp4 | hp4
          · rcases mem_aset (show p ∈ aset g.nodes nodeId fn from hp4) with hp5 | hp5
            · right
              show RootedAt repoId (ensureFolderLink repoId nodeId fn pr).edges p.1
              rw [hlink]
              show RootedAt repoId
                ((addUniqueEdge pr.snd.edges pr.fst nodeId "CONTAINS" repoId).fst) p.1
              rw [hp5]
              exact hRA
            · exact Or.inl hp5
          · right
            show RootedAt repoId (ensureFolderLink repoId nodeId fn pr).edges p.1
            rw [hlink]
            show RootedAt repoId
              ((addUniqueEdge pr.snd.edges pr.fst nodeId "CONTAINS" repoId).fst) p.1
            rw [ha2]
            exact RootedAt_append hp4
        · show RootedAt repoId (ensureFolderLink repoId nodeId fn pr).edges
            (generateNodeId repoId (folderD (s :: ss)))
          rw [hlink, hfD, ← hnodeId]
          exact hRA
        · intro habs i h1 h2
          have habs1 : ∀ k, 1 ≤ k → k ≤ (s :: ss).dropLast.length →
              nhas g1 (generateNodeId repoId
                ("folder:" ++ renderSegs ((s :: ss).dropLast.take k))) = false := by
            intro k hk1 hk2
            rw [show (s :: ss).dropLast.length = ss.length from by simp] at hk2
            rw [take_dropLast_eq (s :: ss) k (by simp; omega)]
            have hne2 : generateNodeId repoId ("folder:" ++ renderSegs ((s :: ss).take k))
                ≠ nodeId := by
              rw [hnodeId]
              exact folder_gen_ne (renderSegs_take_ne (s :: ss) k hk1 (by simp; omega) hsegH)
            show (List.lookup (generateNodeId repoId
                ("folder:" ++ renderSegs ((s :: ss).take k)))
              (aset g.nodes nodeId fn)).isSome = false
            rw [lookup_aset_ne g.nodes fn hne2]
            exact habs k hk1 (by simp; omega)
          by_cases hi : i ≤ ss.length
          · have hr10 := r10 habs1 i h1 (by simp; omega)
            rw [take_dropLast_eq (s :: ss) i (by simp; omega),
                take_dropLast_eq (s :: ss) (i - 1) (by simp; omega)] at hr10
            obtain ⟨hr10a, e, he, he1, he2, he3⟩ := hr10
            constructor
            · show nhas (ensureFolderLink repoId nodeId fn pr)
                (generateNodeId repoId ("folder:" ++ renderSegs ((s :: ss).take i))) = true
              rw [hlink]
              exact hr10a
            · refine ⟨e, ?_, he1, he2, he3⟩
              show e ∈ (ensureFolderLink repoId nodeId fn pr).edges
              rw [hlink]
              show e ∈ (addUniqueEdge pr.snd.edges pr.fst nodeId "CONTAINS" repoId).fst
              rw [ha2]
              exact List.mem_append_left _ he
          · have hieq : i = (s :: ss).length := by
              simp only [List.length_cons] at h2 ⊢
              omega
            have htk : (s :: ss).take i = s :: ss := by
              rw [hieq, List.take_length]
            have htk1 : (s :: ss).take (i - 1) = (s :: ss).dropLast := by
              rw [List.dropLast_eq_take]
              congr 1
              rw [hieq]
            rw [htk, htk1]
            constructor
            · show nhas (ensureFolderLink repoId nodeId fn pr)
                (generateNodeId repoId ("folder:" ++ renderSegs (s :: ss))) = true
              rw [hlink, ← hnodeId]
              exact hnhas2
            · obtain ⟨e, he, hesrc, hetgt, hety⟩ := ha6
              refine ⟨e, ?_, ?_, ?_, hety⟩
              · show e ∈ (ensureFolderLink repoId nodeId fn pr).edges
                rw [hlink]
                exact he
              · rw [hesrc, r1]
              · rw [hetgt, hnodeId]

/-- Builder for the definition half of `TagOk`. -/
theorem tagOk_def {t : Tag} (hk : t.kind = "def") (hn : ':' ∉ t.name.data)
    (ht : t.type ∈ defTypes) : TagOk t :=
  ⟨fun _ => ⟨hn, ht⟩, fun hr => absurd (hk.symm.trans hr) (by decide)⟩

/-- Builder for the reference half of `TagOk`. -/
theorem tagOk_ref {t : Tag} (hk : t.kind = "ref") (hn : ':' ∉ t.name.data)
    (ht : t.type ∈ refTypes) : TagOk t :=
  ⟨fun hd => absurd (hk.symm.trans hd) (by decide), fun _ => ⟨hn, ht⟩⟩

/-- Tag hygiene composes along traversal steps. -/
theorem tagStepOk_trans {s1 s2 s3 : PState} (h1 : TagStepOk s1 s2) (h2 : TagStepOk s2 s3) :
    TagStepOk s1 s3 := by
  intro hcc
  obtain ⟨c1, t1⟩ := h1 hcc
  obtain ⟨c2, t2⟩ := h2 c1
  exact ⟨c2, fun t ht => (t2 t ht).elim (fun h => t1 t h) Or.inr⟩

/-- The exit visitor is tag-hygienic (it only clears the scope). -/
theorem exit_tagStepOk (n : JsNode) (s : PState) : TagStepOk s (exitNode n s) := by
  intro hcc
  cases n <;>
    first
      | exact ⟨fun c h => Option.noConfusion h, fun t ht => Or.inl ht⟩
      | exact ⟨hcc, fun t ht => Or.inl ht⟩

/-- The object name read from a hygienic member callee is colon-free. -/
theorem getObjectNameOf_no_colon {obj : MemPart} {prop : PropPart}
    (hcc : cleanCallee (Callee.cmember obj prop) = true) :
    ':' ∉ (getObjectNameOf obj).data := by
  simp only [cleanCallee, Bool.and_eq_true] at hcc
  cases obj with
  | mid o => exact cleanName_no_colon hcc.1
  | mmember oi =>
    cases oi with
    | some i => exact cleanName_no_colon hcc.1
    | none => decide
  | mother => decide

/-- The enter visitor is tag-hygienic over hygienic nodes. -/
theorem enter_tagStepOk (rp : String) (n : JsNode) (s : PState) (hc : cleanNode n = true) :
    TagStepOk s (enterNode rp n s) := by
  intro hcc
  cases n with
  | importDecl src specs => exact ⟨hcc, fun t ht => Or.inl ht⟩
  | classDecl id body sl el =>
    cases id with
    | some nm =>
      have hcn : cleanName nm = true := by
        simp only [cleanNode, Bool.and_eq_true] at hc
        exact hc.1
      refine ⟨?_, ?_⟩
      · intro c h
        have h2 : some nm = some c := h
        injection h2 with h2
        rw [← h2]
        exact cleanName_no_colon hcn
      · intro t ht
        rcases List.mem_append.mp ht with h | h
        · exact Or.inl h
        · right
          rw [List.mem_singleton.mp h]
          exact tagOk_def rfl (cleanName_no_colon hcn) (by simp [defTypes])
    | none => exact ⟨hcc, fun t ht => Or.inl ht⟩
  | funcDecl id body sl el =>
    cases id with
    | some nm =>
      have hcn : cleanName nm = true := by
        simp only [cleanNode, Bool.and_eq_true] at hc
        exact hc.1
      by_cases hnm : nm = ""
      · have hs : enterNode rp (JsNode.funcDecl (some nm) body sl el) s = s := by
          simp [enterNode, hnm]
        rw [hs]
        exact ⟨hcc, fun t ht => Or.inl ht⟩
      · have hs : enterNode rp (JsNode.funcDecl (some nm) body sl el) s =
            { s with tags := s.tags ++
                [{ name := nm, type := "function", kind := "def",
                   filePath := rp, startLine := sl, endLine := el }] } := by
          simp [enterNode, hnm]
        rw [hs]
        refine ⟨hcc, ?_⟩
        intro t ht
        rcases List.mem_append.mp ht with h | h
        · exact Or.inl h
        · right
          rw [List.mem_singleton.mp h]
          exact tagOk_def rfl (cleanName_no_colon hcn) (by simp [defTypes])
    | none => exact ⟨hcc, fun t ht => Or.inl ht⟩
  | classMethod isStatic key body sl el =>
    have hopt : ':' ∉ (optStr s.currentClass).data := by
      cases hso : s.currentClass with
      | none => decide
      | some c => exact hcc c hso
    have hdot : ':' ∉ ".".data := by decide
    refine ⟨hcc, ?_⟩
    intro t ht
    cases key with
    | kid nm =>
      have hkey : ':' ∉ nm.data := cleanName_no_colon (by
        simp only [cleanNode, Bool.and_eq_true] at hc
        exact hc.1)
      rcases List.mem_append.mp ht with h | h
      · exact Or.inl h
      · right
        rw [List.mem_singleton.mp h]
        cases isStatic with
        | true =>
          refine tagOk_def rfl ?_ (by simp [defTypes])
          show ':' ∉ (optStr s.currentClass ++ "." ++ nm).data
          exact no_colon_append (no_colon_append hopt hdot) hkey
        | false =>
          refine tagOk_def rfl ?_ (by simp [defTypes])
          show ':' ∉ nm.data
          exact hkey
    | kstr v =>
      have hkey : ':' ∉ v.data := cleanName_no_colon (by
        simp only [cleanNode, Bool.and_eq_true] at hc
        exact hc.1)
      rcases List.mem_append.mp ht with h | h
      · exact Or.inl h
      · right
        rw [List.mem_singleton.mp h]
        cases isStatic with
        | true =>
          refine tagOk_def rfl ?_ (by simp [defTypes])
          show ':' ∉ (optStr s.currentClass ++ "." ++ v).data
          exact no_colon_append (no_colon_append hopt hdot) hkey
        | false =>
          refine tagOk_def rfl ?_ (by simp [defTypes])
          show ':' ∉ v.data
          exact hkey
    | kcomputed =>
      have hkey : ':' ∉ "[computed]".data := by decide
      rcases List.mem_append.mp ht with h | h
      · exact Or.inl h
      · right
        rw [List.mem_singleton.mp h]
        cases isStatic with
        | true =>
          refine tagOk_def rfl ?_ (by simp [defTypes])
          show ':' ∉ (optStr s.currentClass ++ "." ++ "[computed]").data
          exact no_colon_append (no_colon_append hopt hdot) hkey
        | false =>
          refine tagOk_def rfl ?_ (by simp [defTypes])
          show ':' ∉ "[computed]".data
          exact hkey
  | classPrivateMethod k body sl el =>
    have hk : ':' ∉ ("#" ++ k).data :=
      no_colon_append (by decide) (cleanName_no_colon (by
        simp only [cleanNode, Bool.and_eq_true] at hc
        exact hc.1))
    refine ⟨hcc, ?_⟩
    intro t ht
    rcases List.mem_append.mp ht with h | h
    · exact Or.inl h
    · right
      rw [List.mem_singleton.mp h]
      exact tagOk_def rfl hk (by simp [defTypes])
  | callExpr callee args sl el =>
    by_cases hig : shouldIgnoreFunctionCall (JsNode.callExpr callee args sl el) = true
    · have hs : enterNode rp (JsNode.callExpr callee args sl el) s = s := by
        simp [enterNode, hig]
      rw [hs]
      exact ⟨hcc, fun t ht => Or.inl ht⟩
    · have hig2 : shouldIgnoreFunctionCall (JsNode.callExpr callee args sl el) = false := by
        simpa using hig
      cases callee with
      | cid nm =>
        have hcn : ':' ∉ nm.data := cleanName_no_colon (by
          simp only [cleanNode, cleanCallee, Bool.and_eq_true] at hc
          exact hc.1)
        have hfn1 : ':' ∉ (getFunctionNameOf (JsNode.callExpr (Callee.cid nm) args sl el)).data := by
          simp only [getFunctionNameOf, hig2, Bool.false_eq_true, if_false]
          exact hcn
        refine ⟨?_, ?_⟩
        · intro c h
          refine hcc c ?_
          rw [← h]
          simp only [enterNode, hig2, Bool.false_eq_true, if_false]
          split
          · split
            · split
              · rfl
              · rfl
            · rfl
          · rfl
        · intro t ht
          simp only [enterNode, hig2, Bool.false_eq_true, if_false] at ht
          split at ht
          · split at ht
            · split at ht
              · rcases List.mem_append.mp ht with h | h
                · exact Or.inl h
                · right
                  rw [List.mem_singleton.mp h]
                  exact tagOk_ref rfl hfn1 (by simp [refTypes])
              · rcases List.mem_append.mp ht with h | h
                · rcases List.mem_append.mp h with h2 | h2
                  · exact Or.inl h2
                  · right
                    rw [List.mem_singleton.mp h2]
                    exact tagOk_ref rfl hfn1 (by simp [refTypes])
                · right
                  rw [List.mem_singleton.mp h]
                  exact tagOk_ref rfl hcn (by simp [refTypes])
            · rcases List.mem_append.mp ht with h | h
              · exact Or.inl h
              · right
                rw [List.mem_singleton.mp h]
                exact tagOk_ref rfl hfn1 (by simp [refTypes])
          · rcases List.mem_append.mp ht with h | h
            · exact Or.inl h
            · right
              rw [List.mem_singleton.mp h]
              exact tagOk_ref rfl hfn1 (by simp [refTypes])
      | cmember obj prop =>
        have hccn : cleanCallee (Callee.cmember obj prop) = true := by
          simp only [cleanNode, Bool.and_eq_true] at hc
          exact hc.1
        have ho : ':' ∉ (getObjectNameOf obj).data := getObjectNameOf_no_colon hccn
        have hdot : ':' ∉ ".".data := by decide
        have hfn2 : ':' ∉ (getFunctionNameOf (JsNode.callExpr (Callee.cmember obj prop)
            args sl el)).data := by
          simp only [getFunctionNameOf, hig2, Bool.false_eq_true, if_false]
          cases prop with
          | pid p =>
            simp only [cleanCallee, Bool.and_eq_true] at hccn
            exact cleanName_no_colon hccn.2
          | pother =>
            show ':' ∉ "".data
            decide
        refine ⟨?_, ?_⟩
        · intro c h
          refine hcc c ?_
          rw [← h]
          simp only [enterNode, hig2, Bool.false_eq_true, if_false]
          split
          · split
            · rfl
            · rfl
          · rfl
        · intro t ht
          simp only [enterNode, hig2, Bool.false_eq_true, if_false] at ht
          split at ht
          · split at ht
            · rcases List.mem_append.mp ht with h | h
              · exact Or.inl h
              · right
                rw [List.mem_singleton.mp h]
                exact tagOk_ref rfl hfn2 (by simp [refTypes])
            · rcases List.mem_append.mp ht with h | h
              · rcases List.mem_append.mp h with h2 | h2
                · exact Or.inl h2
                · right
                  rw [List.mem_singleton.mp h2]
                  exact tagOk_ref rfl hfn2 (by simp [refTypes])
              · right
                rw [List.mem_singleton.mp h]
                refine tagOk_ref rfl ?_ (by simp [refTypes])
                cases prop with
                | pid p =>
                  show ':' ∉ (getObjectNameOf obj ++ "." ++ p).data
                  refine no_colon_append (no_colon_append ho hdot) ?_
                  simp only [cleanCallee, Bool.and_eq_true] at hccn
                  exact cleanName_no_colon hccn.2
                | pother =>
                  show ':' ∉ (getObjectNameOf obj ++ "." ++ "[computed]").data
                  exact no_colon_append (no_colon_append ho hdot) (by decide)
          · rcases List.mem_append.mp ht with h | h
            · exact Or.inl h
            · right
              rw [List.mem_singleton.mp h]
              exact tagOk_ref rfl hfn2 (by simp [refTypes])
      | cother =>
        have hfn2 : ':' ∉ (getFunctionNameOf (JsNode.callExpr Callee.cother args sl el)).data := by
          simp only [getFunctionNameOf, hig2, Bool.false_eq_true, if_false]
          decide
        refine ⟨?_, ?_⟩
        · intro c h
          exact hcc c h
        · intro t ht
          simp only [enterNode, hig2, Bool.false_eq_true, if_false] at ht
          rcases List.mem_append.mp ht with h | h
          · exact Or.inl h
          · right
            rw [List.mem_singleton.mp h]
            exact tagOk_ref rfl hfn2 (by simp [refTypes])
  | newExpr nc args sl el =>
    cases nc with
    | nid nm =>
      by_cases hig : shouldIgnoreFunctionCall (JsNode.newExpr (NewCallee.nid nm) args sl el) = true
      · have hs : enterNode rp (JsNode.newExpr (NewCallee.nid nm) args sl el) s = s := by
          simp [enterNode, hig]
        rw [hs]
        exact ⟨hcc, fun t ht => Or.inl ht⟩
      · have hig2 : shouldIgnoreFunctionCall (JsNode.newExpr (NewCallee.nid nm) args sl el)
            = false := by simpa using hig
        have hcn : cleanName nm = true := by
          simp only [cleanNode, Bool.and_eq_true] at hc
          exact hc.1
        have hs : enterNode rp (JsNode.newExpr (NewCallee.nid nm) args sl el) s =
            { s with tags := s.tags ++
                [{ name := nm, type := "constructorCall", kind := "ref",
                   filePath := rp, startLine := sl, endLine := el }] } := by
          simp [enterNode, hig2]
        rw [hs]
        refine ⟨hcc, ?_⟩
        intro t ht
        rcases List.mem_append.mp ht with h | h
        · exact Or.inl h
        · right
          rw [List.mem_singleton.mp h]
          exact tagOk_ref rfl (cleanName_no_colon hcn) (by simp [refTypes])
    | nother => exact ⟨hcc, fun t ht => Or.inl ht⟩
  | throwStmt arg => exact ⟨hcc, fun t ht => Or.inl ht⟩
  | exportNamed nm kids => exact ⟨hcc, fun t ht => Or.inl ht⟩
  | ident nm => exact ⟨hcc, fun t ht => Or.inl ht⟩
  | other kids => exact ⟨hcc, fun t ht => Or.inl ht⟩

mutual
/-- A whole node visit is tag-hygienic over hygienic nodes. -/
theorem visit_tagOk (rp : String) (n : JsNode) (s : PState) (hc : cleanNode n = true) :
    TagStepOk s (visit rp n s) := by
  cases n with
  | importDecl src specs =>
    exact tagStepOk_trans (enter_tagStepOk rp _ s hc) (exit_tagStepOk _ _)
  | classDecl id body sl el =>
    exact tagStepOk_trans (enter_tagStepOk rp _ s hc)
      (tagStepOk_trans (visitList_tagOk rp body _ (clean_classDecl_body hc)) (exit_tagStepOk _ _))
  | funcDecl id body sl el =>
    exact tagStepOk_trans (enter_tagStepOk rp _ s hc)
      (tagStepOk_trans (visitList_tagOk rp body _ (clean_funcDecl_body hc)) (exit_tagStepOk _ _))
  | classMethod st k body sl el =>
    exact tagStepOk_trans (enter_tagStepOk rp _ s hc)
      (tagStepOk_trans (visitList_tagOk rp body _ (clean_classMethod_body hc)) (exit_tagStepOk _ _))
  | classPrivateMethod k body sl el =>
    exact tagStepOk_trans (enter_tagStepOk rp _ s hc)
      (tagStepOk_trans (visitList_tagOk rp body _ (clean_classPrivateMethod_body hc))
        (exit_tagStepOk _ _))
  | callExpr c args sl el =>
    exact tagStepOk_trans (enter_tagStepOk rp _ s hc)
      (tagStepOk_trans (visitList_tagOk rp args _ (clean_callExpr_args hc)) (exit_tagStepOk _ _))
  | newExpr c args sl el =>
    exact tagStepOk_trans (enter_tagStepOk rp _ s hc)
      (tagStepOk_trans (visitList_tagOk rp args _ (clean_newExpr_args hc)) (exit_tagStepOk _ _))
  | throwStmt arg =>
    exact tagStepOk_trans (enter_tagStepOk rp _ s hc)
      (tagStepOk_trans (visit_tagOk rp arg _ (clean_throw_arg hc)) (exit_tagStepOk _ _))
  | exportNamed nm kids =>
    exact tagStepOk_trans (enter_tagStepOk rp _ s hc)
      (tagStepOk_trans (visitList_tagOk rp kids _ (clean_export_kids hc)) (exit_tagStepOk _ _))
  | ident nm =>
    exact tagStepOk_trans (enter_tagStepOk rp _ s hc) (exit_tagStepOk _ _)
  | other kids =>
    exact tagStepOk_trans (enter_tagStepOk rp _ s hc)
      (tagStepOk_trans (visitList_tagOk rp kids _ (clean_other_kids hc)) (exit_tagStepOk _ _))

/-- A node-list traversal is tag-hygienic over hygienic node lists. -/
theorem visitList_tagOk (rp : String) (ns : JsNodes) (s : PState) (hc : cleanNodes ns = true) :
    TagStepOk s (visitList rp ns s) := by
  cases ns with
  | nil => exact fun hcc => ⟨hcc, fun t ht => Or.inl ht⟩
  | cons n rest =>
    exact tagStepOk_trans (visit_tagOk rp n s (clean_cons_head hc))
      (visitList_tagOk rp rest _ (clean_cons_tail hc))
end

/-- Every tag `parseFile` delivers over hygienic content is well-formed
(colon-free name, type in the definition or reference type lists),
whatever the process-wide module state. -/
theorem parseFileM_tagOk (segs : List String) (c : FileContent) (ms : ModuleState)
    (hc : cleanContent c = true) :
    ∀ t ∈ tagsOf (parseFileM segs c ms), TagOk t := by
  unfold parseFileM
  by_cases hx : toLowerS (extnameOf (lastSeg segs)) ∈ parseExts
  · cases hp : c.parsed with
    | none => simp [hx, hp, tagsOf]
    | some prog =>
      have hcp : cleanNodes prog = true := by
        have h2 := hc
        simp only [cleanContent, hp] at h2
        exact h2
      have h := visitList_tagOk (renderRel segs) prog
        { tags := [], currentClass := none, ms := ms } hcp
        (by intro cc h2; exact Option.noConfusion h2)
      intro t ht
      have ht2 : t ∈ (visitList (renderRel segs) prog
          { tags := [], currentClass := none, ms := ms }).tags := by
        simpa [hx, hp, tagsOf] using ht
      rcases h.2 t ht2 with h2 | h2
      · exact absurd h2 (List.not_mem_nil t)
      · exact h2
  · simp [hx, tagsOf]

/-- The build-state invariant only depends on the graph, definitions and
references components. -/
theorem StInv_congr {repoId : String} {s1 s2 : BuildState} (h : StInv repoId s1)
    (hg : s2.graph = s1.graph) (hd : s2.definitions = s1.definitions)
    (hr : s2.references = s1.references) : StInv repoId s2 := by
  obtain ⟨⟨h1, h2, h3, h4, h5⟩, h6, h7⟩ := h
  refine ⟨⟨?_, ?_, ?_, ?_, ?_⟩, ?_, ?_⟩
  · rw [hg]; exact h1
  · rw [hg]; exact h2
  · rw [hg]; exact h3
  · rw [hg]; exact h4
  · rw [hg]; exact h5
  · rw [hd]; exact h6
  · rw [hr]; exact h7

/-- `ensureDirNode` preserves the build-state invariant, only appends
edges, keeps old nodes present, and leaves the directory node anchored. -/
theorem ensureDirNode_spec (repoId repoName : String) (relSegs : List String) (parentD : String)
    (st : BuildState)
    (hinv : StInv repoId st)
    (hpar : RootedAt repoId st.graph.edges (generateNodeId repoId parentD))
    (hseg : ∀ x ∈ relSegs, x ≠ ".")
    (hlt : relSegs ≠ [] → rankLt parentD ("folder:" ++ renderSegs relSegs)) :
    StInv repoId (ensureDirNode repoId repoName relSegs parentD st) ∧
    (∃ ext, (ensureDirNode repoId repoName relSegs parentD st).graph.edges
      = st.graph.edges ++ ext) ∧
    (∀ k, nhas st.graph k = true →
      nhas (ensureDirNode repoId repoName relSegs parentD st).graph k = true) ∧
    RootedAt repoId (ensureDirNode repoId repoName relSegs parentD st).graph.edges
      (generateNodeId repoId ("folder:" ++ renderRel relSegs)) := by
  obtain ⟨⟨hrepo, hrank, hnd, hkeys, hreach⟩, hdefs, hrefs⟩ := hinv
  by_cases hex : nhas st.graph (generateNodeId repoId ("folder:" ++ renderRel relSegs)) = true
  · have heq : ensureDirNode repoId repoName relSegs parentD st = st := by
      simp [ensureDirNode, hex]
    rw [heq]
    obtain ⟨v, hv⟩ := nhas_mem hex
    exact ⟨⟨⟨hrepo, hrank, hnd, hkeys, hreach⟩, hdefs, hrefs⟩,
      ⟨[], (List.append_nil _).symm⟩, fun k hk => hk, hreach _ hv⟩
  · cases relSegs with
    | nil =>
      have heq : ensureDirNode repoId repoName [] parentD st =
          { st with graph :=
            { st.graph with
              nodes := aset st.graph.nodes
                (generateNodeId repoId ("folder:" ++ renderRel []))
                { nodeId := generateNodeId repoId ("folder:" ++ renderRel []),
                  repoId := repoId,
                  name := if renderRel [] = "." then repoName else lastSeg ([] : List String),
                  type := if renderRel [] = "." then "REPOSITORY" else "FOLDER",
                  filePath := renderRel [], startLine := 0, endLine := 0,
                  isDirectory := some true } } } := by
        simp only [ensureDirNode]
        rw [if_neg hex, if_neg (show ¬(renderRel ([] : List String) ≠ "." ∧
            generateNodeId repoId parentD ≠ generateNodeId repoId ("folder:" ++ renderRel []))
          from fun h => h.1 rfl)]
      rw [heq]
      have hwalk : generateNodeId repoId ("folder:" ++ renderRel [])
          = generateNodeId repoId walkRootD := rfl
      refine ⟨⟨⟨hrepo, hrank, hnd, ?_, ?_⟩, hdefs, hrefs⟩,
        ⟨[], (List.append_nil _).symm⟩, ?_, Or.inr (Or.inl hwalk)⟩
      · exact keysNodup_aset st.graph.nodes _ _ hkeys
      · intro p hp
        rcases mem_aset (show p ∈ aset st.graph.nodes _ _ from hp) with hp1 | hp1
        · right
          left
          rw [hp1]
          exact hwalk
        · exact hreach p hp1
      · intro k hk
        exact lookup_isSome_aset st.graph.nodes k _ _ hk
    | cons s0 ss0 =>
      have hrel : renderRel (s0 :: ss0) = renderSegs (s0 :: ss0) := by
        rw [renderRel, if_neg (by simp)]
      have hdot : renderSegs (s0 :: ss0) ≠ "." :=
        renderSegs_ne_dot _ (by simp) hseg
      have hlt2 : rankLt parentD ("folder:" ++ renderSegs (s0 :: ss0)) := hlt (by simp)
      have hidne : generateNodeId repoId parentD
          ≠ generateNodeId repoId ("folder:" ++ renderRel (s0 :: ss0)) := by
        rw [hrel]
        intro he
        have h2 := gen_inj he
        rw [h2] at hlt2
        exact rankLt_irrefl _ hlt2
      have hcond : renderRel (s0 :: ss0) ≠ "." ∧ generateNodeId repoId parentD
          ≠ generateNodeId repoId ("folder:" ++ renderRel (s0 :: ss0)) := by
        refine ⟨?_, hidne⟩
        rw [hrel]
        exact hdot
      have hgood : rankLt parentD ("folder:" ++ renderRel (s0 :: ss0)) := by
        rw [hrel]
        exact hlt2
      set dn : GraphNodeData :=
        { nodeId := generateNodeId repoId ("folder:" ++ renderRel (s0 :: ss0)),
          repoId := repoId,
          name := if renderRel (s0 :: ss0) = "." then repoName else lastSeg (s0 :: ss0),
          type := if renderRel (s0 :: ss0) = "." then "REPOSITORY" else "FOLDER",
          filePath := renderRel (s0 :: ss0), startLine := 0, endLine := 0,
          isDirectory := some true } with hdn
      by_cases hedge : edgeExists st.graph.edges (generateNodeId repoId parentD)
          (generateNodeId repoId ("folder:" ++ renderRel (s0 :: ss0))) "CONTAINS" repoId = true
      · have heq : ensureDirNode repoId repoName (s0 :: ss0) parentD st =
            { st with graph :=
              { nodes := aset st.graph.nodes
                  (generateNodeId repoId ("folder:" ++ renderRel (s0 :: ss0))) dn,
                edges := st.graph.edges } } := by
          rw [hdn]
          simp only [ensureDirNode]
          rw [if_neg hex, if_pos hcond, if_pos hedge]
        rw [heq]
        obtain ⟨e, he, he1, he2, he3⟩ := exists_of_edgeExists hedge
        have hRA : RootedAt repoId st.graph.edges
            (generateNodeId repoId ("folder:" ++ renderRel (s0 :: ss0))) :=
          RootedAt_step hpar e he he1 he2 he3
        refine ⟨⟨⟨hrepo, hrank, hnd, ?_, ?_⟩, hdefs, hrefs⟩,
          ⟨[], (List.append_nil _).symm⟩, ?_, hRA⟩
        · exact keysNodup_aset st.graph.nodes _ _ hkeys
        · intro p hp
          rcases mem_aset (show p ∈ aset st.graph.nodes _ _ from hp) with hp1 | hp1
          · rw [hp1]
            exact hRA
          · exact hreach p hp1
        · intro k hk
          exact lookup_isSome_aset st.graph.nodes k _ _ hk
      · have heq : ensureDirNode repoId repoName (s0 :: ss0) parentD st =
            { st with graph :=
              { nodes := aset st.graph.nodes
                  (generateNodeId repoId ("folder:" ++ renderRel (s0 :: ss0))) dn,
                edges := st.graph.edges ++
                  [{ sourceId := generateNodeId repoId parentD,
                     targetId := generateNodeId repoId ("folder:" ++ renderRel (s0 :: ss0)),
                     type := "CONTAINS", repoId := repoId }] } } := by
          rw [hdn]
          simp only [ensureDirNode]
          rw [if_neg hex, if_pos hcond, if_neg hedge]
        rw [heq]
        have hedge2 : edgeExists st.graph.edges (generateNodeId repoId parentD)
            (generateNodeId repoId ("folder:" ++ renderRel (s0 :: ss0)))
            "CONTAINS" repoId = false := by simpa using hedge
        have hRA : RootedAt repoId (st.graph.edges ++
            [{ sourceId := generateNodeId repoId parentD,
               targetId := generateNodeId repoId ("folder:" ++ renderRel (s0 :: ss0)),
               type := "CONTAINS", repoId := repoId }])
            (generateNodeId repoId ("folder:" ++ renderRel (s0 :: ss0))) := by
          refine RootedAt_step (RootedAt_append hpar) _
            (List.mem_append_right _ (List.mem_singleton_self _)) rfl rfl rfl
        refine ⟨⟨⟨?_, ?_, ?_, ?_, ?_⟩, hdefs, hrefs⟩, ⟨_, rfl⟩, ?_, hRA⟩
        · exact repoOk_append hrepo rfl
        · exact good_append hrank (fun _ => ⟨parentD, _, rfl, rfl, hgood⟩)
        · exact noDup_append_guard hnd hedge2 hrepo
        · exact keysNodup_aset st.graph.nodes _ _ hkeys
        · intro p hp
          rcases mem_aset (show p ∈ aset st.graph.nodes _ _ from hp) with hp1 | hp1
          · rw [hp1]
            exact hRA
          · exact RootedAt_append (hreach p hp1)
        · intro k hk
          exact lookup_isSome_aset st.graph.nodes k _ _ hk

/-- The file-node block of `processFile` preserves the build-state
invariant, only appends edges, keeps old nodes present, and leaves the
file node anchored. -/
theorem ensureFileNodeW_spec (repoId : String) (fileSegs : List String) (parentD : String)
    (st : BuildState)
    (hinv : StInv repoId st)
    (hpar : RootedAt repoId st.graph.edges (generateNodeId repoId parentD))
    (hlt : rankLt parentD ("file:" ++ renderSegs fileSegs)) :
    StInv repoId (ensureFileNodeW repoId fileSegs parentD st) ∧
    (∃ ext, (ensureFileNodeW repoId fileSegs parentD st).graph.edges
      = st.graph.edges ++ ext) ∧
    (∀ k, nhas st.graph k = true →
      nhas (ensureFileNodeW repoId fileSegs parentD st).graph k = true) ∧
    RootedAt repoId (ensureFileNodeW repoId fileSegs parentD st).graph.edges
      (generateNodeId repoId ("file:" ++ renderSegs fileSegs)) := by
  obtain ⟨⟨hrepo, hrank, hnd, hkeys, hreach⟩, hdefs, hrefs⟩ := hinv
  by_cases hex : nhas st.graph (generateNodeId repoId ("file:" ++ renderSegs fileSegs)) = true
  · have heq : ensureFileNodeW repoId fileSegs parentD st = st := by
      simp [ensureFileNodeW, hex]
    rw [heq]
    obtain ⟨v, hv⟩ := nhas_mem hex
    exact ⟨⟨⟨hrepo, hrank, hnd, hkeys, hreach⟩, hdefs, hrefs⟩,
      ⟨[], (List.append_nil _).symm⟩, fun k hk => hk, hreach _ hv⟩
  · have heq : ensureFileNodeW repoId fileSegs parentD st =
        { st with graph :=
          { nodes := aset st.graph.nodes
              (generateNodeId repoId ("file:" ++ renderSegs fileSegs))
              { nodeId := generateNodeId repoId ("file:" ++ renderSegs fileSegs),
                repoId := repoId, name := lastSeg fileSegs, type := "FILE",
                filePath := renderSegs fileSegs, startLine := 0, endLine := 0,
                isDirectory := some false },
            edges := (addUniqueEdge st.graph.edges (generateNodeId repoId parentD)
              (generateNodeId repoId ("file:" ++ renderSegs fileSegs))
              "CONTAINS" repoId).fst } } := by
      simp only [ensureFileNodeW]
      rw [if_neg hex]
    rw [heq]
    obtain ⟨⟨ext2, ha2⟩, ha3, ha4, ha5, ha6⟩ :=
      addUniqueEdge_contains_ok hrepo hrank hnd rfl rfl hlt
    have hRA : RootedAt repoId
        ((addUniqueEdge st.graph.edges (generateNodeId repoId parentD)
          (generateNodeId repoId ("file:" ++ renderSegs fileSegs)) "CONTAINS" repoId).fst)
        (generateNodeId repoId ("file:" ++ renderSegs fileSegs)) := by
      obtain ⟨e, he, he1, he2, he3⟩ := ha6
      refine RootedAt_step ?_ e he he1 he2 he3
      rw [ha2]
      exact RootedAt_append hpar
    refine ⟨⟨⟨ha3, ha4, ha5, ?_, ?_⟩, hdefs, hrefs⟩, ⟨ext2, ha2⟩, ?_, hRA⟩
    · exact keysNodup_aset st.graph.nodes _ _ hkeys
    · intro p hp
      rcases mem_aset (show p ∈ aset st.graph.nodes _ _ from hp) with hp1 | hp1
      · rw [hp1]
        exact hRA
      · rw [ha2]
        exact RootedAt_append (hreach p hp1)
    · intro k hk
      exact lookup_isSome_aset st.graph.nodes k _ _ hk

/-- `applyTags` over well-formed tags preserves the build-state invariant,
only appends edges, and keeps old nodes present. -/
theorem applyTags_inv (repoId repoPath : String) (fileSegs : List String) (fileNodeId : String)
    (hrp : strStarts "/" repoPath = true)
    (hfid : fileNodeId = generateNodeId repoId ("file:" ++ renderSegs fileSegs)) :
    ∀ (tags : List Tag) (st : BuildState),
      (∀ t ∈ tags, TagOk t) →
      StInv repoId st →
      RootedAt repoId st.graph.edges fileNodeId →
      StInv repoId (applyTags repoId repoPath fileSegs fileNodeId tags st) ∧
      (∃ ext, (applyTags repoId repoPath fileSegs fileNodeId tags st).graph.edges
        = st.graph.edges ++ ext) ∧
      (∀ k, nhas st.graph k = true →
        nhas (applyTags repoId repoPath fileSegs fileNodeId tags st).graph k = true) := by
  intro tags
  induction tags with
  | nil =>
    intro st _ hinv _
    exact ⟨hinv, ⟨[], (List.append_nil _).symm⟩, fun k hk => hk⟩
  | cons tg rest ih =>
    intro st htags hinv hroot
    obtain ⟨⟨hrepo, hrank, hnd, hkeys, hreach⟩, hdefs, hrefs⟩ := hinv
    have htg := htags tg (List.mem_cons_self _ _)
    have htr : ∀ t ∈ rest, TagOk t := fun t h => htags t (List.mem_cons_of_mem _ h)
    by_cases hkd : (tg.kind == "def") = true
    · have hkind : tg.kind = "def" := beq_iff_eq.mp hkd
      have hd2 : strStarts "/" (repoPath ++ "/" ++ renderSegs fileSegs ++ ":" ++ tg.name
          ++ ":" ++ natStr tg.startLine) = true :=
        strStarts_mono_append _ (strStarts_mono_append _ (strStarts_mono_append _
          (strStarts_mono_append _ (strStarts_mono_append _ (strStarts_mono_append _ hrp)))))
      have hltd : rankLt ("file:" ++ renderSegs fileSegs)
          (repoPath ++ "/" ++ renderSegs fileSegs ++ ":" ++ tg.name
            ++ ":" ++ natStr tg.startLine) :=
        rankLt_file_def _ _ hd2
      have hdko : DefKeyOk (tg.name ++ ":" ++ tg.type) :=
        ⟨tg.name, tg.type, rfl, (htg.1 hkind).1, (htg.1 hkind).2⟩
      by_cases hedge : edgeExists st.graph.edges fileNodeId
          (generateNodeId repoId (repoPath ++ "/" ++ renderSegs fileSegs ++ ":" ++ tg.name
            ++ ":" ++ natStr tg.startLine)) "CONTAINS" repoId = true
      · have heq : applyTags repoId repoPath fileSegs fileNodeId (tg :: rest) st =
            applyTags repoId repoPath fileSegs fileNodeId rest
              { st with
                graph :=
                  { nodes := aset st.graph.nodes
                      (generateNodeId repoId (repoPath ++ "/" ++ renderSegs fileSegs ++ ":"
                        ++ tg.name ++ ":" ++ natStr tg.startLine))
                      { nodeId := generateNodeId repoId (repoPath ++ "/" ++ renderSegs fileSegs
                          ++ ":" ++ tg.name ++ ":" ++ natStr tg.startLine),
                        repoId := repoId, name := tg.name, type := tg.type,
                        filePath := renderSegs fileSegs, startLine := tg.startLine,
                        endLine := tg.endLine, text := tg.text },
                    edges := st.graph.edges },
                definitions := aset st.definitions (tg.name ++ ":" ++ tg.type) tg } := by
          simp only [applyTags]
          rw [if_pos hkd, if_pos hedge]
        rw [heq]
        have hRA : RootedAt repoId st.graph.edges
            (generateNodeId repoId (repoPath ++ "/" ++ renderSegs fileSegs ++ ":" ++ tg.name
              ++ ":" ++ natStr tg.startLine)) := by
          obtain ⟨e, he, he1, he2, he3⟩ := exists_of_edgeExists hedge
          exact RootedAt_step hroot e he he1 he2 he3
        have hinv2 : StInv repoId ({ st with
            graph :=
              { nodes := aset st.graph.nodes
                  (generateNodeId repoId (repoPath ++ "/" ++ renderSegs fileSegs ++ ":"
                    ++ tg.name ++ ":" ++ natStr tg.startLine))
                  { nodeId := generateNodeId repoId (repoPath ++ "/" ++ renderSegs fileSegs
                      ++ ":" ++ tg.name ++ ":" ++ natStr tg.startLine),
                    repoId := repoId, name := tg.name, type := tg.type,
                    filePath := renderSegs fileSegs, startLine := tg.startLine,
                    endLine := tg.endLine, text := tg.text },
                edges := st.graph.edges },
            definitions := aset st.definitions (tg.name ++ ":" ++ tg.type) tg } : BuildState) := by
          refine ⟨⟨hrepo, hrank, hnd, ?_, ?_⟩, ?_, hrefs⟩
          · exact keysNodup_aset st.graph.nodes _ _ hkeys
          · intro p hp
            rcases mem_aset (show p ∈ aset st.graph.nodes _ _ from hp) with hp1 | hp1
            · rw [hp1]
              exact hRA
            · exact hreach p hp1
          · intro kv hkv
            rcases mem_aset hkv with hkv1 | hkv1
            · rw [hkv1]
              exact hdko
            · exact hdefs kv hkv1
        obtain ⟨ha, ⟨ext2, hb⟩, hcm⟩ := ih _ htr hinv2 hroot
        refine ⟨ha, ⟨ext2, hb⟩, ?_⟩
        intro k hk
        exact hcm k (lookup_isSome_aset st.graph.nodes k _ _ hk)
      · have hedge2 : edgeExists st.graph.edges fileNodeId
            (generateNodeId repoId (repoPath ++ "/" ++ renderSegs fileSegs ++ ":" ++ tg.name
              ++ ":" ++ natStr tg.startLine)) "CONTAINS" repoId = false := by
          simpa using hedge
        have heq : applyTags repoId repoPath fileSegs fileNodeId (tg :: rest) st =
            applyTags repoId repoPath fileSegs fileNodeId rest
              { st with
                graph :=
                  { nodes := aset st.graph.nodes
                      (generateNodeId repoId (repoPath ++ "/" ++ renderSegs fileSegs ++ ":"
                        ++ tg.name ++ ":" ++ natStr tg.startLine))
                      { nodeId := generateNodeId repoId (repoPath ++ "/" ++ renderSegs fileSegs
                          ++ ":" ++ tg.name ++ ":" ++ natStr tg.startLine),
                        repoId := repoId, name := tg.name, type := tg.type,
                        filePath := renderSegs fileSegs, startLine := tg.startLine,
                        endLine := tg.endLine, text := tg.text },
                    edges := st.graph.edges ++
                      [{ sourceId := fileNodeId,
                         targetId := generateNodeId repoId (repoPath ++ "/"
                           ++ renderSegs fileSegs ++ ":" ++ tg.name ++ ":"
                           ++ natStr tg.startLine),
                         type := "CONTAINS", repoId := repoId }] },
                definitions := aset st.definitions (tg.name ++ ":" ++ tg.type) tg } := by
          simp only [applyTags]
          rw [if_pos hkd, if_neg hedge]
        rw [heq]
        have hRA : RootedAt repoId (st.graph.edges ++
            [{ sourceId := fileNodeId,
               targetId := generateNodeId repoId (repoPath ++ "/" ++ renderSegs fileSegs
                 ++ ":" ++ tg.name ++ ":" ++ natStr tg.startLine),
               type := "CONTAINS", repoId := repoId }])
            (generateNodeId repoId (repoPath ++ "/" ++ renderSegs fileSegs ++ ":" ++ tg.name
              ++ ":" ++ natStr tg.startLine)) :=
          RootedAt_step (RootedAt_append hroot) _
            (List.mem_append_right _ (List.mem_singleton_self _)) rfl rfl rfl
        have hinv2 : StInv repoId ({ st with
            graph :=
              { nodes := aset st.graph.nodes
                  (generateNodeId repoId (repoPath ++ "/" ++ renderSegs fileSegs ++ ":"
                    ++ tg.name ++ ":" ++ natStr tg.startLine))
                  { nodeId := generateNodeId repoId (repoPath ++ "/" ++ renderSegs fileSegs
                      ++ ":" ++ tg.name ++ ":" ++ natStr tg.startLine),
                    repoId := repoId, name := tg.name, type := tg.type,
                    filePath := renderSegs fileSegs, startLine := tg.startLine,
                    endLine := tg.endLine, text := tg.text },
                edges := st.graph.edges ++
                  [{ sourceId := fileNodeId,
                     targetId := generateNodeId repoId (repoPath ++ "/" ++ renderSegs fileSegs
                       ++ ":" ++ tg.name ++ ":" ++ natStr tg.startLine),
                     type := "CONTAINS", repoId := repoId }] },
            definitions := aset st.definitions (tg.name ++ ":" ++ tg.type) tg } : BuildState) := by
          refine ⟨⟨?_, ?_, ?_, ?_, ?_⟩, ?_, hrefs⟩
          · refine repoOk_append hrepo rfl
          · refine good_append hrank (fun _ => ⟨"file:" ++ renderSegs fileSegs, _, hfid, rfl, hltd⟩)
          · exact noDup_append_guard hnd hedge2 hrepo
          · exact keysNodup_aset st.graph.nodes _ _ hkeys
          · intro p hp
            rcases mem_aset (show p ∈ aset st.graph.nodes _ _ from hp) with hp1 | hp1
            · rw [hp1]
              exact hRA
            · exact RootedAt_append (hreach p hp1)
          · intro kv hkv
            rcases mem_aset hkv with hkv1 | hkv1
            · rw [hkv1]
              exact hdko
            · exact hdefs kv hkv1
        obtain ⟨ha, ⟨ext2, hb⟩, hcm⟩ := ih _ htr hinv2 (RootedAt_append hroot)
        refine ⟨ha,
          ⟨[{ sourceId := fileNodeId,
              targetId := generateNodeId repoId (repoPath ++ "/" ++ renderSegs fileSegs ++ ":"
                ++ tg.name ++ ":" ++ natStr tg.startLine),
              type := "CONTAINS", repoId := repoId }] ++ ext2, ?_⟩, ?_⟩
        · rw [hb]
          exact List.append_assoc _ _ _
        · intro k hk
          exact hcm k (lookup_isSome_aset st.graph.nodes k _ _ hk)
    · by_cases hkr : (tg.kind == "ref") = true
      · have heq : applyTags repoId repoPath fileSegs fileNodeId (tg :: rest) st =
            applyTags repoId repoPath fileSegs fileNodeId rest
              { st with references := st.references ++ [tg] } := by
          simp only [applyTags]
          rw [if_neg hkd, if_pos hkr]
        rw [heq]
        have hkind : tg.kind = "ref" := beq_iff_eq.mp hkr
        have hinv2 : StInv repoId ({ st with references := st.references ++ [tg] } : BuildState) := by
          refine ⟨⟨hrepo, hrank, hnd, hkeys, hreach⟩, hdefs, ?_⟩
          intro r hr
          rcases List.mem_append.mp hr with h2 | h2
          · exact hrefs r h2
          · rw [List.mem_singleton.mp h2]
            exact htg.2 hkind
        exact ih _ htr hinv2 hroot
      · have heq : applyTags repoId repoPath fileSegs fileNodeId (tg :: rest) st =
            applyTags repoId repoPath fileSegs fileNodeId rest st := by
          simp only [applyTags]
          rw [if_neg hkd, if_neg hkr]
        rw [heq]
        exact ih _ htr ⟨⟨hrepo, hrank, hnd, hkeys, hreach⟩, hdefs, hrefs⟩ hroot

/-- `processFile` preserves the build-state invariant, only appends
edges, and keeps old nodes present. -/
theorem processFileW_inv (repoId repoPath : String) (fileSegs : List String) (parentD : String)
    (c : FileContent) (st st' : BuildState)
    (hrp : strStarts "/" repoPath = true)
    (hc : cleanContent c = true)
    (hinv : StInv repoId st)
    (hpar : RootedAt repoId st.graph.edges (generateNodeId repoId parentD))
    (hlt : rankLt parentD ("file:" ++ renderSegs fileSegs))
    (h : processFileW repoId repoPath fileSegs parentD c st = Except.ok st') :
    StInv repoId st' ∧
    (∃ ext, st'.graph.edges = st.graph.edges ++ ext) ∧
    (∀ k, nhas st.graph k = true → nhas st'.graph k = true) := by
  obtain ⟨he1, ⟨ext1, he2⟩, he3, he4⟩ :=
    ensureFileNodeW_spec repoId fileSegs parentD st hinv hpar hlt
  unfold processFileW at h
  cases hpr : parseFileM fileSegs c (ensureFileNodeW repoId fileSegs parentD st).ms with
  | mk pres ms2 =>
    rw [hpr] at h
    cases pres with
    | error e =>
      cases e with
      | parseFailure =>
        simp only at h
        cases h
        refine ⟨StInv_congr he1 rfl rfl rfl, ⟨ext1, he2⟩, he3⟩
      | neverSettles => cases h
    | ok tags =>
      simp only at h
      cases h
      have htags : ∀ t ∈ tags, TagOk t := by
        have h2 := parseFileM_tagOk fileSegs c (ensureFileNodeW repoId fileSegs parentD st).ms hc
        rw [hpr] at h2
        simpa [tagsOf] using h2
      have hinv2 : StInv repoId
          ({ ensureFileNodeW repoId fileSegs parentD st with ms := ms2 } : BuildState) :=
        StInv_congr he1 rfl rfl rfl
      obtain ⟨ha, ⟨ext2, hb⟩, hcm⟩ := applyTags_inv repoId repoPath fileSegs
        (generateNodeId repoId ("file:" ++ renderSegs fileSegs)) hrp rfl tags _ htags hinv2 he4
      refine ⟨ha, ⟨ext1 ++ ext2, ?_⟩, ?_⟩
      · rw [hb]
        show (ensureFileNodeW repoId fileSegs parentD st).graph.edges ++ ext2 = _
        rw [he2, List.append_assoc]
      · intro k hk
        exact hcm k (he3 k hk)

/-- The walk entry loop preserves the build-state invariant, only appends
edges, and keeps old nodes present. -/
theorem processEntriesW_inv (repoId repoPath repoName : String)
    (hrp : strStarts "/" repoPath = true) :
    ∀ (entries : FsEntries) (relSegs : List String) (st st' : BuildState),
      cleanFsEntries entries = true →
      (∀ x ∈ relSegs, x ≠ ".") →
      StInv repoId st →
      RootedAt repoId st.graph.edges (generateNodeId repoId ("folder:" ++ renderRel relSegs)) →
      processEntriesW repoId repoPath repoName relSegs entries st = Except.ok st' →
      StInv repoId st' ∧
      (∃ ext, st'.graph.edges = st.graph.edges ++ ext) ∧
      (∀ k, nhas st.graph k = true → nhas st'.graph k = true)
  | FsEntries.nil, relSegs, st, st', hc, hseg, hinv, hpar, h => by
    simp only [processEntriesW] at h
    cases h
    exact ⟨hinv, ⟨[], (List.append_nil _).symm⟩, fun k hk => hk⟩
  | FsEntries.cons name t rest, relSegs, st, st', hc, hseg, hinv, hpar, h => by
    cases t with
    | dir sub =>
      simp only [processEntriesW] at h
      by_cases hskip : (strStarts "." name || name == "node_modules") = true
      · rw [if_pos hskip] at h
        exact processEntriesW_inv repoId repoPath repoName hrp rest relSegs st st'
          (clean_fs_cons_rest hc) hseg hinv hpar h
      · rw [if_neg hskip] at h
        have hnm : name ≠ "." := by
          intro he
          refine hskip ?_
          rw [he]
          decide
        have hseg2 : ∀ x ∈ relSegs ++ [name], x ≠ "." := by
          intro x hx
          rcases List.mem_append.mp hx with h2 | h2
          · exact hseg x h2
          · rw [List.mem_singleton.mp h2]
            exact hnm
        have hltdir : relSegs ++ [name] ≠ [] → rankLt ("folder:" ++ renderRel relSegs)
            ("folder:" ++ renderSegs (relSegs ++ [name])) := by
          intro _
          have h2 := rankLt_parent_folder (relSegs ++ [name]) (by simp) hseg2
          rw [List.dropLast_concat] at h2
          exact h2
        obtain ⟨hd1, ⟨ext1, hd2⟩, hd3, hd4⟩ := ensureDirNode_spec repoId repoName
          (relSegs ++ [name]) ("folder:" ++ renderRel relSegs) st hinv hpar hseg2 hltdir
        cases hsub : processEntriesW repoId repoPath repoName (relSegs ++ [name]) sub
            (ensureDirNode repoId repoName (relSegs ++ [name])
              ("folder:" ++ renderRel relSegs) st) with
        | error e => rw [hsub] at h; cases h
        | ok st2 =>
          rw [hsub] at h
          obtain ⟨hs1, ⟨ext2, hs2⟩, hs3⟩ := processEntriesW_inv repoId repoPath repoName hrp
            sub (relSegs ++ [name]) _ st2
            (by simpa [cleanFs] using clean_fs_cons_tree hc) hseg2 hd1 hd4 hsub
          have hpar2 : RootedAt repoId st2.graph.edges
              (generateNodeId repoId ("folder:" ++ renderRel relSegs)) := by
            rw [hs2, hd2, List.append_assoc]
            exact RootedAt_append hpar
          obtain ⟨hr1, ⟨ext3, hr2⟩, hr3⟩ := processEntriesW_inv repoId repoPath repoName hrp
            rest relSegs st2 st' (clean_fs_cons_rest hc) hseg hs1 hpar2 h
          refine ⟨hr1, ⟨ext1 ++ ext2 ++ ext3, ?_⟩, ?_⟩
          · rw [hr2, hs2, hd2]
            simp [List.append_assoc]
          · intro k hk
            exact hr3 k (hs3 k (hd3 k hk))
    | file c =>
      simp only [processEntriesW] at h
      by_cases hext : walkExts.contains (toLowerS (extnameOf name)) = true
      · rw [if_pos hext] at h
        cases hf : processFileW repoId repoPath (relSegs ++ [name])
            ("folder:" ++ renderRel relSegs) c st with
        | error e => rw [hf] at h; cases h
        | ok st2 =>
          rw [hf] at h
          obtain ⟨hs1, ⟨ext1, hs2⟩, hs3⟩ := processFileW_inv repoId repoPath (relSegs ++ [name])
            ("folder:" ++ renderRel relSegs) c st st2 hrp
            (by simpa [cleanFs] using clean_fs_cons_tree hc) hinv hpar
            (rankLt_folder_file _ _) hf
          have hpar2 : RootedAt repoId st2.graph.edges
              (generateNodeId repoId ("folder:" ++ renderRel relSegs)) := by
            rw [hs2]
            exact RootedAt_append hpar
          obtain ⟨hr1, ⟨ext2, hr2⟩, hr3⟩ := processEntriesW_inv repoId repoPath repoName hrp
            rest relSegs st2 st' (clean_fs_cons_rest hc) hseg hs1 hpar2 h
          refine ⟨hr1, ⟨ext1 ++ ext2, ?_⟩, ?_⟩
          · rw [hr2, hs2, List.append_assoc]
          · intro k hk
            exact hr3 k (hs3 k hk)
      · rw [if_neg hext] at h
        exact processEntriesW_inv repoId repoPath repoName hrp rest relSegs st st'
          (clean_fs_cons_rest hc) hseg hinv hpar h

/-- The folder-chain/file-node block of a files-loop iteration preserves
the build-state invariant, only appends edges, keeps old nodes present,
and leaves the file node anchored. -/
theorem fileStepEnsure_spec (repoId : String) (f : List String) (st : BuildState)
    (hinv : StInv repoId st) (hseg : ∀ x ∈ f, x ≠ ".") :
    StInv repoId (fileStepEnsure repoId f st) ∧
    (∃ ext, (fileStepEnsure repoId f st).graph.edges = st.graph.edges ++ ext) ∧
    (∀ k, nhas st.graph k = true → nhas (fileStepEnsure repoId f st).graph k = true) ∧
    RootedAt repoId (fileStepEnsure repoId f st).graph.edges
      (generateNodeId repoId ("file:" ++ renderSegs f)) := by
  obtain ⟨⟨hrepo, hrank, hnd, hkeys, hreach⟩, hdefs, hrefs⟩ := hinv
  have hseg2 : ∀ x ∈ f.dropLast, x ≠ "." :=
    fun x hx => hseg x ((List.dropLast_sublist _).subset hx)
  obtain ⟨r1, ⟨ext1, r2⟩, r3, r4, r5, r6, r7, r8, r9, r10⟩ :=
    ensureFolderNodeF_spec repoId f.dropLast.length f.dropLast st.graph (le_refl _) hseg2
      hrepo hrank hnd hkeys (fun p hp => Or.inr (hreach p hp))
  have heq : fileStepEnsure repoId f st =
      { st with graph :=
        { nodes := aset (ensureFolderNodeF repoId f.dropLast.length f.dropLast st.graph).snd.nodes
            (generateNodeId repoId ("file:" ++ renderSegs f))
            { nodeId := generateNodeId repoId ("file:" ++ renderSegs f), repoId := repoId,
              name := lastSeg f, type := "FILE", filePath := renderSegs f,
              startLine := 0, endLine := 0, isDirectory := some false },
          edges := (addUniqueEdge
            (ensureFolderNodeF repoId f.dropLast.length f.dropLast st.graph).snd.edges
            (ensureFolderNodeF repoId f.dropLast.length f.dropLast st.graph).fst
            (generateNodeId repoId ("file:" ++ renderSegs f)) "CONTAINS" repoId).fst } } := rfl
  rw [heq]
  obtain ⟨⟨ext2, ha2⟩, ha3, ha4, ha5, ha6⟩ :=
    addUniqueEdge_contains_ok r4 r5 r6 r1 rfl (rankLt_folderD_file f.dropLast (renderSegs f))
  have hRA : RootedAt repoId
      ((addUniqueEdge (ensureFolderNodeF repoId f.dropLast.length f.dropLast st.graph).snd.edges
        (ensureFolderNodeF repoId f.dropLast.length f.dropLast st.graph).fst
        (generateNodeId repoId ("file:" ++ renderSegs f)) "CONTAINS" repoId).fst)
      (generateNodeId repoId ("file:" ++ renderSegs f)) := by
    obtain ⟨e, he, he1, he2, he3⟩ := ha6
    refine RootedAt_step ?_ e he he1 he2 he3
    rw [ha2, r1]
    exact RootedAt_append r9
  refine ⟨⟨⟨ha3, ha4, ha5, ?_, ?_⟩, hdefs, hrefs⟩, ⟨ext1 ++ ext2, ?_⟩, ?_, hRA⟩
  · exact keysNodup_aset _ _ _ r7
  · intro p hp
    rcases mem_aset (show p ∈ aset
        (ensureFolderNodeF repoId f.dropLast.length f.dropLast st.graph).snd.nodes _ _
      from hp) with hp1 | hp1
    · rw [hp1]
      exact hRA
    · rcases r8 p hp1 with hp2 | hp2
      · rw [ha2, r2, List.append_assoc]
        exact RootedAt_append (hreach p hp2)
      · rw [ha2]
        exact RootedAt_append hp2
  · rw [ha2, r2, List.append_assoc]
  · intro k hk
    exact lookup_isSome_aset _ k _ _ (r3 k hk)

/-- One files-loop iteration over a hygienic tree and file path preserves
the build-state invariant, only appends edges, and keeps old nodes
present. -/
theorem fileStep_inv (repoId repoPath : String) (fsRoot : FsEntries) (f : List String)
    (st st' : BuildState)
    (hrp : strStarts "/" repoPath = true)
    (hfs : cleanFsEntries fsRoot = true)
    (hseg : ∀ x ∈ f, x ≠ ".")
    (hinv : StInv repoId st)
    (h : fileStep repoId repoPath fsRoot f st = Except.ok st') :
    StInv repoId st' ∧
    (∃ ext, st'.graph.edges = st.graph.edges ++ ext) ∧
    (∀ k, nhas st.graph k = true → nhas st'.graph k = true) := by
  unfold fileStep at h
  split at h
  · cases h
    exact ⟨hinv, ⟨[], (List.append_nil _).symm⟩, fun k hk => hk⟩
  · split at h
    · cases h
      exact ⟨hinv, ⟨[], (List.append_nil _).symm⟩, fun k hk => hk⟩
    · rename_i c hlk
      split at h
      · cases h
        exact ⟨hinv, ⟨[], (List.append_nil _).symm⟩, fun k hk => hk⟩
      · rename_i hsz
        split at h
        · exact Except.noConfusion h
        · exact Except.noConfusion h
        · rename_i tags ms2 hpr
          cases h
          obtain ⟨he1, ⟨ext1, he2⟩, he3, he4⟩ := fileStepEnsure_spec repoId f st hinv hseg
          have hcc : cleanContent c = true := fsLookup_clean fsRoot f c hfs hlk
          have htags : ∀ t ∈ tags, TagOk t := by
            have h2 := parseFileM_tagOk f c (fileStepEnsure repoId f st).ms hcc
            rw [hpr] at h2
            simpa [tagsOf] using h2
          have hinv2 : StInv repoId
              ({ fileStepEnsure repoId f st with ms := ms2 } : BuildState) :=
            StInv_congr he1 rfl rfl rfl
          obtain ⟨ha, ⟨ext2, hb⟩, hcm⟩ := applyTags_inv repoId repoPath f
            (generateNodeId repoId ("file:" ++ renderSegs f)) hrp rfl tags _ htags hinv2 he4
          refine ⟨ha, ⟨ext1 ++ ext2, ?_⟩, ?_⟩
          · rw [hb]
            show (fileStepEnsure repoId f st).graph.edges ++ ext2 = _
            rw [he2, List.append_assoc]
          · intro k hk
            exact hcm k (he3 k hk)

/-- The whole files loop over hygienic input preserves the build-state
invariant. -/
theorem filesLoop_inv (repoId repoPath : String) (fsRoot : FsEntries)
    (hrp : strStarts "/" repoPath = true) (hfs : cleanFsEntries fsRoot = true) :
    ∀ (files : List (List String)) (st st' : BuildState),
      (∀ f ∈ files, ∀ x ∈ f, x ≠ ".") →
      StInv repoId st →
      filesLoop repoId repoPath fsRoot files st = Except.ok st' →
      StInv repoId st'
  | [], st, st', hfiles, hinv, h => by
    simp only [filesLoop] at h
    cases h
    exact hinv
  | f :: rest, st, st', hfiles, hinv, h => by
    simp only [filesLoop] at h
    cases hf : fileStep repoId repoPath fsRoot f st with
    | error e => rw [hf] at h; cases h
    | ok st2 =>
      rw [hf] at h
      obtain ⟨ha, _, _⟩ := fileStep_inv repoId repoPath fsRoot f st st2 hrp hfs
        (hfiles f (List.mem_cons_self _ _)) hinv hf
      exact filesLoop_inv repoId repoPath fsRoot hrp hfs rest st2 st'
        (fun g hg => hfiles g (List.mem_cons_of_mem _ hg)) ha h

/-- A separator-free prefix followed by the separator determines the
split uniquely. -/
theorem sep_append_inj (sep : Char) : ∀ (l1 l2 r1 r2 : List Char),
    sep ∉ l1 → sep ∉ l2 → l1 ++ sep :: r1 = l2 ++ sep :: r2 → l1 = l2 ∧ r1 = r2
  | [], [], r1, r2, _, _, h => ⟨rfl, by simpa using h⟩
  | [], x :: l2, r1, r2, h1, h2, h => by
    simp only [List.nil_append, List.cons_append, List.cons.injEq] at h
    obtain ⟨h3, -⟩ := h
    subst h3
    exact absurd (List.mem_cons_self _ _) h2
  | x :: l1, [], r1, r2, h1, h2, h => by
    simp only [List.nil_append, List.cons_append, List.cons.injEq] at h
    obtain ⟨h3, -⟩ := h
    subst h3
    exact absurd (List.mem_cons_self _ _) h1
  | x :: l1, y :: l2, r1, r2, h1, h2, h => by
    simp only [List.cons_append, List.cons.injEq] at h
    obtain ⟨hxy, h3⟩ := h
    obtain ⟨ha, hb⟩ := sep_append_inj sep l1 l2 r1 r2
      (fun hm => h1 (List.mem_cons_of_mem _ hm)) (fun hm => h2 (List.mem_cons_of_mem _ hm)) h3
    exact ⟨by rw [hxy, ha], hb⟩

/-- `name ++ ":" ++ type` keys with colon-free names split uniquely. -/
theorem colon_key_inj {a b c d : String} (ha : ':' ∉ a.data) (hc : ':' ∉ c.data)
    (h : a ++ ":" ++ b = c ++ ":" ++ d) : a = c ∧ b = d := by
  have h1 := congrArg String.data h
  rw [string_data_append, string_data_append, string_data_append, string_data_append,
    List.append_assoc, List.append_assoc] at h1
  obtain ⟨h3, h4⟩ := sep_append_inj ':' a.data c.data b.data d.data ha hc h1
  constructor
  · cases a; cases c; exact congrArg String.mk h3
  · cases b; cases d; exact congrArg String.mk h4

/-- The resolver's lookup key `refName:refType` never matches a
definitions-map key `defName:defType`: reference types and definition
types are disjoint. -/
theorem refkey_lookup_none {refName refType : String} (hn : ':' ∉ refName.data)
    (ht : refType ∈ refTypes) :
    ∀ (defs : List (String × Tag)), (∀ kv ∈ defs, DefKeyOk kv.1) →
      List.lookup (refName ++ ":" ++ refType) defs = none
  | [], _ => rfl
  | (k, v) :: rest, hd => by
    obtain ⟨n, t, hkeq, hnc, htd⟩ := hd (k, v) (List.mem_cons_self _ _)
    have hne : (refName ++ ":" ++ refType == k) = false := by
      refine beq_eq_false_iff_ne.mpr ?_
      intro he
      have hkeq2 : k = n ++ ":" ++ t := hkeq
      rw [hkeq2] at he
      obtain ⟨-, h2⟩ := colon_key_inj hn hnc he
      rw [← h2] at htd
      simp only [refTypes, List.mem_cons, List.not_mem_nil, or_false] at ht
      rcases ht with h3 | h3 | h3 <;> rw [h3] at htd <;> exact absurd htd (by decide)
    have hstep : List.lookup (refName ++ ":" ++ refType) ((k, v) :: rest) =
        List.lookup (refName ++ ":" ++ refType) rest := by
      simp [List.lookup, hne]
    rw [hstep]
    exact refkey_lookup_none hn ht rest (fun kv hkv => hd kv (List.mem_cons_of_mem _ hkv))

/-- One resolver iteration over a well-formed state only bumps the
missing-definitions counter: the lookup can never succeed. -/
theorem resolveRefStep_noop (repoId : String) (st : BuildState) (ref : Tag)
    (hdefs : ∀ kv ∈ st.definitions, DefKeyOk kv.1)
    (hr : (':' ∉ ref.name.data) ∧ ref.type ∈ refTypes) :
    resolveRefStep repoId st ref =
      { st with missingDefinitions := st.missingDefinitions + 1 } := by
  unfold resolveRefStep
  rw [refkey_lookup_none hr.1 hr.2 st.definitions hdefs]

/-- The whole resolver pass over a well-formed state is a graph no-op: it
only adds the number of buffered references to the missing-definitions
counter. -/
theorem resolverLoop_noop (repoId : String) :
    ∀ (refs : List Tag) (st : BuildState),
      (∀ kv ∈ st.definitions, DefKeyOk kv.1) →
      (∀ r ∈ refs, (':' ∉ r.name.data) ∧ r.type ∈ refTypes) →
      resolverLoop repoId refs st =
        { st with missingDefinitions := st.missingDefinitions + refs.length }
  | [], st, hd, hr => by simp [resolverLoop]
  | ref :: rest, st, hd, hr => by
    simp only [resolverLoop]
    rw [resolveRefStep_noop repoId st ref hd (hr ref (List.mem_cons_self _ _))]
    rw [resolverLoop_noop repoId rest { st with missingDefinitions := st.missingDefinitions + 1 }
      hd (fun r h2 => hr r (List.mem_cons_of_mem _ h2))]
    have h3 : ∀ m : Nat, m + 1 + rest.length = m + (ref :: rest).length := by
      intro m
      simp only [List.length_cons]
      omega
    simp only [h3]

/-- The state the Neo4j-variant build starts from satisfies the full
invariant: one root node, no edges, empty symbol maps. -/
theorem initial_StInv (inp : BuildInput) (ms0 : ModuleState) :
    StInv inp.repoId (initialBuildState inp ms0) := by
  refine ⟨⟨?_, ?_, ?_, ?_, ?_⟩, ?_, ?_⟩
  · intro e he
    exact absurd he (List.not_mem_nil e)
  · intro e he
    exact absurd he (List.not_mem_nil e)
  · exact List.Pairwise.nil
  · exact List.nodup_singleton _
  · intro p hp
    cases hp with
    | head => exact Or.inl rfl
    | tail _ h2 => exact absurd h2 (List.not_mem_nil p)
  · intro kv hkv
    exact absurd hkv (List.not_mem_nil kv)
  · intro r hr
    exact absurd hr (List.not_mem_nil r)

/-- A completed Neo4j-variant build over hygienic input satisfies the
graph invariant: repo-tagged edges, rank-increasing `CONTAINS` edges, no
duplicate `CONTAINS` edges, nodup node keys, and every node anchored at
one of the two root representations. -/
theorem buildGraphNeo4j_inv (inp : BuildInput) (ms0 : ModuleState)
    (res : BuildResult) (ms' : ModuleState)
    (hc : cleanInputB inp = true)
    (h : buildGraphNeo4j inp ms0 = Except.ok (res, ms')) :
    PipeInv inp.repoId { nodes := res.graph.nodes, edges := res.graph.edges } := by
  have hc2 := hc
  simp only [cleanInputB, Bool.and_eq_true, List.all_eq_true, Bool.not_eq_true'] at hc2
  obtain ⟨⟨hrp, hfiles0⟩, hfs⟩ := hc2
  have hfiles : ∀ f ∈ inp.files, ∀ x ∈ f, x ≠ "." := by
    intro f hf x hx
    exact ne_of_beq_false ((hfiles0 f hf).2 x hx)
  unfold buildGraphNeo4j at h
  split at h
  · exact Except.noConfusion h
  · rename_i st1 hd
    split at h
    · exact Except.noConfusion h
    · rename_i st2 hfl
      unfold processDirW at hd
      obtain ⟨hd1, -, -, hd4⟩ := ensureDirNode_spec inp.repoId inp.repoName [] "repo:root"
        (initialBuildState inp ms0) (initial_StInv inp ms0) (Or.inl rfl)
        (fun x hx => absurd hx (List.not_mem_nil x)) (fun hne => absurd rfl hne)
      obtain ⟨hst1, -, -⟩ := processEntriesW_inv inp.repoId inp.repoPath inp.repoName hrp
        inp.fsRoot [] _ st1 hfs (fun x hx => absurd hx (List.not_mem_nil x)) hd1 hd4 hd
      have hst2 : StInv inp.repoId st2 :=
        filesLoop_inv inp.repoId inp.repoPath inp.fsRoot hrp hfs inp.files st1 st2
          hfiles hst1 hfl
      have hnoop := resolverLoop_noop inp.repoId st2.references st2 hst2.defsOk hst2.refsOk
      injection h with h2
      have hg := congrArg (fun pr => (Prod.fst pr).graph) h2
      simp only at hg
      rw [hnoop] at hg
      rw [← hg]
      exact hst2.graphInv

/-- `ensureFolderLink` keeps every present node present (it only touches
edges, plus the dead node-reinsertion branch). -/
theorem ensureFolderLink_nhas_mono (repoId nodeId : String) (fn : GraphNodeData)
    (pr : String × GraphData) (k : String) (h : nhas pr.snd k = true) :
    nhas (ensureFolderLink repoId nodeId fn pr) k = true := by
  unfold ensureFolderLink
  by_cases hn : nhas { pr.snd with
      edges := (addUniqueEdge pr.snd.edges pr.fst nodeId "CONTAINS" repoId).fst } nodeId = true
  · rw [if_pos hn]
    exact h
  · rw [if_neg hn]
    exact lookup_isSome_aset _ k _ _ h

/-- The folder chain keeps every present node present, with no
side conditions. -/
theorem ensureFolderNodeF_nhas_mono (repoId : String) :
    ∀ (fuel : Nat) (segs : List String) (g : GraphData) (k : String),
      nhas g k = true → nhas (ensureFolderNodeF repoId fuel segs g).snd k = true
  | 0, [], _, _, h => h
  | Nat.succ _, [], _, _, h => h
  | 0, _ :: _, _, _, h => h
  | Nat.succ fuel, s :: ss, g, k, h => by
    simp only [ensureFolderNodeF]
    by_cases hn : nhas g (generateNodeId repoId ("folder:" ++ renderSegs (s :: ss))) = true
    · rw [if_pos hn]
      exact h
    · rw [if_neg hn]
      exact ensureFolderLink_nhas_mono repoId _ _ _ k
        (ensureFolderNodeF_nhas_mono repoId fuel (s :: ss).dropLast _ k
          (lookup_isSome_aset _ k _ _ h))

/-- After one `ensureFolderNode` level, the folder node for the path is
present. -/
theorem ensureFolderNodeF_nhas_self (repoId : String) (fuel : Nat) (s : String)
    (ss : List String) (g : GraphData) :
    nhas (ensureFolderNodeF repoId (Nat.succ fuel) (s :: ss) g).snd
      (generateNodeId repoId ("folder:" ++ renderSegs (s :: ss))) = true := by
  simp only [ensureFolderNodeF]
  by_cases hn : nhas g (generateNodeId repoId ("folder:" ++ renderSegs (s :: ss))) = true
  · rw [if_pos hn]
    exact hn
  · rw [if_neg hn]
    refine ensureFolderLink_nhas_mono repoId _ _ _ _
      (ensureFolderNodeF_nhas_mono repoId fuel (s :: ss).dropLast _ _ ?_)
    simp only [nhas]
    rw [lookup_aset_self]
    rfl

/-- Both branches of one `ensureFolderNode` level return the folder node id
of the path. -/
theorem ensureFolderNodeF_fst (repoId : String) (fuel : Nat) (s : String) (ss : List String)
    (g : GraphData) :
    (ensureFolderNodeF repoId (Nat.succ fuel) (s :: ss) g).fst
      = generateNodeId repoId ("folder:" ++ renderSegs (s :: ss)) := by
  simp only [ensureFolderNodeF]
  by_cases hn : nhas g (generateNodeId repoId ("folder:" ++ renderSegs (s :: ss))) = true
  · rw [if_pos hn]
  · rw [if_neg hn]

/-- Over nodup keys, a present key is counted exactly once. -/
theorem countP_key_eq_one {α : Type} :
    ∀ (l : List (String × α)) (k : String),
      (l.map Prod.fst).Nodup → (List.lookup k l).isSome = true →
      l.countP (fun p => p.1 == k) = 1
  | [], k, _, hk => by simp [List.lookup] at hk
  | (a, b) :: rest, k, hnd, hk => by
    simp only [List.map_cons, List.nodup_cons] at hnd
    obtain ⟨ha, hrest⟩ := hnd
    by_cases hak : a = k
    · have hzero : rest.countP (fun p => p.1 == k) = 0 := by
        rw [List.countP_eq_zero]
        intro q hq hbe
        have hqa : q.1 = k := by simpa using hbe
        refine ha ?_
        rw [hak, ← hqa]
        exact List.mem_map.mpr ⟨q, hq, rfl⟩
      rw [List.countP_cons, hzero]
      simp [hak]
    · have hka : (k == a) = false := beq_eq_false_iff_ne.mpr (fun he => hak he.symm)
      have hpf : (a == k) = false := beq_eq_false_iff_ne.mpr hak
      have hk2 : (List.lookup k rest).isSome = true := by
        simpa [List.lookup, hka] using hk
      have hrec := countP_key_eq_one rest k hrest hk2
      rw [List.countP_cons, hrec]
      simp [hpf]

/-- C1 (code_bug evidence): on the spec's own two-file example —
`a.ts` defines `function helper(){}`, `b.ts` calls `helper()` — the
Neo4j-variant build inserts **no** `REFERENCES` edge at all (the buffered
reference is looked up under the key `helper:functionCall`, while the
definition was recorded under `helper:function`, so the lookup fails and
the missing-definitions counter is bumped instead), no reference node is
ever materialized, and the CodeGraph-variant build likewise produces zero
`REFERENCES` edges.  This contradicts the claim that the final graph links
the reference to `helper`'s definition node. -/
theorem c1_reference_resolution_never_links :
    (resultEdges (buildGraphNeo4j inpHelper ModuleState.initial)).filter
        (fun e => e.type == "REFERENCES") = [] ∧
    resultMissingDefs (buildGraphNeo4j inpHelper ModuleState.initial) = some 1 ∧
    (resultNodes (buildGraphNeo4j inpHelper ModuleState.initial)).filter
        (fun p => p.snd.isReference == some true) = [] ∧
    resultRefEdgesA (buildGraphA "r" "/r" filesHelperA ModuleState.initial) = some [] := by
  decide

/-- C7 (code_bug evidence): a syntactically invalid `.ts` file inside a
hidden directory is skipped by the walk and handled by the `buildGraph`
files loop, whose `await parseFile(...)` has no try/catch — the rejection
escapes and the whole build fails instead of completing with a File node
and zero definitions. -/
theorem c7_parse_failure_in_files_loop_rejects :
    buildGraphNeo4j inpHidden ModuleState.initial = Except.error BuildErr.parseRejected := by
  decide

/-- C2 (counterexample): the standard collection-method call `arr.push(x)`
**does** produce a reference tag (named `push`, typed `functionCall`),
because neither `arr` nor `push` is in the combined global-symbols set —
that set contains global binding names only, not prototype method names
(the source's `getBuiltinPrototypeMethods` result is never used). -/
theorem c2_counterexample_collection_method_call_tagged :
    (visit "x.ts" arrPushCall initP).tags =
      [{ name := "push", type := "functionCall", kind := "ref", filePath := "x.ts",
         startLine := 3, endLine := 3,
         parent := some { name := some "global", type := "function",
                          locFilePath := "x.ts", locStartLine := 3 } }] := by
  decide

/-- C2 (amended): the filter works exactly as the membership rule states —
a plain call whose identifier is in the global set, a member call whose
object or property identifier is in the set, a bare `new Error(...)`, and
a `throw new Error(...)` each emit no tag on their own visit; prototype
method calls such as `arr.push(x)` are not in any of these categories and
are tagged. -/
theorem c2_amended_builtin_calls_produce_no_tag :
    ∀ (rp : String) (s : PState) (nm o p : String) (args : JsNodes) (sl el : Nat),
      (allGlobals.contains nm = true →
        (enterNode rp (JsNode.callExpr (Callee.cid nm) args sl el) s).tags = s.tags) ∧
      ((allGlobals.contains o || allGlobals.contains p) = true →
        (enterNode rp (JsNode.callExpr
            (Callee.cmember (MemPart.mid o) (PropPart.pid p)) args sl el) s).tags = s.tags) ∧
      ((enterNode rp (JsNode.newExpr (NewCallee.nid "Error") args sl el) s).tags = s.tags) ∧
      ((enterNode rp (JsNode.throwStmt
          (JsNode.newExpr (NewCallee.nid "Error") args sl el)) s).tags = s.tags) := by
  intro rp s nm o p args sl el
  refine ⟨fun h => ?_, fun h => ?_, ?_, ?_⟩
  · have h' : nm ∈ allGlobals := by simpa using h
    simp [enterNode, shouldIgnoreFunctionCall, h']
  · have h' : o ∈ allGlobals ∨ p ∈ allGlobals := by simpa using h
    rcases h' with h' | h' <;> simp [enterNode, shouldIgnoreFunctionCall, h']
  · simp [enterNode, shouldIgnoreFunctionCall]
  · simp [enterNode]

/-- C2 (witness): `console.log('x')` is a member call with a global object
name and yields no tag. -/
theorem c2_witness_console_log_untagged :
    (enterNode "x.ts" (JsNode.callExpr
        (Callee.cmember (MemPart.mid "console") (PropPart.pid "log"))
        JsNodes.nil 1 1) initP).tags = [] := by
  exact (c2_amended_builtin_calls_produce_no_tag "x.ts" initP "console" "console" "log"
    JsNodes.nil 1 1).2.1 (by decide)

/-- C8 (counterexample): in `class Outer { m() { class Inner {}; doWork() } }`,
the call emitted after the inner class's body ends carries the **global**
scope as its parent, not `Outer` — the exit visitor resets the current
class to `null` instead of restoring the prior value. -/
theorem c8_counterexample_scope_resets_to_global :
    ((visit "x.ts" nestedClassAst initP).tags.filter (fun t => t.kind == "ref")) =
      [{ name := "doWork", type := "functionCall", kind := "ref", filePath := "x.ts",
         startLine := 4, endLine := 4,
         parent := some { name := some "global", type := "function",
                          locFilePath := "x.ts", locStartLine := 4 } }] := by
  decide

/-- C8 (amended): leaving any class declaration resets the enclosing scope
to global (`none`) — not to its prior value — and a parse failure performs
no traversal at all: it leaves the module state untouched and emits no
tags, so no scope state can leak into subsequent extraction (the scope
variable is local to each `parseFile` call). -/
theorem c8_amended_class_exit_clears_scope :
    ∀ (rp : String) (id : Option String) (body : JsNodes) (sl el : Nat) (s : PState),
      (visit rp (JsNode.classDecl id body sl el) s).currentClass = none ∧
      (∀ (segs : List String) (b : Bool) (ms : ModuleState),
        parseFileM segs { sizeZero := b, parsed := none } ms =
            (Except.error ParseErr.parseFailure, ms) ∨
        parseFileM segs { sizeZero := b, parsed := none } ms =
            (Except.error ParseErr.neverSettles, ms)) := by
  intro rp id body sl el s
  constructor
  · simp [visit, exitNode]
  · intro segs b ms
    unfold parseFileM
    by_cases h : toLowerS (extnameOf (lastSeg segs)) ∈ parseExts
    · left; simp [h]
    · right; simp [h]

/-- C9 (counterexample): running the spec's own import-resolution example —
one file exporting `helper`, a later-extracted file importing and calling
it — registers no import-resolver alias and attaches no `targetFile` to
any emitted tag: the extractor has no visitor for export declarations, so
the export map stays empty and the conditional registration never fires. -/
theorem c9_counterexample_no_target_file_attached :
    c9run2.snd = ModuleState.initial ∧
    (tagsOf c9run1 ++ tagsOf c9run2).length = 2 ∧
    (tagsOf c9run1 ++ tagsOf c9run2).filter (fun t => !(t.targetFile == none)) = [] := by
  decide

/-- C10: the `Neo4jGraph` view handed to the persistence collaborator is
read-only — `addNode` and `addEdge` throw on every argument (and can never
return a modified graph), while `getNodes`, `getEdges`, `numberOfNodes`
and `numberOfEdges` keep reporting the assembled node and edge
collections. -/
theorem c10_neo4j_graph_read_only :
    ∀ (g : Neo4jGraphL) (nid : String) (d : GraphNodeData) (s t : String)
      (ed : GraphEdgeData),
      g.addNode nid d = Except.error "Cannot add nodes to Neo4jGraph - it is read-only" ∧
      g.addEdge s t ed = Except.error "Cannot add edges to Neo4jGraph - it is read-only" ∧
      (∀ g', g.addNode nid d ≠ Except.ok g') ∧
      (∀ g', g.addEdge s t ed ≠ Except.ok g') ∧
      g.getNodes = g.nodes.map Prod.snd ∧
      g.getEdges = g.edges ∧
      g.numberOfNodes = g.getNodes.length ∧
      g.numberOfEdges = g.getEdges.length := by
  intro g nid d s t ed
  refine ⟨rfl, rfl, ?_, ?_, rfl, rfl, ?_, rfl⟩
  · intro g' h
    simp [Neo4jGraphL.addNode] at h
  · intro g' h
    simp [Neo4jGraphL.addEdge] at h
  · simp [Neo4jGraphL.numberOfNodes, Neo4jGraphL.getNodes]

/-- C3: for a fixed input (repoId, file set, contents — all inside
`BuildInput`), the build is a pure function of its input, and over
hygienic input (identifiers cannot contain `#` or `:`, which is true of
everything a real parser yields) a completed run leaves the process-wide
parser maps exactly as pristine as it found them; hence a second run in
the same process reproduces the first run's result identically — the same
node ids, the same edge set, the same counts. -/
theorem c3_deterministic_reruns :
    ∀ inp : BuildInput, cleanInputB inp = true → rerunOk inp := by
  intro inp hc
  unfold rerunOk
  cases hb : buildGraphNeo4j inp ModuleState.initial with
  | error e => trivial
  | ok p =>
    obtain ⟨res, ms1⟩ := p
    have hms : ms1 = ModuleState.initial := buildGraphNeo4j_ms inp res ms1 hc hb
    refine ⟨hms, ?_⟩
    rw [hms] at hb ⊢
    exact hb

/-- C3 (witness): the two-file helper repository reruns identically. -/
theorem c3_witness_helper_rerun : rerunOk inpHelper :=
  c3_deterministic_reruns inpHelper (by decide)

/-- C9 (amended): the conditional half of the claim holds — when the
export map already records the imported source file as exporting the
imported name, visiting the import declaration registers the alias
`localName ↦ sourceFile#exportedName` — but extraction itself never
populates the export map (there is no visitor for export declarations),
so starting from the pristine process state the premise never becomes
true: the traversal keeps the module state pristine and no emitted tag
ever carries a `targetFile`. -/
theorem c9_amended_alias_registration_conditional_but_dead :
    (∀ (src : String) (ms : ModuleState) (sp : ImportSpec) (names : List String),
        List.lookup src ms.exportMap = some names →
        names.contains sp.exportedName = true →
        List.lookup sp.localName (applyImportSpec src ms sp).importResolver
          = some (src ++ "#" ++ sp.exportedName)) ∧
    (∀ (rp : String) (n : JsNode) (s : PState), cleanNode n = true →
        s.ms = ModuleState.initial →
        (visit rp n s).ms = ModuleState.initial ∧
        ∀ t ∈ (visit rp n s).tags, t ∈ s.tags ∨ t.targetFile = none) := by
  constructor
  · intro src ms sp names hlk hmem
    unfold applyImportSpec
    rw [hlk]
    simp only [Option.isSome_some, if_true, hmem]
    exact lookup_aset_self ms.importResolver sp.localName (src ++ "#" ++ sp.exportedName)
  · intro rp n s hc hms
    exact visit_stepOk rp n s hc hms

/-- C9 (witness): with a pre-seeded export map recording `./a ↦ helper`,
the import `import { helper } from './a'` registers the alias; and
visiting the call `helper()` from the pristine state leaves the module
state pristine. -/
theorem c9_witness_alias_and_pristine :
    List.lookup "helper"
        (applyImportSpec "./a" c9msX (ImportSpec.specifier "helper" "helper")).importResolver
      = some ("./a" ++ "#" ++ "helper") ∧
    (visit "b.ts" (JsNode.callExpr (Callee.cid "helper") JsNodes.nil 2 2) initP).ms
      = ModuleState.initial := by
  constructor
  · exact c9_amended_alias_registration_conditional_but_dead.1 "./a" c9msX
      (ImportSpec.specifier "helper" "helper") ["helper"] (by decide) (by decide)
  · exact (c9_amended_alias_registration_conditional_but_dead.2 "b.ts"
      (JsNode.callExpr (Callee.cid "helper") JsNodes.nil 2 2) initP (by decide) rfl).1

/-- C5 (counterexample): already on the two-file helper repository, the
file node for `a.ts` is present in the final graph but **not** reachable
from the repository-root node: the walk hangs the whole tree off its own
node for the path `"."` (disambiguator `folder:.`), which never receives a
`Contains` edge from the `repo:root` node. -/
theorem c5_counterexample_file_node_unreachable_from_root :
    resultEdges (buildGraphNeo4j inpHelper ModuleState.initial) = helperRunEdges ∧
    (List.lookup (generateNodeId "r" "file:a.ts")
        (resultNodes (buildGraphNeo4j inpHelper ModuleState.initial))).isSome = true ∧
    generateNodeId "r" "file:a.ts" ≠ generateNodeId "r" rootD ∧
    ¬ ReachC helperRunEdges (generateNodeId "r" rootD) (generateNodeId "r" "file:a.ts") := by
  refine ⟨by decide, by decide, by decide, fun hr => ?_⟩
  have hnosrc : ∀ e ∈ helperRunEdges, e.sourceId ≠ generateNodeId "r" rootD := by decide
  have h := reach_eq_of_no_src hnosrc hr
  exact absurd h (by decide)

/-- C4 (confirmed): in the graph a completed hygienic Neo4j-variant build
returns, at most one `CONTAINS` edge exists for each ordered node pair
(no duplicate is ever inserted), and no `CONTAINS` edge's reverse
direction is also present. -/
theorem c4_contains_no_dup_no_reverse (inp : BuildInput) (ms0 : ModuleState)
    (res : BuildResult) (ms' : ModuleState)
    (hc : cleanInputB inp = true)
    (h : buildGraphNeo4j inp ms0 = Except.ok (res, ms')) :
    NoDupContains res.graph.getEdges ∧ NoReverseContains res.graph.getEdges := by
  obtain ⟨-, hrank, hnd, -, -⟩ := buildGraphNeo4j_inv inp ms0 res ms' hc h
  exact ⟨hnd, noReverse_of_good hrank⟩

/-- C4 (witness): the two-file helper build satisfies both `CONTAINS`
properties. -/
theorem c4_witness_helper_contains_clean :
    NoDupContains helperResult.graph.getEdges ∧
    NoReverseContains helperResult.graph.getEdges :=
  c4_contains_no_dup_no_reverse inpHelper ModuleState.initial helperResult ModuleState.initial
    (by decide) (by decide)

/-- C5 (amended): every node of the graph a completed hygienic build
returns is one of the two root representations — the synthetic
`repo:root` node or the directory walk's own node for the path `"."` —
or reachable from one of them along a chain of `CONTAINS` edges; the
walk's tree hangs off the latter, which never receives an edge from
`repo:root`. -/
theorem c5_amended_every_node_rooted_at_either_root (inp : BuildInput) (ms0 : ModuleState)
    (res : BuildResult) (ms' : ModuleState)
    (hc : cleanInputB inp = true)
    (h : buildGraphNeo4j inp ms0 = Except.ok (res, ms')) :
    ReachAll inp.repoId { nodes := res.graph.nodes, edges := res.graph.getEdges } :=
  (buildGraphNeo4j_inv inp ms0 res ms' hc h).reach

/-- C5 (witness): on the two-file helper build every node is anchored at
one of the two roots. -/
theorem c5_witness_helper_rooted :
    ReachAll "r" { nodes := helperResult.graph.nodes, edges := helperResult.graph.getEdges } :=
  c5_amended_every_node_rooted_at_either_root inpHelper ModuleState.initial helperResult
    ModuleState.initial (by decide) (by decide)

/-- C6 (confirmed): `ensureFolderNode` is idempotent — the second call for
the same path returns the same node id and leaves the graph unchanged —
and, for a hygienic folder path none of whose ancestors exists yet in an
invariant-satisfying graph, the double call leaves exactly one folder
node and exactly one connecting `CONTAINS` edge for the path and for each
of its ancestors, the chain terminating at the repository-root node,
which is what the call for the root path itself returns unchanged. -/
theorem c6_ensure_folder_idempotent_and_ancestor_chain (repoId : String)
    (segs : List String) (g : GraphData)
    (hseg : ∀ x ∈ segs, x ≠ ".")
    (hinv : PipeInv repoId g)
    (habsent : ∀ k, 1 ≤ k → k ≤ segs.length →
      nhas g (generateNodeId repoId ("folder:" ++ renderSegs (segs.take k))) = false) :
    ensureFolderNode repoId segs (ensureFolderNode repoId segs g).snd
      = ((ensureFolderNode repoId segs g).fst, (ensureFolderNode repoId segs g).snd) ∧
    (ensureFolderNode repoId segs g).fst = generateNodeId repoId (folderD segs) ∧
    (∀ i, 1 ≤ i → i ≤ segs.length →
      (ensureFolderNode repoId segs g).snd.nodes.countP
        (fun p => p.1 == generateNodeId repoId ("folder:" ++ renderSegs (segs.take i))) = 1 ∧
      (ensureFolderNode repoId segs g).snd.edges.countP
        (fun e => e.sourceId == generateNodeId repoId (folderD (segs.take (i - 1))) &&
          e.targetId == generateNodeId repoId ("folder:" ++ renderSegs (segs.take i)) &&
          e.type == "CONTAINS") = 1) ∧
    ensureFolderNode repoId [] g = (generateNodeId repoId rootD, g) := by
  obtain ⟨hrepo, hrank, hnd, hkeys, hreach⟩ := hinv
  have hidem : ensureFolderNode repoId segs (ensureFolderNode repoId segs g).snd
      = ((ensureFolderNode repoId segs g).fst, (ensureFolderNode repoId segs g).snd) := by
    cases segs with
    | nil => rfl
    | cons s ss =>
      have hfst := ensureFolderNodeF_fst repoId ss.length s ss g
      have hself := ensureFolderNodeF_nhas_self repoId ss.length s ss g
      show ensureFolderNodeF repoId (Nat.succ ss.length) (s :: ss)
          (ensureFolderNodeF repoId (Nat.succ ss.length) (s :: ss) g).snd
        = ((ensureFolderNodeF repoId (Nat.succ ss.length) (s :: ss) g).fst,
           (ensureFolderNodeF repoId (Nat.succ ss.length) (s :: ss) g).snd)
      rw [hfst]
      set G := (ensureFolderNodeF repoId (Nat.succ ss.length) (s :: ss) g).snd with hG
      simp only [ensureFolderNodeF]
      rw [if_pos hself]
  obtain ⟨r1, ⟨ext1, r2⟩, r3, r4, r5, r6, r7, r8, r9, r10⟩ :=
    ensureFolderNodeF_spec repoId segs.length segs g (le_refl _) hseg
      hrepo hrank hnd hkeys (fun p hp => Or.inr (hreach p hp))
  refine ⟨hidem, r1, ?_, rfl⟩
  intro i h1 h2
  obtain ⟨hni, e, he, hes, het, hety⟩ := r10 habsent i h1 h2
  constructor
  · exact countP_key_eq_one _ _ r7 hni
  · refine Nat.le_antisymm (noDup_countP_le_one r6) ?_
    exact List.countP_pos_iff.mpr ⟨e, he, by simp [hes, het, hety]⟩

/-- C6 (witness): a two-level path over the empty graph. -/
theorem c6_witness_two_level_fresh_path :
    ensureFolderNode "r" ["p", "q"]
        (ensureFolderNode "r" ["p", "q"] ({ nodes := [], edges := [] } : GraphData)).snd
      = ((ensureFolderNode "r" ["p", "q"] ({ nodes := [], edges := [] } : GraphData)).fst,
         (ensureFolderNode "r" ["p", "q"] ({ nodes := [], edges := [] } : GraphData)).snd) ∧
    (ensureFolderNode "r" ["p", "q"] ({ nodes := [], edges := [] } : GraphData)).fst
      = generateNodeId "r" (folderD ["p", "q"]) ∧
    (∀ i, 1 ≤ i → i ≤ (["p", "q"] : List String).length →
      (ensureFolderNode "r" ["p", "q"]
          ({ nodes := [], edges := [] } : GraphData)).snd.nodes.countP
        (fun p => p.1 == generateNodeId "r"
          ("folder:" ++ renderSegs ((["p", "q"] : List String).take i))) = 1 ∧
      (ensureFolderNode "r" ["p", "q"]
          ({ nodes := [], edges := [] } : GraphData)).snd.edges.countP
        (fun e => e.sourceId == generateNodeId "r"
            (folderD ((["p", "q"] : List String).take (i - 1))) &&
          e.targetId == generateNodeId "r"
            ("folder:" ++ renderSegs ((["p", "q"] : List String).take i)) &&
          e.type == "CONTAINS") = 1) ∧
    ensureFolderNode "r" [] ({ nodes := [], edges := [] } : GraphData)
      = (generateNodeId "r" rootD, { nodes := [], edges := [] }) :=
  c6_ensure_folder_idempotent_and_ancestor_chain "r" ["p", "q"] { nodes := [], edges := [] }
    (by decide)
    ⟨fun e he => absurd he (List.not_mem_nil e), fun e he => absurd he (List.not_mem_nil e),
     List.Pairwise.nil, List.Pairwise.nil, fun p hp => absurd hp (List.not_mem_nil p)⟩
    (fun k h1 h2 => rfl)

end RepoMap
